import Mathlib

/-!
# Verification of the snarkVM Finalize Store

A shallow embedding of `synthesizer/src/store/program/finalize.rs`: the
`FinalizeStorage` data layer (six backend maps with atomic batching), the
three-level Merkle authentication, and the `FinalizeStore` facade.

Modelling conventions:
* `ProgramID`, `Identifier` (mapping names), `Plaintext` (keys) and `Value`
  are opaque hashable payloads; they are modelled as `Nat`.
* `Field` digests are modelled as `Nat` produced by an injective free hash:
  each domain-separated call shape of `N::hash_bhp1024` (and the Merkle root
  constructor `merkle_tree_bhp`) is a distinct injective `Nat` function built
  from `Nat.pair`.  This is the standard formalisation of the source's
  assumption that hash collisions are cryptographically infeasible.
* The backend `MemoryMap` (not part of the extracted sources) is modelled
  from the spec's Backend Map capability set: a committed association list
  plus an optional pending batch of enqueued write operations.
-/

namespace FinalizeStore

/-- Decidable equality on `Except`, for evaluating the model on concrete
inputs. -/
instance {ε α : Type} [DecidableEq ε] [DecidableEq α] :
    DecidableEq (Except ε α) := fun x y =>
  match x, y with
  | .ok a, .ok b =>
      if h : a = b then .isTrue (by rw [h])
      else .isFalse (by intro hh; cases hh; exact h rfl)
  | .error a, .error b =>
      if h : a = b then .isTrue (by rw [h])
      else .isFalse (by intro hh; cases hh; exact h rfl)
  | .ok _, .error _ => .isFalse (by intro h; cases h)
  | .error _, .ok _ => .isFalse (by intro h; cases h)

/-! ## The free hash model -/

/-- Injective encoding of a list of naturals into a natural. -/
def encodeList : List Nat → Nat
  | [] => 0
  | x :: xs => Nat.pair x (encodeList xs) + 1

theorem encodeList_injective : Function.Injective encodeList := by
  intro a
  induction a with
  | nil =>
    intro b h
    cases b with
    | nil => rfl
    | cons y ys => simp [encodeList] at h
  | cons x xs ih =>
    intro b h
    cases b with
    | nil => simp [encodeList] at h
    | cons y ys =>
      simp only [encodeList, Nat.add_right_cancel_iff] at h
      have h2 := Nat.pair_eq_pair.mp h
      rw [h2.1, ih h2.2]

/-- `mapping_id := H(bits(program_id ‖ mapping_name))`. -/
def hashMappingID (p m : Nat) : Nat := Nat.pair 0 (Nat.pair p m)

/-- `H(bits(key))`, the inner key hash. -/
def hashKeyPlain (k : Nat) : Nat := Nat.pair 1 k

/-- `key_id := H(bits(mapping_id ‖ H(key)))`. -/
def hashKeyID (mid kh : Nat) : Nat := Nat.pair 2 (Nat.pair mid kh)

/-- `H(bits(value))`, the inner value hash. -/
def hashValuePlain (v : Nat) : Nat := Nat.pair 3 v

/-- `value_id := H(bits(key_id ‖ H(value)))`. -/
def hashValueID (kid vh : Nat) : Nat := Nat.pair 4 (Nat.pair kid vh)

/-- The composite key-ID derivation used throughout the source. -/
def keyIdOf (mid k : Nat) : Nat := hashKeyID mid (hashKeyPlain k)

/-- The composite value-ID derivation used throughout the source. -/
def valueIdOf (kid v : Nat) : Nat := hashValueID kid (hashValuePlain v)

/-- Root of `merkle_tree_bhp` on a list of leaves (each leaf a digest). -/
def merkleRoot (leaves : List Nat) : Nat := Nat.pair 5 (encodeList leaves)

/-- Per-mapping checksum `H(bits(mid) ‖ concat of value_id bits)`. -/
def mappingChecksum (mid : Nat) (valueIds : List Nat) : Nat :=
  Nat.pair 6 (encodeList (mid :: valueIds))

/-- The final checksum `H(concat of the mapping checksums)`. -/
def checksumHash (cs : List Nat) : Nat := Nat.pair 7 (encodeList cs)

theorem hashMappingID_inj {p m p' m' : Nat}
    (h : hashMappingID p m = hashMappingID p' m') : p = p' ∧ m = m' := by
  have h1 := (Nat.pair_eq_pair.mp h).2
  exact Nat.pair_eq_pair.mp h1

theorem hashKeyID_inj {a b a' b' : Nat}
    (h : hashKeyID a b = hashKeyID a' b') : a = a' ∧ b = b' := by
  have h1 := (Nat.pair_eq_pair.mp h).2
  exact Nat.pair_eq_pair.mp h1

theorem keyIdOf_inj {mid k mid' k' : Nat}
    (h : keyIdOf mid k = keyIdOf mid' k') : mid = mid' ∧ k = k' := by
  have h1 := hashKeyID_inj h
  refine ⟨h1.1, ?_⟩
  have h2 := h1.2
  exact (Nat.pair_eq_pair.mp h2).2

theorem checksumHash_inj {a b : List Nat} (h : checksumHash a = checksumHash b) :
    a = b := by
  have h1 := (Nat.pair_eq_pair.mp h).2
  exact encodeList_injective h1

/-! ## Association-list primitives

These model the ordered-map semantics shared by `IndexMap`, `IndexSet`
and the committed contents of a backend map: lookup returns the first
binding, insert overwrites in place (keeping the binding's position) or
appends a fresh binding, and removal shifts subsequent entries (the
spec's ordering guarantee for `remove` / `shift_remove`). -/

variable {K V : Type} [DecidableEq K]

/-- Point lookup: first binding of the key. -/
def alGet : List (K × V) → K → Option V
  | [], _ => none
  | (k', v') :: t, k => if k' = k then some v' else alGet t k

/-- Insert: overwrite in place if the key is bound, else append. -/
def alInsert : List (K × V) → K → V → List (K × V)
  | [], k, v => [(k, v)]
  | (k', v') :: t, k, v =>
      if k' = k then (k, v) :: t else (k', v') :: alInsert t k v

/-- Remove every binding of the key, shifting subsequent entries. -/
def alRemove : List (K × V) → K → List (K × V)
  | [], _ => []
  | (k', v') :: t, k => if k' = k then alRemove t k else (k', v') :: alRemove t k

/-- Membership test on the key set. -/
def alContains (l : List (K × V)) (k : K) : Bool := (alGet l k).isSome

/-- `IndexMap::get_index_of`: position of a key in the entry order. -/
def alIndexOf (l : List (K × V)) (k : K) : Option Nat :=
  l.findIdx? (fun kv => decide (kv.1 = k))

/-- `IndexSet::insert`: append if absent, keep order otherwise. -/
def setInsert (l : List K) (x : K) : List K := if x ∈ l then l else l ++ [x]

/-- `IndexSet` removal, modelled from the spec: remove the element,
preserving the order of the remaining elements. -/
def setRemove (l : List K) (x : K) : List K := l.filter (fun y => y ≠ x)

/-! ### Association-list lemmas -/

theorem alGet_alInsert (l : List (K × V)) (k : K) (v : V) (k' : K) :
    alGet (alInsert l k v) k' = if k = k' then some v else alGet l k' := by
  induction l with
  | nil => by_cases h : k = k' <;> simp [alInsert, alGet, h]
  | cons e t ih =>
    obtain ⟨ek, ev⟩ := e
    by_cases h1 : ek = k
    · subst h1
      by_cases h2 : ek = k' <;> simp [alInsert, alGet, h2]
    · by_cases h2 : ek = k'
      · subst h2
        have h3 : k ≠ ek := fun hc => h1 hc.symm
        simp [alInsert, alGet, h1, h3]
      · simp [alInsert, alGet, h1, h2, ih]

theorem alGet_alRemove (l : List (K × V)) (k k' : K) :
    alGet (alRemove l k) k' = if k = k' then none else alGet l k' := by
  induction l with
  | nil => by_cases h : k = k' <;> simp [alRemove, alGet, h]
  | cons e t ih =>
    obtain ⟨ek, ev⟩ := e
    by_cases h1 : ek = k
    · subst h1
      by_cases h2 : ek = k'
      · subst h2
        simp [alRemove, ih]
      · simp [alRemove, alGet, h2, ih]
    · by_cases h2 : ek = k'
      · subst h2
        have h3 : k ≠ ek := fun hc => h1 hc.symm
        simp [alRemove, alGet, h1, h3, ih]
      · simp [alRemove, alGet, h1, h2, ih]

theorem alGet_eq_none_iff (l : List (K × V)) (k : K) :
    alGet l k = none ↔ ∀ e ∈ l, e.1 ≠ k := by
  induction l with
  | nil => simp [alGet]
  | cons e t ih =>
    obtain ⟨ek, ev⟩ := e
    by_cases h : ek = k <;> simp [alGet, h, ih]

theorem alGet_mem {l : List (K × V)} {k : K} {v : V} (h : alGet l k = some v) :
    (k, v) ∈ l := by
  induction l with
  | nil => simp [alGet] at h
  | cons e t ih =>
    obtain ⟨ek, ev⟩ := e
    by_cases h1 : ek = k
    · subst h1
      simp [alGet] at h
      simp [h]
    · simp [alGet, h1] at h
      exact List.mem_cons_of_mem _ (ih h)

theorem alGet_of_mem_nodup {l : List (K × V)} {k : K} {v : V}
    (hnd : (l.map Prod.fst).Nodup) (h : (k, v) ∈ l) : alGet l k = some v := by
  induction l with
  | nil => simp at h
  | cons e t ih =>
    obtain ⟨ek, ev⟩ := e
    simp only [List.map_cons, List.nodup_cons] at hnd
    rcases List.mem_cons.mp h with h1 | h1
    · cases h1
      simp [alGet]
    · have hne : ek ≠ k := by
        intro he
        subst he
        exact hnd.1 (List.mem_map.mpr ⟨(ek, v), h1, rfl⟩)
      simp [alGet, hne]
      exact ih hnd.2 h1

theorem alInsert_of_get_none {l : List (K × V)} {k : K} (v : V)
    (h : alGet l k = none) : alInsert l k v = l ++ [(k, v)] := by
  induction l with
  | nil => simp [alInsert]
  | cons e t ih =>
    obtain ⟨ek, ev⟩ := e
    by_cases h1 : ek = k
    · subst h1
      simp [alGet] at h
    · simp [alGet, h1] at h
      simp [alInsert, h1, ih h]

theorem alRemove_of_get_none {l : List (K × V)} {k : K}
    (h : alGet l k = none) : alRemove l k = l := by
  induction l with
  | nil => simp [alRemove]
  | cons e t ih =>
    obtain ⟨ek, ev⟩ := e
    by_cases h1 : ek = k
    · subst h1
      simp [alGet] at h
    · simp [alGet, h1] at h
      simp [alRemove, h1, ih h]

theorem alIndexOf_of_get_none {l : List (K × V)} {k : K}
    (h : alGet l k = none) : alIndexOf l k = none := by
  induction l with
  | nil => simp [alIndexOf]
  | cons e t ih =>
    obtain ⟨ek, ev⟩ := e
    by_cases h1 : ek = k
    · subst h1
      simp [alGet] at h
    · simp [alGet, h1] at h
      have := ih h
      simp [alIndexOf, List.findIdx?, h1] at this ⊢
      exact this

/-- Decomposition of a successful lookup: the list splits at the first
binding of the key. -/
theorem alGet_eq_some_split {l : List (K × V)} {k : K} {v : V}
    (h : alGet l k = some v) :
    ∃ l1 l2, l = l1 ++ (k, v) :: l2 ∧ ∀ e ∈ l1, e.1 ≠ k := by
  induction l with
  | nil => simp [alGet] at h
  | cons e t ih =>
    obtain ⟨ek, ev⟩ := e
    by_cases h1 : ek = k
    · subst h1
      simp [alGet] at h
      subst h
      exact ⟨[], t, by simp⟩
    · simp [alGet, h1] at h
      obtain ⟨l1, l2, hl, hl1⟩ := ih h
      refine ⟨(ek, ev) :: l1, l2, by simp [hl], ?_⟩
      intro e he
      rcases List.mem_cons.mp he with h2 | h2
      · simp [h2, h1]
      · exact hl1 e h2

theorem alInsert_append_cons {l1 l2 : List (K × V)} {k : K} (v w : V)
    (h : ∀ e ∈ l1, e.1 ≠ k) :
    alInsert (l1 ++ (k, v) :: l2) k w = l1 ++ (k, w) :: l2 := by
  induction l1 with
  | nil => simp [alInsert]
  | cons e t ih =>
    obtain ⟨ek, ev⟩ := e
    have hne : ek ≠ k := h (ek, ev) (by simp)
    simp only [List.cons_append, alInsert, hne, if_false, List.append_eq]
    rw [ih (fun e he => h e (List.mem_cons_of_mem _ he))]

theorem alRemove_append_cons {l1 l2 : List (K × V)} {k : K} (v : V)
    (h1 : ∀ e ∈ l1, e.1 ≠ k) (h2 : ∀ e ∈ l2, e.1 ≠ k) :
    alRemove (l1 ++ (k, v) :: l2) k = l1 ++ l2 := by
  induction l1 with
  | nil =>
    simp only [List.nil_append, alRemove, if_true]
    exact alRemove_of_get_none ((alGet_eq_none_iff l2 k).mpr h2)
  | cons e t ih =>
    obtain ⟨ek, ev⟩ := e
    have hne : ek ≠ k := h1 (ek, ev) (by simp)
    simp only [List.cons_append, alRemove, hne, if_false, List.append_eq]
    rw [ih (fun e he => h1 e (List.mem_cons_of_mem _ he))]

theorem alIndexOf_append_cons {l1 l2 : List (K × V)} {k : K} (v : V)
    (h : ∀ e ∈ l1, e.1 ≠ k) :
    alIndexOf (l1 ++ (k, v) :: l2) k = some l1.length := by
  induction l1 with
  | nil => simp [alIndexOf, List.findIdx?]
  | cons e t ih =>
    obtain ⟨ek, ev⟩ := e
    have hne : ek ≠ k := h (ek, ev) (by simp)
    have := ih (fun e he => h e (List.mem_cons_of_mem _ he))
    simp [alIndexOf, List.findIdx?, hne] at this ⊢
    exact this

theorem nodup_keys_alInsert {l : List (K × V)} (k : K) (v : V)
    (h : (l.map Prod.fst).Nodup) : ((alInsert l k v).map Prod.fst).Nodup := by
  rcases hg : alGet l k with _ | w
  · rw [alInsert_of_get_none v hg]
    simp only [List.map_append, List.map_cons, List.map_nil]
    rw [List.nodup_append]
    refine ⟨h, by simp, ?_⟩
    intro a ha hb
    rcases List.mem_map.mp ha with ⟨e, he, hfst⟩
    have hk : a = k := by simpa using hb
    exact (alGet_eq_none_iff l k).mp hg e he (hfst.trans hk)
  · obtain ⟨l1, l2, hl, hl1⟩ := alGet_eq_some_split hg
    subst hl
    rw [alInsert_append_cons w v hl1]
    simpa using h

theorem mem_alRemove_sub {l : List (K × V)} {k : K} {e : K × V}
    (h : e ∈ alRemove l k) : e ∈ l := by
  induction l with
  | nil => simp [alRemove] at h
  | cons f t ih =>
    obtain ⟨fk, fv⟩ := f
    by_cases h1 : fk = k
    · simp [alRemove, h1] at h
      exact List.mem_cons_of_mem _ (ih h)
    · simp only [alRemove, h1, if_false] at h
      rcases List.mem_cons.mp h with h2 | h2
      · simp [h2]
      · exact List.mem_cons_of_mem _ (ih h2)

theorem nodup_keys_alRemove {l : List (K × V)} (k : K)
    (h : (l.map Prod.fst).Nodup) : ((alRemove l k).map Prod.fst).Nodup := by
  induction l with
  | nil => simp [alRemove]
  | cons e t ih =>
    obtain ⟨ek, ev⟩ := e
    simp only [List.map_cons, List.nodup_cons] at h
    by_cases h1 : ek = k
    · simp [alRemove, h1]
      exact ih h.2
    · simp only [alRemove, h1, if_false, List.map_cons, List.nodup_cons]
      refine ⟨?_, ih h.2⟩
      intro hmem
      rcases List.mem_map.mp hmem with ⟨e2, he2, hfst⟩
      exact h.1 (List.mem_map.mpr ⟨e2, mem_alRemove_sub he2, hfst⟩)

/-! ## The backend map

Modelled from the spec: the Backend Map capability set of section 4.1 — a
committed, insertion-ordered map together with a nestable atomic-batch
frame.  `get`, `contains_key`, `iter`, `keys` and `values` read the
committed view; `get_speculative` reads the pending-batch view when a
batch is open; `insert` and `remove` are enqueued into an open batch and
applied immediately otherwise; `finish_atomic` commits the enqueued
writes and `abort_atomic` discards them. -/

/-- A single enqueued write operation. -/
inductive MapOp (K V : Type) where
  | ins (k : K) (v : V)
  | del (k : K)
  deriving DecidableEq

/-- A backend map: committed contents plus an optional pending batch. -/
structure AMap (K V : Type) where
  committed : List (K × V)
  pending : Option (List (MapOp K V))
  deriving DecidableEq

namespace AMap

/-- Apply one write operation to the committed contents. -/
def applyOp (l : List (K × V)) : MapOp K V → List (K × V)
  | .ins k v => alInsert l k v
  | .del k => alRemove l k

/-- Apply a batch of write operations in order. -/
def applyOps (l : List (K × V)) (ops : List (MapOp K V)) : List (K × V) :=
  ops.foldl applyOp l

/-- `get`: the committed view. -/
def get (m : AMap K V) (k : K) : Option V := alGet m.committed k

/-- `get_speculative`: the pending-batch view if a batch is open. -/
def getSpec (m : AMap K V) (k : K) : Option V :=
  match m.pending with
  | some ops => alGet (applyOps m.committed ops) k
  | none => alGet m.committed k

/-- `contains_key`: the committed view. -/
def containsK (m : AMap K V) (k : K) : Bool := alContains m.committed k

/-- `iter` / `keys` / `values`: the committed view. -/
def iter (m : AMap K V) : List (K × V) := m.committed

/-- `insert`: enqueue into an open batch, else apply immediately. -/
def insert (m : AMap K V) (k : K) (v : V) : AMap K V :=
  match m.pending with
  | some ops => { m with pending := some (ops ++ [.ins k v]) }
  | none => { m with committed := alInsert m.committed k v }

/-- `remove`: enqueue into an open batch, else apply immediately. -/
def remove (m : AMap K V) (k : K) : AMap K V :=
  match m.pending with
  | some ops => { m with pending := some (ops ++ [.del k]) }
  | none => { m with committed := alRemove m.committed k }

/-- `start_atomic`: open a batch frame (absorbed if one is open). -/
def startAtomic (m : AMap K V) : AMap K V :=
  match m.pending with
  | some _ => m
  | none => { m with pending := some [] }

/-- `is_atomic_in_progress`. -/
def isAtomicInProgress (m : AMap K V) : Bool := m.pending.isSome

/-- `abort_atomic`: discard the enqueued writes. -/
def abortAtomic (m : AMap K V) : AMap K V := { m with pending := none }

/-- `finish_atomic`: commit the enqueued writes. -/
def finishAtomic (m : AMap K V) : AMap K V :=
  match m.pending with
  | some ops => { committed := applyOps m.committed ops, pending := none }
  | none => m

/-- The empty map. -/
def empty : AMap K V := { committed := [], pending := none }

end AMap

/-! ## FinalizeStorage: the six maps and the error alphabet -/

/-- One structured error per `bail!` / `anyhow!` site of the source; the
source raises strings, which are modelled as distinct tags. -/
inductive Err where
  | initMappingExists
  | initMappingIdExists
  | insMappingNotInit
  | insKeyInKeyMap
  | insKvMissing
  | insKeyInKvList
  | updMappingNotInit
  | updKvMissing
  | updKeyExists
  | remMappingNotInit
  | remKvMissing
  | remKeyMissing
  | rmapMappingNotInit
  | rmapKvMissing
  | rmapProgramMissing
  | rmapNameMissing
  | rprogProgramMissing
  | rprogIndexMissing
  | rprogMappingNotInit
  | rprogKvMissing
  | treeMappingIdMissing
  | treeKvMissing
  | treeLeafIndexMissing
  | storeMappingNotInit
  | storeKvMissing
  | storeKeyIndexMissing
  | storeProgramIndexMissing
  deriving DecidableEq, Repr

/-- The six backend maps of `FinalizeStorage` (in-memory backend). -/
structure Storage where
  programIDMap : AMap Nat (List Nat)
  programIndexMap : AMap Nat Nat
  mappingIDMap : AMap (Nat × Nat) Nat
  keyValueIDMap : AMap Nat (List (Nat × Nat))
  keyMap : AMap Nat Nat
  valueMap : AMap Nat Nat
  deriving DecidableEq

namespace Storage

/-- The empty storage (`open` on the in-memory backend). -/
def empty : Storage :=
  { programIDMap := .empty, programIndexMap := .empty, mappingIDMap := .empty,
    keyValueIDMap := .empty, keyMap := .empty, valueMap := .empty }

/-- `FinalizeStorage::start_atomic`: fan out to all six maps. -/
def startAtomic (s : Storage) : Storage :=
  { programIDMap := s.programIDMap.startAtomic,
    programIndexMap := s.programIndexMap.startAtomic,
    mappingIDMap := s.mappingIDMap.startAtomic,
    keyValueIDMap := s.keyValueIDMap.startAtomic,
    keyMap := s.keyMap.startAtomic,
    valueMap := s.valueMap.startAtomic }

/-- `FinalizeStorage::is_atomic_in_progress`: any map in progress. -/
def isAtomicInProgress (s : Storage) : Bool :=
  s.programIDMap.isAtomicInProgress || s.programIndexMap.isAtomicInProgress
    || s.mappingIDMap.isAtomicInProgress || s.keyValueIDMap.isAtomicInProgress
    || s.keyMap.isAtomicInProgress || s.valueMap.isAtomicInProgress

/-- `FinalizeStorage::abort_atomic`: fan out to all six maps. -/
def abortAtomic (s : Storage) : Storage :=
  { programIDMap := s.programIDMap.abortAtomic,
    programIndexMap := s.programIndexMap.abortAtomic,
    mappingIDMap := s.mappingIDMap.abortAtomic,
    keyValueIDMap := s.keyValueIDMap.abortAtomic,
    keyMap := s.keyMap.abortAtomic,
    valueMap := s.valueMap.abortAtomic }

/-- `FinalizeStorage::finish_atomic`: fan out to all six maps. -/
def finishAtomic (s : Storage) : Storage :=
  { programIDMap := s.programIDMap.finishAtomic,
    programIndexMap := s.programIndexMap.finishAtomic,
    mappingIDMap := s.mappingIDMap.finishAtomic,
    keyValueIDMap := s.keyValueIDMap.finishAtomic,
    keyMap := s.keyMap.finishAtomic,
    valueMap := s.valueMap.finishAtomic }

/-- No batch is open on any of the six maps. -/
def Quiescent (s : Storage) : Prop :=
  s.programIDMap.pending = none ∧ s.programIndexMap.pending = none
    ∧ s.mappingIDMap.pending = none ∧ s.keyValueIDMap.pending = none
    ∧ s.keyMap.pending = none ∧ s.valueMap.pending = none

instance (s : Storage) : Decidable s.Quiescent := by
  unfold Quiescent; infer_instance

/-! ### Queries (the read set of `FinalizeStorage`)

The in-memory backend's reads are infallible, so the source's `?`
operators on them always succeed; only `contains_program` keeps the
`Result` structure, because its `Result::and` is load-bearing. -/

/-- `Result`-typed `contains_key` of a backend map (always `ok` for the
in-memory backend). -/
def containsR (m : AMap K V) [DecidableEq K] (k : K) : Except Err Bool :=
  .ok (m.containsK k)

/-- Rust `Result::and`: keep the second result unless the first errs. -/
def resultAnd (a b : Except Err Bool) : Except Err Bool :=
  match a with
  | .ok _ => b
  | .error e => .error e

/-- `contains_program`: `program_id_map.contains_key(p).and(program_index_map.contains_key(p))`. -/
def containsProgram (s : Storage) (p : Nat) : Except Err Bool :=
  resultAnd (containsR s.programIDMap p) (containsR s.programIndexMap p)

/-- `contains_mapping`. -/
def containsMapping (s : Storage) (p m : Nat) : Bool :=
  s.mappingIDMap.containsK (p, m)

/-- `get_mapping_names`. -/
def getMappingNames (s : Storage) (p : Nat) : Option (List Nat) :=
  s.programIDMap.getSpec p

/-- `get_mapping_id`. -/
def getMappingId (s : Storage) (p m : Nat) : Option Nat :=
  s.mappingIDMap.getSpec (p, m)

/-- `contains_key`: mapping ID speculatively, key membership committed. -/
def containsKey (s : Storage) (p m k : Nat) : Bool :=
  match s.getMappingId p m with
  | none => false
  | some mappingId => s.keyMap.containsK (keyIdOf mappingId k)

/-- `get_key_id`. -/
def getKeyId (s : Storage) (p m k : Nat) : Option Nat :=
  match s.getMappingId p m with
  | none => none
  | some mappingId =>
      let keyId := keyIdOf mappingId k
      match s.keyMap.containsK keyId with
      | true => some keyId
      | false => none

/-- `get_key`. -/
def getKey (s : Storage) (keyId : Nat) : Option Nat := s.keyMap.getSpec keyId

/-- `get_value_from_key_id`. -/
def getValueFromKeyId (s : Storage) (keyId : Nat) : Option Nat :=
  s.valueMap.getSpec keyId

/-- `get_value`, including the second-chance branch that recomputes the
mapping ID and key ID from the inputs when the primary lookup fails. -/
def getValue (s : Storage) (p m k : Nat) : Option Nat :=
  match s.getKeyId p m k with
  | some keyId => s.getValueFromKeyId keyId
  | none =>
      let mappingId := hashMappingID p m
      let keyId := keyIdOf mappingId k
      match s.keyMap.getSpec keyId with
      | some _ => s.getValueFromKeyId keyId
      | none => none

end Storage

/-! ## Merkle tree updates and tree construction

Trees are represented by their leaf sequences; `merkleRoot` is the root.
`prepare_update` and `prepare_append` are modelled from the spec: pure
functions returning the tree with a leaf replaced or leaves appended. -/

/-- `MerkleTreeUpdate`: the allowed set of Merkle tree operations. -/
inductive MerkleTreeUpdate where
  | insertValue (mappingId keyId valueId : Nat)
  | updateValue (mappingId : Nat) (index : Nat) (keyId valueId : Nat)
  | removeValue (mappingId : Nat) (index : Nat)
  | insertMapping (mappingId : Nat)
  | removeMapping (mappingId : Nat)
  deriving DecidableEq, Repr

/-- `MerkleTreeUpdate::mapping_id`. -/
def MerkleTreeUpdate.mappingId : MerkleTreeUpdate → Nat
  | .insertValue mid _ _ => mid
  | .updateValue mid _ _ _ => mid
  | .removeValue mid _ => mid
  | .insertMapping mid => mid
  | .removeMapping mid => mid

namespace Storage

/-- One step of the leaf-update loop in `to_mapping_tree`: skip updates
for other mappings, append for `InsertValue`, overwrite (checking the
index) for `UpdateValue`, shift-remove for `RemoveValue`. -/
def applyLeafUpdate (mid : Nat) (acc : Except Err (List Nat))
    (u : MerkleTreeUpdate) : Except Err (List Nat) := do
  let leaves ← acc
  if u.mappingId ≠ mid then pure leaves
  else
    match u with
    | .insertValue _ _ valueId => pure (leaves ++ [valueId])
    | .updateValue _ index _ valueId =>
        if index < leaves.length then pure (leaves.set index valueId)
        else throw .treeLeafIndexMissing
    | .removeValue _ index => pure (leaves.eraseIdx index)
    | _ => pure leaves

/-- `to_mapping_tree`: the mapping ID together with the mapping tree
(leaf sequence of `value_id`s, with the optional updates applied). -/
def toMappingTree (s : Storage) (p m : Nat)
    (optionalUpdates : Option (List MerkleTreeUpdate)) :
    Except Err (Nat × List Nat) := do
  let mappingId ← match s.getMappingId p m with
    | some mid => pure mid
    | none => throw Err.treeMappingIdMissing
  let keyValues ← match s.keyValueIDMap.getSpec mappingId with
    | some kv => pure kv
    | none => throw Err.treeKvMissing
  let leaves := keyValues.map Prod.snd
  let leaves ← match optionalUpdates with
    | some updates => updates.foldl (applyLeafUpdate mappingId) (pure leaves)
    | none => pure leaves
  pure (mappingId, leaves)

/-- One step of the `InsertMapping` / `RemoveMapping` loop of
`to_program_tree` over the collected mapping trees. -/
def applyMappingUpdate (acc : List (Nat × List Nat)) (u : MerkleTreeUpdate) :
    List (Nat × List Nat) :=
  match u with
  | .insertMapping mid => alInsert acc mid []
  | .removeMapping mid => alRemove acc mid
  | _ => acc

/-- `to_program_tree`: the program tree as its leaf sequence — the
mapping-tree roots in the iteration order of the program's mapping-name
set, with the optional updates applied. -/
def toProgramTree (s : Storage) (p : Nat)
    (optionalUpdates : Option (List MerkleTreeUpdate)) :
    Except Err (List Nat) := do
  let mappingNames := (s.programIDMap.getSpec p).getD []
  let pairs ← mappingNames.mapM (fun m => s.toMappingTree p m optionalUpdates)
  let mappingTrees := pairs.foldl (fun acc kv => alInsert acc kv.1 kv.2) []
  let mappingTrees := match optionalUpdates with
    | some updates => updates.foldl applyMappingUpdate mappingTrees
    | none => mappingTrees
  pure (mappingTrees.map (fun kv => merkleRoot kv.2))

/-- Insertion sort by key, modelling `IndexMap::sort_keys`. -/
def sortByKey (l : List (Nat × List Nat)) : List (Nat × List Nat) :=
  l.insertionSort (fun a b => a.1 ≤ b.1)

/-- `to_finalize_tree`: build every program tree, index it by deployment
index, sort by index, and return the finalize-tree leaf sequence (the
program-tree roots). -/
def toFinalizeLeaves (s : Storage) : Except Err (List Nat) := do
  let pairs ← s.programIndexMap.iter.mapM
    (fun qi => do pure (qi.2, ← s.toProgramTree qi.1 none))
  let programTrees := pairs.foldl (fun acc kv => alInsert acc kv.1 kv.2) []
  pure ((sortByKey programTrees).map (fun kv => merkleRoot kv.2))

/-! ### Mutators

Each mutator validates its preconditions and then issues its writes
inside an atomic batch.  A mutator returns the result together with the
post-call storage, so that a failed call's effect on the maps is part of
the model rather than assumed away.  The `atomic_write_batch!` macro is
modelled from the spec (section 4.5): open batches on all maps, run the
body, finish on success, abort on error; a body run inside a batch the
caller already opened is absorbed. -/

/-- Modelled from the spec: the `atomic_write_batch!` macro. -/
def atomicWriteBatch (s : Storage)
    (body : Storage → Except Err Unit × Storage) : Except Err Unit × Storage :=
  if s.isAtomicInProgress then body s
  else
    let s1 := s.startAtomic
    match body s1 with
    | (.ok _, s2) => (.ok (), s2.finishAtomic)
    | (.error e, s2) => (.error e, s2.abortAtomic)

/-- `initialize_mapping`.  (`u32` index saturation is not modelled: it is
not reached in any state with fewer than `2^32` programs.) -/
def initializeMapping (s : Storage) (p m : Nat) : Except Err Unit × Storage :=
  if s.mappingIDMap.containsK (p, m) then (.error .initMappingExists, s)
  else
    let mappingId := hashMappingID p m
    if s.keyValueIDMap.containsK mappingId then (.error .initMappingIdExists, s)
    else
      let mappingNames := (s.programIDMap.getSpec p).getD []
      let mappingNames := setInsert mappingNames m
      let programIndex := match s.programIndexMap.getSpec p with
        | some i => i
        | none =>
            match (s.programIndexMap.iter.map Prod.snd).max? with
            | some maxProgramIndex => maxProgramIndex + 1
            | none => 0
      atomicWriteBatch s (fun t =>
        let t := { t with programIDMap := t.programIDMap.insert p mappingNames }
        let t := { t with programIndexMap := t.programIndexMap.insert p programIndex }
        let t := { t with mappingIDMap := t.mappingIDMap.insert (p, m) mappingId }
        let t := { t with keyValueIDMap := t.keyValueIDMap.insert mappingId [] }
        (.ok (), t))

/-- `insert_key_value`. -/
def insertKeyValue (s : Storage) (p m k v : Nat) : Except Err Unit × Storage :=
  match s.getMappingId p m with
  | none => (.error .insMappingNotInit, s)
  | some mappingId =>
      let keyId := keyIdOf mappingId k
      let valueId := valueIdOf keyId v
      if s.keyMap.containsK keyId then (.error .insKeyInKeyMap, s)
      else
        match s.keyValueIDMap.getSpec mappingId with
        | none => (.error .insKvMissing, s)
        | some keyValueIds =>
            if alContains keyValueIds keyId then (.error .insKeyInKvList, s)
            else
              let keyValueIds := alInsert keyValueIds keyId valueId
              atomicWriteBatch s (fun t =>
                let t := { t with
                  keyValueIDMap := t.keyValueIDMap.insert mappingId keyValueIds }
                let t := { t with keyMap := t.keyMap.insert keyId k }
                let t := { t with valueMap := t.valueMap.insert keyId v }
                (.ok (), t))

/-- `update_key_value`. -/
def updateKeyValue (s : Storage) (p m k v : Nat) : Except Err Unit × Storage :=
  match s.getMappingId p m with
  | none => (.error .updMappingNotInit, s)
  | some mappingId =>
      let keyId := keyIdOf mappingId k
      let valueId := valueIdOf keyId v
      match s.keyValueIDMap.getSpec mappingId with
      | none => (.error .updKvMissing, s)
      | some keyValueIds =>
          if (s.keyMap.getSpec keyId).isNone ∧ alContains keyValueIds keyId then
            (.error .updKeyExists, s)
          else
            let keyValueIds := alInsert keyValueIds keyId valueId
            atomicWriteBatch s (fun t =>
              let t := { t with
                keyValueIDMap := t.keyValueIDMap.insert mappingId keyValueIds }
              let t := { t with keyMap := t.keyMap.insert keyId k }
              let t := { t with valueMap := t.valueMap.insert keyId v }
              (.ok (), t))

/-- `remove_key_value`. -/
def removeKeyValue (s : Storage) (p m k : Nat) : Except Err Unit × Storage :=
  match s.getMappingId p m with
  | none => (.error .remMappingNotInit, s)
  | some mappingId =>
      let keyId := keyIdOf mappingId k
      match s.keyValueIDMap.getSpec mappingId with
      | none => (.error .remKvMissing, s)
      | some keyValueIds =>
          if ¬ alContains keyValueIds keyId then (.error .remKeyMissing, s)
          else
            let keyValueIds := alRemove keyValueIds keyId
            atomicWriteBatch s (fun t =>
              let t := { t with
                keyValueIDMap := t.keyValueIDMap.insert mappingId keyValueIds }
              let t := { t with keyMap := t.keyMap.remove keyId }
              let t := { t with valueMap := t.valueMap.remove keyId }
              (.ok (), t))

/-- `remove_mapping`. -/
def removeMapping (s : Storage) (p m : Nat) : Except Err Unit × Storage :=
  match s.getMappingId p m with
  | none => (.error .rmapMappingNotInit, s)
  | some mappingId =>
      match s.keyValueIDMap.getSpec mappingId with
      | none => (.error .rmapKvMissing, s)
      | some keyValueIds =>
          match s.programIDMap.getSpec p with
          | none => (.error .rmapProgramMissing, s)
          | some mappingNames =>
              if ¬ m ∈ mappingNames then (.error .rmapNameMissing, s)
              else
                let mappingNames := setRemove mappingNames m
                atomicWriteBatch s (fun t =>
                  let t := { t with
                    programIDMap := t.programIDMap.insert p mappingNames }
                  let t := { t with
                    mappingIDMap := t.mappingIDMap.remove (p, m) }
                  let t := { t with
                    keyValueIDMap := t.keyValueIDMap.remove mappingId }
                  let t := keyValueIds.foldl (fun acc kv =>
                    let acc := { acc with keyMap := acc.keyMap.remove kv.1 }
                    { acc with valueMap := acc.valueMap.remove kv.1 }) t
                  (.ok (), t))

/-- The per-mapping loop inside `remove_program`'s atomic batch. -/
def removeProgramLoop (p : Nat) :
    List Nat → Storage → Except Err Unit × Storage
  | [], t => (.ok (), t)
  | m :: rest, t =>
      match t.getMappingId p m with
      | none => (.error .rprogMappingNotInit, t)
      | some mappingId =>
          match t.keyValueIDMap.getSpec mappingId with
          | none => (.error .rprogKvMissing, t)
          | some keyValueIds =>
              let t := { t with mappingIDMap := t.mappingIDMap.remove (p, m) }
              let t := { t with
                keyValueIDMap := t.keyValueIDMap.remove mappingId }
              let t := keyValueIds.foldl (fun acc kv =>
                let acc := { acc with keyMap := acc.keyMap.remove kv.1 }
                { acc with valueMap := acc.valueMap.remove kv.1 }) t
              removeProgramLoop p rest t

/-- `remove_program`. -/
def removeProgram (s : Storage) (p : Nat) : Except Err Unit × Storage :=
  match s.programIDMap.getSpec p with
  | none => (.error .rprogProgramMissing, s)
  | some mappingNames =>
      match s.programIndexMap.getSpec p with
      | none => (.error .rprogIndexMissing, s)
      | some deploymentIndex =>
          atomicWriteBatch s (fun t =>
            let t := { t with programIDMap := t.programIDMap.remove p }
            let t := { t with programIndexMap := t.programIndexMap.remove p }
            let t := t.programIndexMap.iter.foldl (fun acc qi =>
              if qi.2 > deploymentIndex then
                { acc with
                  programIndexMap := acc.programIndexMap.insert qi.1 (qi.2 - 1) }
              else acc) t
            removeProgramLoop p mappingNames t)

end Storage

/-! ## Net effects of the storage mutators on quiescent states

Each mutator's validations read the committed state when no batch is in
progress, and its batch commits all writes on success.  The lemmas below
invert a successful call into its reads and its net effect. -/

namespace Storage

/-- The deployment index chosen by `initialize_mapping` on a quiescent
state: the existing index, else `max + 1`, else `0`. -/
def newProgramIndex (s : Storage) (p : Nat) : Nat :=
  match alGet s.programIndexMap.committed p with
  | some i => i
  | none =>
      match (s.programIndexMap.committed.map Prod.snd).max? with
      | some maxProgramIndex => maxProgramIndex + 1
      | none => 0

theorem atomicWriteBatch_quiescent
    (c1 : List (Nat × List Nat)) (c2 : List (Nat × Nat))
    (c3 : List ((Nat × Nat) × Nat)) (c4 : List (Nat × List (Nat × Nat)))
    (c5 c6 : List (Nat × Nat)) (body : Storage → Except Err Unit × Storage) :
    Storage.atomicWriteBatch
      ⟨⟨c1, none⟩, ⟨c2, none⟩, ⟨c3, none⟩, ⟨c4, none⟩, ⟨c5, none⟩, ⟨c6, none⟩⟩
      body
    = match body ⟨⟨c1, some []⟩, ⟨c2, some []⟩, ⟨c3, some []⟩, ⟨c4, some []⟩,
        ⟨c5, some []⟩, ⟨c6, some []⟩⟩ with
      | (.ok _, s2) => (.ok (), s2.finishAtomic)
      | (.error e, s2) => (.error e, s2.abortAtomic) := rfl

theorem initializeMapping_ok {s s' : Storage} {p m : Nat}
    (hq : s.Quiescent) (h : s.initializeMapping p m = (.ok (), s')) :
    alContains s.mappingIDMap.committed (p, m) = false ∧
    alContains s.keyValueIDMap.committed (hashMappingID p m) = false ∧
    s' = { s with
      programIDMap := ⟨alInsert s.programIDMap.committed p
        (setInsert ((alGet s.programIDMap.committed p).getD []) m), none⟩,
      programIndexMap := ⟨alInsert s.programIndexMap.committed p
        (s.newProgramIndex p), none⟩,
      mappingIDMap := ⟨alInsert s.mappingIDMap.committed (p, m)
        (hashMappingID p m), none⟩,
      keyValueIDMap := ⟨alInsert s.keyValueIDMap.committed
        (hashMappingID p m) [], none⟩ } := by
  obtain ⟨⟨c1, pd1⟩, ⟨c2, pd2⟩, ⟨c3, pd3⟩, ⟨c4, pd4⟩, ⟨c5, pd5⟩, ⟨c6, pd6⟩⟩ := s
  obtain ⟨h1, h2, h3, h4, h5, h6⟩ := hq
  cases h1; cases h2; cases h3; cases h4; cases h5; cases h6
  by_cases hc3 : alContains c3 (p, m)
  · simp [initializeMapping, AMap.containsK, hc3] at h
  · by_cases hc4 : alContains c4 (hashMappingID p m)
    · simp [initializeMapping, AMap.containsK, hc3, hc4] at h
    · refine ⟨by simpa [AMap.containsK] using hc3,
        by simpa [AMap.containsK] using hc4, ?_⟩
      simp only [initializeMapping, AMap.containsK, hc3, hc4,
        Bool.false_eq_true, if_false, atomicWriteBatch, isAtomicInProgress,
        AMap.isAtomicInProgress, Option.isSome_none, Bool.or_self,
        Bool.false_or, startAtomic, AMap.startAtomic, AMap.insert,
        finishAtomic, AMap.finishAtomic, AMap.applyOps, AMap.applyOp,
        AMap.getSpec, AMap.iter, newProgramIndex, List.foldl,
        Prod.mk.injEq, true_and] at h ⊢
      exact h.symm

/-- Net effect of removing every key of an entry list from a map. -/
def removeAllKeys {W : Type} (kvs : List (Nat × Nat)) (c : List (Nat × W)) :
    List (Nat × W) :=
  kvs.foldl (fun acc kv => alRemove acc kv.1) c

theorem applyOps_append (c : List (K × V)) (a b : List (MapOp K V)) :
    AMap.applyOps c (a ++ b) = AMap.applyOps (AMap.applyOps c a) b := by
  simp [AMap.applyOps, List.foldl_append]

theorem applyOps_dels {W : Type} (kvs : List (Nat × Nat)) (c : List (Nat × W)) :
    AMap.applyOps c (kvs.map (fun kv => MapOp.del kv.1)) = removeAllKeys kvs c := by
  induction kvs generalizing c with
  | nil => simp [AMap.applyOps, removeAllKeys]
  | cons e t ih => simp [AMap.applyOps, removeAllKeys, AMap.applyOp, List.foldl]
                   exact ih (alRemove c e.1)

theorem removeFold_batched (kvs : List (Nat × Nat))
    (c1 : List (Nat × List Nat)) (pd1 : Option (List (MapOp Nat (List Nat))))
    (c2 : List (Nat × Nat)) (pd2 : Option (List (MapOp Nat Nat)))
    (c3 : List ((Nat × Nat) × Nat)) (pd3 : Option (List (MapOp (Nat × Nat) Nat)))
    (c4 : List (Nat × List (Nat × Nat)))
    (pd4 : Option (List (MapOp Nat (List (Nat × Nat)))))
    (c5 : List (Nat × Nat)) (ops5 : List (MapOp Nat Nat))
    (c6 : List (Nat × Nat)) (ops6 : List (MapOp Nat Nat)) :
    (kvs.foldl (fun acc kv =>
        let acc := { acc with keyMap := acc.keyMap.remove kv.1 }
        { acc with valueMap := acc.valueMap.remove kv.1 })
      ⟨⟨c1, pd1⟩, ⟨c2, pd2⟩, ⟨c3, pd3⟩, ⟨c4, pd4⟩, ⟨c5, some ops5⟩,
        ⟨c6, some ops6⟩⟩ : Storage)
    = ⟨⟨c1, pd1⟩, ⟨c2, pd2⟩, ⟨c3, pd3⟩, ⟨c4, pd4⟩,
        ⟨c5, some (ops5 ++ kvs.map (fun kv => MapOp.del kv.1))⟩,
        ⟨c6, some (ops6 ++ kvs.map (fun kv => MapOp.del kv.1))⟩⟩ := by
  induction kvs generalizing ops5 ops6 with
  | nil => simp
  | cons e t ih =>
    rw [List.foldl_cons]
    show List.foldl _ (⟨⟨c1, pd1⟩, ⟨c2, pd2⟩, ⟨c3, pd3⟩, ⟨c4, pd4⟩,
      ⟨c5, some (ops5 ++ [MapOp.del e.1])⟩,
      ⟨c6, some (ops6 ++ [MapOp.del e.1])⟩⟩ : Storage) t = _
    rw [ih]
    simp

theorem insertKeyValue_ok {s s' : Storage} {p m k v : Nat}
    (hq : s.Quiescent) (h : s.insertKeyValue p m k v = (.ok (), s')) :
    ∃ mappingId keyValueIds,
      alGet s.mappingIDMap.committed (p, m) = some mappingId ∧
      alContains s.keyMap.committed (keyIdOf mappingId k) = false ∧
      alGet s.keyValueIDMap.committed mappingId = some keyValueIds ∧
      alContains keyValueIds (keyIdOf mappingId k) = false ∧
      s' = { s with
        keyValueIDMap := ⟨alInsert s.keyValueIDMap.committed mappingId
          (alInsert keyValueIds (keyIdOf mappingId k)
            (valueIdOf (keyIdOf mappingId k) v)), none⟩,
        keyMap := ⟨alInsert s.keyMap.committed (keyIdOf mappingId k) k, none⟩,
        valueMap := ⟨alInsert s.valueMap.committed (keyIdOf mappingId k) v,
          none⟩ } := by
  obtain ⟨⟨c1, pd1⟩, ⟨c2, pd2⟩, ⟨c3, pd3⟩, ⟨c4, pd4⟩, ⟨c5, pd5⟩, ⟨c6, pd6⟩⟩ := s
  obtain ⟨h1, h2, h3, h4, h5, h6⟩ := hq
  cases h1; cases h2; cases h3; cases h4; cases h5; cases h6
  rcases hmid : alGet c3 (p, m) with _ | mid
  · simp [Storage.insertKeyValue, Storage.getMappingId, AMap.getSpec, hmid] at h
  · by_cases hc5 : alContains c5 (keyIdOf mid k)
    · simp [Storage.insertKeyValue, Storage.getMappingId, AMap.getSpec, hmid,
        AMap.containsK, hc5] at h
    · rcases hkv : alGet c4 mid with _ | kvs
      · simp [Storage.insertKeyValue, Storage.getMappingId, AMap.getSpec, hmid,
          AMap.containsK, hc5, hkv] at h
      · by_cases hin : alContains kvs (keyIdOf mid k)
        · simp [Storage.insertKeyValue, Storage.getMappingId, AMap.getSpec,
            hmid, AMap.containsK, hc5, hkv, hin] at h
        · have hres : Storage.insertKeyValue
              ⟨⟨c1, none⟩, ⟨c2, none⟩, ⟨c3, none⟩, ⟨c4, none⟩, ⟨c5, none⟩,
                ⟨c6, none⟩⟩ p m k v
              = (.ok (), ⟨⟨c1, none⟩, ⟨c2, none⟩, ⟨c3, none⟩,
                  ⟨alInsert c4 mid (alInsert kvs (keyIdOf mid k)
                    (valueIdOf (keyIdOf mid k) v)), none⟩,
                  ⟨alInsert c5 (keyIdOf mid k) k, none⟩,
                  ⟨alInsert c6 (keyIdOf mid k) v, none⟩⟩) := by
            simp [Storage.insertKeyValue, Storage.getMappingId, AMap.getSpec,
              hmid, AMap.containsK, hc5, hkv, hin, Storage.atomicWriteBatch,
              Storage.isAtomicInProgress, AMap.isAtomicInProgress,
              Storage.startAtomic, AMap.startAtomic, AMap.insert,
              Storage.finishAtomic, AMap.finishAtomic, AMap.applyOps,
              AMap.applyOp]
          rw [hres] at h
          have h9 := (Prod.mk.injEq _ _ _ _).mp h
          exact ⟨mid, kvs, rfl, by simpa using hc5, hkv, by simpa using hin,
            h9.2.symm⟩

theorem updateKeyValue_ok {s s' : Storage} {p m k v : Nat}
    (hq : s.Quiescent) (h : s.updateKeyValue p m k v = (.ok (), s')) :
    ∃ mappingId keyValueIds,
      alGet s.mappingIDMap.committed (p, m) = some mappingId ∧
      alGet s.keyValueIDMap.committed mappingId = some keyValueIds ∧
      ¬ (alGet s.keyMap.committed (keyIdOf mappingId k) = none
          ∧ alContains keyValueIds (keyIdOf mappingId k) = true) ∧
      s' = { s with
        keyValueIDMap := ⟨alInsert s.keyValueIDMap.committed mappingId
          (alInsert keyValueIds (keyIdOf mappingId k)
            (valueIdOf (keyIdOf mappingId k) v)), none⟩,
        keyMap := ⟨alInsert s.keyMap.committed (keyIdOf mappingId k) k, none⟩,
        valueMap := ⟨alInsert s.valueMap.committed (keyIdOf mappingId k) v,
          none⟩ } := by
  obtain ⟨⟨c1, pd1⟩, ⟨c2, pd2⟩, ⟨c3, pd3⟩, ⟨c4, pd4⟩, ⟨c5, pd5⟩, ⟨c6, pd6⟩⟩ := s
  obtain ⟨h1, h2, h3, h4, h5, h6⟩ := hq
  cases h1; cases h2; cases h3; cases h4; cases h5; cases h6
  rcases hmid : alGet c3 (p, m) with _ | mid
  · simp [Storage.updateKeyValue, Storage.getMappingId, AMap.getSpec, hmid] at h
  · rcases hkv : alGet c4 mid with _ | kvs
    · simp [Storage.updateKeyValue, Storage.getMappingId, AMap.getSpec, hmid,
        hkv] at h
    · by_cases hbail : alGet c5 (keyIdOf mid k) = none
          ∧ alContains kvs (keyIdOf mid k) = true
      · simp [Storage.updateKeyValue, Storage.getMappingId, AMap.getSpec, hmid,
          hkv, hbail.1, hbail.2] at h
      · have hbail2 : ¬ ((alGet c5 (keyIdOf mid k)).isNone = true
            ∧ alContains kvs (keyIdOf mid k) = true) := by
          intro hc
          exact hbail ⟨Option.isNone_iff_eq_none.mp hc.1, hc.2⟩
        have hres : Storage.updateKeyValue
            ⟨⟨c1, none⟩, ⟨c2, none⟩, ⟨c3, none⟩, ⟨c4, none⟩, ⟨c5, none⟩,
              ⟨c6, none⟩⟩ p m k v
            = (.ok (), ⟨⟨c1, none⟩, ⟨c2, none⟩, ⟨c3, none⟩,
                ⟨alInsert c4 mid (alInsert kvs (keyIdOf mid k)
                  (valueIdOf (keyIdOf mid k) v)), none⟩,
                ⟨alInsert c5 (keyIdOf mid k) k, none⟩,
                ⟨alInsert c6 (keyIdOf mid k) v, none⟩⟩) := by
          simp only [Storage.updateKeyValue, Storage.getMappingId, AMap.getSpec,
            hmid, hkv]
          rw [if_neg hbail2]
          simp [Storage.atomicWriteBatch, Storage.isAtomicInProgress,
            AMap.isAtomicInProgress, Storage.startAtomic, AMap.startAtomic,
            AMap.insert, Storage.finishAtomic, AMap.finishAtomic,
            AMap.applyOps, AMap.applyOp]
        rw [hres] at h
        have h9 := (Prod.mk.injEq _ _ _ _).mp h
        exact ⟨mid, kvs, rfl, hkv, hbail, h9.2.symm⟩

theorem removeKeyValue_ok {s s' : Storage} {p m k : Nat}
    (hq : s.Quiescent) (h : s.removeKeyValue p m k = (.ok (), s')) :
    ∃ mappingId keyValueIds,
      alGet s.mappingIDMap.committed (p, m) = some mappingId ∧
      alGet s.keyValueIDMap.committed mappingId = some keyValueIds ∧
      alContains keyValueIds (keyIdOf mappingId k) = true ∧
      s' = { s with
        keyValueIDMap := ⟨alInsert s.keyValueIDMap.committed mappingId
          (alRemove keyValueIds (keyIdOf mappingId k)), none⟩,
        keyMap := ⟨alRemove s.keyMap.committed (keyIdOf mappingId k), none⟩,
        valueMap := ⟨alRemove s.valueMap.committed (keyIdOf mappingId k),
          none⟩ } := by
  obtain ⟨⟨c1, pd1⟩, ⟨c2, pd2⟩, ⟨c3, pd3⟩, ⟨c4, pd4⟩, ⟨c5, pd5⟩, ⟨c6, pd6⟩⟩ := s
  obtain ⟨h1, h2, h3, h4, h5, h6⟩ := hq
  cases h1; cases h2; cases h3; cases h4; cases h5; cases h6
  rcases hmid : alGet c3 (p, m) with _ | mid
  · simp [Storage.removeKeyValue, Storage.getMappingId, AMap.getSpec, hmid] at h
  · rcases hkv : alGet c4 mid with _ | kvs
    · simp [Storage.removeKeyValue, Storage.getMappingId, AMap.getSpec, hmid,
        hkv] at h
    · by_cases hin : alContains kvs (keyIdOf mid k)
      · have hres : Storage.removeKeyValue
            ⟨⟨c1, none⟩, ⟨c2, none⟩, ⟨c3, none⟩, ⟨c4, none⟩, ⟨c5, none⟩,
              ⟨c6, none⟩⟩ p m k
            = (.ok (), ⟨⟨c1, none⟩, ⟨c2, none⟩, ⟨c3, none⟩,
                ⟨alInsert c4 mid (alRemove kvs (keyIdOf mid k)), none⟩,
                ⟨alRemove c5 (keyIdOf mid k), none⟩,
                ⟨alRemove c6 (keyIdOf mid k), none⟩⟩) := by
          simp [Storage.removeKeyValue, Storage.getMappingId, AMap.getSpec,
            hmid, hkv, hin, Storage.atomicWriteBatch,
            Storage.isAtomicInProgress, AMap.isAtomicInProgress,
            Storage.startAtomic, AMap.startAtomic, AMap.insert, AMap.remove,
            Storage.finishAtomic, AMap.finishAtomic, AMap.applyOps,
            AMap.applyOp]
        rw [hres] at h
        have h9 := (Prod.mk.injEq _ _ _ _).mp h
        exact ⟨mid, kvs, rfl, hkv, by simpa using hin, h9.2.symm⟩
      · simp [Storage.removeKeyValue, Storage.getMappingId, AMap.getSpec, hmid,
          hkv, hin] at h

theorem removeMapping_ok {s s' : Storage} {p m : Nat}
    (hq : s.Quiescent) (h : s.removeMapping p m = (.ok (), s')) :
    ∃ mappingId keyValueIds mappingNames,
      alGet s.mappingIDMap.committed (p, m) = some mappingId ∧
      alGet s.keyValueIDMap.committed mappingId = some keyValueIds ∧
      alGet s.programIDMap.committed p = some mappingNames ∧
      m ∈ mappingNames ∧
      s' = { s with
        programIDMap := ⟨alInsert s.programIDMap.committed p
          (setRemove mappingNames m), none⟩,
        mappingIDMap := ⟨alRemove s.mappingIDMap.committed (p, m), none⟩,
        keyValueIDMap := ⟨alRemove s.keyValueIDMap.committed mappingId, none⟩,
        keyMap := ⟨removeAllKeys keyValueIds s.keyMap.committed, none⟩,
        valueMap := ⟨removeAllKeys keyValueIds s.valueMap.committed, none⟩ } := by
  obtain ⟨⟨c1, pd1⟩, ⟨c2, pd2⟩, ⟨c3, pd3⟩, ⟨c4, pd4⟩, ⟨c5, pd5⟩, ⟨c6, pd6⟩⟩ := s
  obtain ⟨h1, h2, h3, h4, h5, h6⟩ := hq
  cases h1; cases h2; cases h3; cases h4; cases h5; cases h6
  rcases hmid : alGet c3 (p, m) with _ | mid
  · simp [Storage.removeMapping, Storage.getMappingId, AMap.getSpec, hmid] at h
  · rcases hkv : alGet c4 mid with _ | kvs
    · simp [Storage.removeMapping, Storage.getMappingId, AMap.getSpec, hmid,
        hkv] at h
    · rcases hns : alGet c1 p with _ | ns
      · simp [Storage.removeMapping, Storage.getMappingId, AMap.getSpec, hmid,
          hkv, hns] at h
      · by_cases hm : m ∈ ns
        · have hres : Storage.removeMapping
              ⟨⟨c1, none⟩, ⟨c2, none⟩, ⟨c3, none⟩, ⟨c4, none⟩, ⟨c5, none⟩,
                ⟨c6, none⟩⟩ p m
              = (.ok (), ⟨⟨alInsert c1 p (setRemove ns m), none⟩, ⟨c2, none⟩,
                  ⟨alRemove c3 (p, m), none⟩, ⟨alRemove c4 mid, none⟩,
                  ⟨removeAllKeys kvs c5, none⟩,
                  ⟨removeAllKeys kvs c6, none⟩⟩) := by
            simp only [Storage.removeMapping, Storage.getMappingId,
              AMap.getSpec, hmid, hkv, hns]
            rw [if_neg (not_not_intro hm), atomicWriteBatch_quiescent]
            show (Except.ok (), Storage.finishAtomic (List.foldl (fun acc kv =>
                let acc := { acc with keyMap := acc.keyMap.remove kv.1 }
                { acc with valueMap := acc.valueMap.remove kv.1 })
              ⟨⟨c1, some [MapOp.ins p (setRemove ns m)]⟩, ⟨c2, some []⟩,
                ⟨c3, some [MapOp.del (p, m)]⟩, ⟨c4, some [MapOp.del mid]⟩,
                ⟨c5, some []⟩, ⟨c6, some []⟩⟩ kvs)) = _
            rw [removeFold_batched]
            show (Except.ok (), (⟨⟨alInsert c1 p (setRemove ns m), none⟩,
              ⟨c2, none⟩, ⟨alRemove c3 (p, m), none⟩, ⟨alRemove c4 mid, none⟩,
              ⟨AMap.applyOps c5 (kvs.map (fun kv => MapOp.del kv.1)), none⟩,
              ⟨AMap.applyOps c6 (kvs.map (fun kv => MapOp.del kv.1)), none⟩⟩
                : Storage)) = _
            rw [applyOps_dels, applyOps_dels]
          rw [hres] at h
          have h9 := (Prod.mk.injEq _ _ _ _).mp h
          exact ⟨mid, kvs, ns, rfl, hkv, rfl, hm, h9.2.symm⟩
        · simp [Storage.removeMapping, Storage.getMappingId, AMap.getSpec,
            hmid, hkv, hns, hm] at h

theorem applyOps_inss {W : Type} (ps : List (Nat × W)) (c : List (Nat × W)) :
    AMap.applyOps c (ps.map (fun qi => MapOp.ins qi.1 qi.2))
    = ps.foldl (fun acc qi => alInsert acc qi.1 qi.2) c := by
  induction ps generalizing c with
  | nil => simp [AMap.applyOps]
  | cons e t ih =>
    simp only [List.map_cons, AMap.applyOps, List.foldl_cons, AMap.applyOp]
    exact ih (alInsert c e.1 e.2)

/-- The batched effect of the index-compaction loop in `remove_program`. -/
theorem indexFold_batched (depIdx : Nat) (entries : List (Nat × Nat)) :
    ∀ (c1 : List (Nat × List Nat)) (pd1 : Option (List (MapOp Nat (List Nat))))
      (c2 : List (Nat × Nat)) (d2 : List (MapOp Nat Nat))
      (c3 : List ((Nat × Nat) × Nat))
      (pd3 : Option (List (MapOp (Nat × Nat) Nat)))
      (c4 : List (Nat × List (Nat × Nat)))
      (pd4 : Option (List (MapOp Nat (List (Nat × Nat)))))
      (c5 : List (Nat × Nat)) (pd5 : Option (List (MapOp Nat Nat)))
      (c6 : List (Nat × Nat)) (pd6 : Option (List (MapOp Nat Nat))),
    entries.foldl (fun acc qi =>
      if qi.2 > depIdx then
        { acc with programIndexMap := acc.programIndexMap.insert qi.1 (qi.2 - 1) }
      else acc)
      (⟨⟨c1, pd1⟩, ⟨c2, some d2⟩, ⟨c3, pd3⟩, ⟨c4, pd4⟩, ⟨c5, pd5⟩,
        ⟨c6, pd6⟩⟩ : Storage)
    = ⟨⟨c1, pd1⟩, ⟨c2, some (d2 ++ (entries.filter (fun qi => qi.2 > depIdx)).map
        (fun qi => MapOp.ins qi.1 (qi.2 - 1)))⟩, ⟨c3, pd3⟩, ⟨c4, pd4⟩,
        ⟨c5, pd5⟩, ⟨c6, pd6⟩⟩ := by
  induction entries with
  | nil =>
    intro c1 pd1 c2 d2 c3 pd3 c4 pd4 c5 pd5 c6 pd6
    simp
  | cons e t ih =>
    intro c1 pd1 c2 d2 c3 pd3 c4 pd4 c5 pd5 c6 pd6
    rw [List.foldl_cons]
    by_cases he : e.2 > depIdx
    · rw [if_pos he]
      show List.foldl _ (⟨⟨c1, pd1⟩, ⟨c2, some (d2 ++ [MapOp.ins e.1 (e.2 - 1)])⟩,
        ⟨c3, pd3⟩, ⟨c4, pd4⟩, ⟨c5, pd5⟩, ⟨c6, pd6⟩⟩ : Storage) t = _
      rw [ih]
      simp [List.filter_cons, he]
    · rw [if_neg he]
      rw [ih]
      simp [List.filter_cons, he]

/-- The pure (state-free) model of `remove_program`'s per-mapping loop,
acting on the speculative views of the last four maps. -/
def removeProgramLoopPure (p : Nat) :
    List Nat → List ((Nat × Nat) × Nat) → List (Nat × List (Nat × Nat)) →
    List (Nat × Nat) → List (Nat × Nat) →
    Option (List ((Nat × Nat) × Nat) × List (Nat × List (Nat × Nat)) ×
      List (Nat × Nat) × List (Nat × Nat))
  | [], mids, kvm, km, vm => some (mids, kvm, km, vm)
  | m :: rest, mids, kvm, km, vm =>
      match alGet mids (p, m) with
      | none => none
      | some mappingId =>
          match alGet kvm mappingId with
          | none => none
          | some keyValueIds =>
              removeProgramLoopPure p rest (alRemove mids (p, m))
                (alRemove kvm mappingId) (removeAllKeys keyValueIds km)
                (removeAllKeys keyValueIds vm)

/-- Inverting a successful batched `remove_program` loop into the pure
model, on the speculative views of the mapping-ID, key-value, key and
value maps. -/
theorem removeProgramLoop_ok (p : Nat) (ns : List Nat) :
    ∀ (c1 : List (Nat × List Nat)) (pd1 : Option (List (MapOp Nat (List Nat))))
      (c2 : List (Nat × Nat)) (pd2 : Option (List (MapOp Nat Nat)))
      (c3 : List ((Nat × Nat) × Nat)) (d3 : List (MapOp (Nat × Nat) Nat))
      (c4 : List (Nat × List (Nat × Nat)))
      (d4 : List (MapOp Nat (List (Nat × Nat))))
      (c5 : List (Nat × Nat)) (d5 : List (MapOp Nat Nat))
      (c6 : List (Nat × Nat)) (d6 : List (MapOp Nat Nat)) (st' : Storage),
    Storage.removeProgramLoop p ns
      ⟨⟨c1, pd1⟩, ⟨c2, pd2⟩, ⟨c3, some d3⟩, ⟨c4, some d4⟩, ⟨c5, some d5⟩,
        ⟨c6, some d6⟩⟩ = (.ok (), st') →
    ∃ C3 C4 C5 C6,
      removeProgramLoopPure p ns (AMap.applyOps c3 d3) (AMap.applyOps c4 d4)
        (AMap.applyOps c5 d5) (AMap.applyOps c6 d6) = some (C3, C4, C5, C6) ∧
      st'.programIDMap = ⟨c1, pd1⟩ ∧
      st'.programIndexMap = ⟨c2, pd2⟩ ∧
      (∃ d3', st'.mappingIDMap = ⟨c3, some d3'⟩ ∧ AMap.applyOps c3 d3' = C3) ∧
      (∃ d4', st'.keyValueIDMap = ⟨c4, some d4'⟩ ∧ AMap.applyOps c4 d4' = C4) ∧
      (∃ d5', st'.keyMap = ⟨c5, some d5'⟩ ∧ AMap.applyOps c5 d5' = C5) ∧
      (∃ d6', st'.valueMap = ⟨c6, some d6'⟩ ∧ AMap.applyOps c6 d6' = C6) := by
  induction ns with
  | nil =>
    intro c1 pd1 c2 pd2 c3 d3 c4 d4 c5 d5 c6 d6 st' h
    simp only [Storage.removeProgramLoop, Prod.mk.injEq, true_and] at h
    subst h
    exact ⟨_, _, _, _, rfl, rfl, rfl, ⟨d3, rfl, rfl⟩, ⟨d4, rfl, rfl⟩,
      ⟨d5, rfl, rfl⟩, ⟨d6, rfl, rfl⟩⟩
  | cons m rest ih =>
    intro c1 pd1 c2 pd2 c3 d3 c4 d4 c5 d5 c6 d6 st' h
    rcases hmid : alGet (AMap.applyOps c3 d3) (p, m) with _ | mid
    · simp only [Storage.removeProgramLoop, Storage.getMappingId, AMap.getSpec,
        hmid] at h
      simp at h
    · rcases hkv : alGet (AMap.applyOps c4 d4) mid with _ | kvs
      · simp only [Storage.removeProgramLoop, Storage.getMappingId,
          AMap.getSpec, hmid, hkv] at h
        simp at h
      · simp only [Storage.removeProgramLoop, Storage.getMappingId,
          AMap.getSpec, hmid, hkv] at h
        rw [show (AMap.remove ⟨c3, some d3⟩ (p, m)
            : AMap (Nat × Nat) Nat)
          = ⟨c3, some (d3 ++ [MapOp.del (p, m)])⟩ from rfl] at h
        rw [show (AMap.remove ⟨c4, some d4⟩ mid
            : AMap Nat (List (Nat × Nat)))
          = ⟨c4, some (d4 ++ [MapOp.del mid])⟩ from rfl] at h
        rw [removeFold_batched] at h
        obtain ⟨C3, C4, C5, C6, hpure, hp1, hp2, h3x, h4x, h5x, h6x⟩ :=
          ih c1 pd1 c2 pd2 c3 (d3 ++ [MapOp.del (p, m)])
            c4 (d4 ++ [MapOp.del mid])
            c5 (d5 ++ kvs.map (fun kv => MapOp.del kv.1))
            c6 (d6 ++ kvs.map (fun kv => MapOp.del kv.1)) st' h
        have e3 : AMap.applyOps c3 (d3 ++ [MapOp.del (p, m)])
            = alRemove (AMap.applyOps c3 d3) (p, m) := by
          rw [applyOps_append]
          rfl
        have e4 : AMap.applyOps c4 (d4 ++ [MapOp.del mid])
            = alRemove (AMap.applyOps c4 d4) mid := by
          rw [applyOps_append]
          rfl
        have e5 : AMap.applyOps c5 (d5 ++ kvs.map (fun kv => MapOp.del kv.1))
            = removeAllKeys kvs (AMap.applyOps c5 d5) := by
          rw [applyOps_append, applyOps_dels]
        have e6 : AMap.applyOps c6 (d6 ++ kvs.map (fun kv => MapOp.del kv.1))
            = removeAllKeys kvs (AMap.applyOps c6 d6) := by
          rw [applyOps_append, applyOps_dels]
        rw [e3, e4, e5, e6] at hpure
        refine ⟨C3, C4, C5, C6, ?_, hp1, hp2, h3x, h4x, h5x, h6x⟩
        simp only [removeProgramLoopPure, hmid, hkv]
        exact hpure

/-- Indices after `remove_program`: the program's entry removed, and
every index above the removed one decremented in place. -/
def decrementIndices (c2 : List (Nat × Nat)) (p depIdx : Nat) :
    List (Nat × Nat) :=
  ((c2.filter (fun qi => qi.2 > depIdx)).map (fun qi => (qi.1, qi.2 - 1))).foldl
    (fun acc qi => alInsert acc qi.1 qi.2) (alRemove c2 p)

theorem removeProgram_ok {s s' : Storage} {p : Nat} (hq : s.Quiescent)
    (h : s.removeProgram p = (.ok (), s')) :
    ∃ ns depIdx C3 C4 C5 C6,
      alGet s.programIDMap.committed p = some ns ∧
      alGet s.programIndexMap.committed p = some depIdx ∧
      removeProgramLoopPure p ns s.mappingIDMap.committed
        s.keyValueIDMap.committed s.keyMap.committed s.valueMap.committed
        = some (C3, C4, C5, C6) ∧
      s' = ⟨⟨alRemove s.programIDMap.committed p, none⟩,
            ⟨decrementIndices s.programIndexMap.committed p depIdx, none⟩,
            ⟨C3, none⟩, ⟨C4, none⟩, ⟨C5, none⟩, ⟨C6, none⟩⟩ := by
  obtain ⟨⟨c1, pd1⟩, ⟨c2, pd2⟩, ⟨c3, pd3⟩, ⟨c4, pd4⟩, ⟨c5, pd5⟩, ⟨c6, pd6⟩⟩ := s
  obtain ⟨h1, h2, h3, h4, h5, h6⟩ := hq
  cases h1; cases h2; cases h3; cases h4; cases h5; cases h6
  rcases hns : alGet c1 p with _ | ns
  · simp [Storage.removeProgram, AMap.getSpec, hns] at h
  · rcases hidx : alGet c2 p with _ | depIdx
    · simp [Storage.removeProgram, AMap.getSpec, hns, hidx] at h
    · simp only [Storage.removeProgram, AMap.getSpec, hns, hidx] at h
      rw [atomicWriteBatch_quiescent] at h
      simp only [AMap.remove, AMap.iter, List.nil_append] at h
      rw [indexFold_batched] at h
      rcases hloop : Storage.removeProgramLoop p ns
          ⟨⟨c1, some [MapOp.del p]⟩,
            ⟨c2, some ([MapOp.del p] ++ (c2.filter (fun qi => qi.2 > depIdx)).map
              (fun qi => MapOp.ins qi.1 (qi.2 - 1)))⟩,
            ⟨c3, some []⟩, ⟨c4, some []⟩, ⟨c5, some []⟩, ⟨c6, some []⟩⟩
          with ⟨r, st2⟩
      rw [hloop] at h
      rcases r with e | u
      · simp only at h
        simp at h
      · obtain ⟨C3, C4, C5, C6, hpure, hp1, hp2, ⟨d3', he3, ha3⟩,
            ⟨d4', he4, ha4⟩, ⟨d5', he5, ha5⟩, ⟨d6', he6, ha6⟩⟩ :=
          removeProgramLoop_ok p ns c1 (some [MapOp.del p]) c2 _ c3 [] c4 []
            c5 [] c6 [] st2 hloop
        simp only at h
        have hs' : s' = st2.finishAtomic := by
          have h9 := (Prod.mk.injEq _ _ _ _).mp h
          exact h9.2.symm
        refine ⟨ns, depIdx, C3, C4, C5, C6, rfl, rfl, hpure, ?_⟩
        rw [hs', Storage.finishAtomic, hp1, hp2, he3, he4, he5, he6]
        have hidxmap : AMap.finishAtomic ⟨c2,
            some ([MapOp.del p] ++ (c2.filter (fun qi => qi.2 > depIdx)).map
              (fun qi => MapOp.ins qi.1 (qi.2 - 1)))⟩
            = (⟨decrementIndices c2 p depIdx, none⟩ : AMap Nat Nat) := by
          show (⟨AMap.applyOps c2 ([MapOp.del p]
            ++ (c2.filter (fun qi => qi.2 > depIdx)).map
              (fun qi => MapOp.ins qi.1 (qi.2 - 1))), none⟩ : AMap Nat Nat) = _
          rw [show ((c2.filter (fun qi => qi.2 > depIdx)).map
              (fun qi => MapOp.ins qi.1 (qi.2 - 1)))
            = ((c2.filter (fun qi => qi.2 > depIdx)).map
                (fun qi => (qi.1, qi.2 - 1))).map
              (fun qi => MapOp.ins qi.1 qi.2) by
            rw [List.map_map]
            rfl]
          rw [applyOps_append, applyOps_inss]
          rfl
        rw [hidxmap]
        rw [show AMap.finishAtomic ⟨c3, some d3'⟩
          = (⟨AMap.applyOps c3 d3', none⟩ : AMap (Nat × Nat) Nat) from rfl]
        rw [show AMap.finishAtomic ⟨c4, some d4'⟩
          = (⟨AMap.applyOps c4 d4', none⟩ : AMap Nat (List (Nat × Nat)))
          from rfl]
        rw [show AMap.finishAtomic ⟨c5, some d5'⟩
          = (⟨AMap.applyOps c5 d5', none⟩ : AMap Nat Nat) from rfl]
        rw [show AMap.finishAtomic ⟨c6, some d6'⟩
          = (⟨AMap.applyOps c6 d6', none⟩ : AMap Nat Nat) from rfl]
        rw [ha3, ha4, ha5, ha6]
        rfl

/-- Aborting after a failed `remove_program` loop discards the enqueued
writes: the committed contents are untouched by the loop body. -/
theorem removeProgramLoop_abort (p : Nat) (ns : List Nat) :
    ∀ (c1 : List (Nat × List Nat)) (d1 : List (MapOp Nat (List Nat)))
      (c2 : List (Nat × Nat)) (d2 : List (MapOp Nat Nat))
      (c3 : List ((Nat × Nat) × Nat)) (d3 : List (MapOp (Nat × Nat) Nat))
      (c4 : List (Nat × List (Nat × Nat)))
      (d4 : List (MapOp Nat (List (Nat × Nat))))
      (c5 : List (Nat × Nat)) (d5 : List (MapOp Nat Nat))
      (c6 : List (Nat × Nat)) (d6 : List (MapOp Nat Nat))
      (e : Err) (st' : Storage),
    Storage.removeProgramLoop p ns
      ⟨⟨c1, some d1⟩, ⟨c2, some d2⟩, ⟨c3, some d3⟩, ⟨c4, some d4⟩,
        ⟨c5, some d5⟩, ⟨c6, some d6⟩⟩ = (.error e, st') →
    st'.abortAtomic
      = ⟨⟨c1, none⟩, ⟨c2, none⟩, ⟨c3, none⟩, ⟨c4, none⟩, ⟨c5, none⟩,
          ⟨c6, none⟩⟩ := by
  induction ns with
  | nil =>
    intro c1 d1 c2 d2 c3 d3 c4 d4 c5 d5 c6 d6 e st' h
    simp [Storage.removeProgramLoop] at h
  | cons m rest ih =>
    intro c1 d1 c2 d2 c3 d3 c4 d4 c5 d5 c6 d6 e st' h
    rcases hmid : alGet (AMap.applyOps c3 d3) (p, m) with _ | mid
    · simp only [Storage.removeProgramLoop, Storage.getMappingId, AMap.getSpec,
        hmid] at h
      obtain ⟨h1, h2⟩ := (Prod.mk.injEq _ _ _ _).mp h
      rw [← h2]
      rfl
    · rcases hkv : alGet (AMap.applyOps c4 d4) mid with _ | kvs
      · simp only [Storage.removeProgramLoop, Storage.getMappingId,
          AMap.getSpec, hmid, hkv] at h
        obtain ⟨h1, h2⟩ := (Prod.mk.injEq _ _ _ _).mp h
        rw [← h2]
        rfl
      · simp only [Storage.removeProgramLoop, Storage.getMappingId,
          AMap.getSpec, hmid, hkv] at h
        rw [show (AMap.remove ⟨c3, some d3⟩ (p, m)
            : AMap (Nat × Nat) Nat)
          = ⟨c3, some (d3 ++ [MapOp.del (p, m)])⟩ from rfl] at h
        rw [show (AMap.remove ⟨c4, some d4⟩ mid
            : AMap Nat (List (Nat × Nat)))
          = ⟨c4, some (d4 ++ [MapOp.del mid])⟩ from rfl] at h
        rw [removeFold_batched] at h
        exact ih c1 d1 c2 _ c3 _ c4 _ c5 _ c6 _ e st' h

/-- `initialize_mapping` on a quiescent state either succeeds or leaves
the storage exactly as it was. -/
theorem initializeMapping_sound (s : Storage) (p m : Nat)
    (hq : s.Quiescent) :
    (s.initializeMapping p m).1 = .ok () ∨ (s.initializeMapping p m).2 = s := by
  obtain ⟨⟨c1, pd1⟩, ⟨c2, pd2⟩, ⟨c3, pd3⟩, ⟨c4, pd4⟩, ⟨c5, pd5⟩, ⟨c6, pd6⟩⟩ := s
  obtain ⟨h1, h2, h3, h4, h5, h6⟩ := hq
  cases h1; cases h2; cases h3; cases h4; cases h5; cases h6
  by_cases hc3 : alContains c3 (p, m)
  · right
    simp [Storage.initializeMapping, AMap.containsK, hc3]
  · by_cases hc4 : alContains c4 (hashMappingID p m)
    · right
      simp [Storage.initializeMapping, AMap.containsK, hc3, hc4]
    · left
      simp [Storage.initializeMapping, AMap.containsK, hc3, hc4,
        Storage.atomicWriteBatch, Storage.isAtomicInProgress,
        AMap.isAtomicInProgress, Storage.startAtomic, AMap.startAtomic,
        AMap.insert]

/-- `insert_key_value` on a quiescent state either succeeds or leaves
the storage exactly as it was. -/
theorem insertKeyValue_sound (s : Storage) (p m k v : Nat)
    (hq : s.Quiescent) :
    (s.insertKeyValue p m k v).1 = .ok ()
      ∨ (s.insertKeyValue p m k v).2 = s := by
  obtain ⟨⟨c1, pd1⟩, ⟨c2, pd2⟩, ⟨c3, pd3⟩, ⟨c4, pd4⟩, ⟨c5, pd5⟩, ⟨c6, pd6⟩⟩ := s
  obtain ⟨h1, h2, h3, h4, h5, h6⟩ := hq
  cases h1; cases h2; cases h3; cases h4; cases h5; cases h6
  rcases hmid : alGet c3 (p, m) with _ | mid
  · right
    simp [Storage.insertKeyValue, Storage.getMappingId, AMap.getSpec, hmid]
  · by_cases hc5 : alContains c5 (keyIdOf mid k)
    · right
      simp [Storage.insertKeyValue, Storage.getMappingId, AMap.getSpec, hmid,
        AMap.containsK, hc5]
    · rcases hkv : alGet c4 mid with _ | kvs
      · right
        simp [Storage.insertKeyValue, Storage.getMappingId, AMap.getSpec,
          hmid, AMap.containsK, hc5, hkv]
      · by_cases hin : alContains kvs (keyIdOf mid k)
        · right
          simp [Storage.insertKeyValue, Storage.getMappingId, AMap.getSpec,
            hmid, AMap.containsK, hc5, hkv, hin]
        · left
          simp [Storage.insertKeyValue, Storage.getMappingId, AMap.getSpec,
            hmid, AMap.containsK, hc5, hkv, hin, Storage.atomicWriteBatch,
            Storage.isAtomicInProgress, AMap.isAtomicInProgress,
            Storage.startAtomic, AMap.startAtomic, AMap.insert]

/-- `update_key_value` on a quiescent state either succeeds or leaves
the storage exactly as it was. -/
theorem updateKeyValue_sound (s : Storage) (p m k v : Nat)
    (hq : s.Quiescent) :
    (s.updateKeyValue p m k v).1 = .ok ()
      ∨ (s.updateKeyValue p m k v).2 = s := by
  obtain ⟨⟨c1, pd1⟩, ⟨c2, pd2⟩, ⟨c3, pd3⟩, ⟨c4, pd4⟩, ⟨c5, pd5⟩, ⟨c6, pd6⟩⟩ := s
  obtain ⟨h1, h2, h3, h4, h5, h6⟩ := hq
  cases h1; cases h2; cases h3; cases h4; cases h5; cases h6
  rcases hmid : alGet c3 (p, m) with _ | mid
  · right
    simp [Storage.updateKeyValue, Storage.getMappingId, AMap.getSpec, hmid]
  · rcases hkv : alGet c4 mid with _ | kvs
    · right
      simp [Storage.updateKeyValue, Storage.getMappingId, AMap.getSpec, hmid,
        hkv]
    · by_cases hbail : alGet c5 (keyIdOf mid k) = none
          ∧ alContains kvs (keyIdOf mid k) = true
      · right
        simp [Storage.updateKeyValue, Storage.getMappingId, AMap.getSpec,
          hmid, hkv, hbail.1, hbail.2]
      · have hbail2 : ¬ ((alGet c5 (keyIdOf mid k)).isNone = true
            ∧ alContains kvs (keyIdOf mid k) = true) := by
          intro hc
          exact hbail ⟨Option.isNone_iff_eq_none.mp hc.1, hc.2⟩
        left
        simp only [Storage.updateKeyValue, Storage.getMappingId, AMap.getSpec,
          hmid, hkv]
        rw [if_neg hbail2]
        simp [Storage.atomicWriteBatch, Storage.isAtomicInProgress,
          AMap.isAtomicInProgress, Storage.startAtomic, AMap.startAtomic,
          AMap.insert]

/-- `remove_key_value` on a quiescent state either succeeds or leaves
the storage exactly as it was. -/
theorem removeKeyValue_sound (s : Storage) (p m k : Nat)
    (hq : s.Quiescent) :
    (s.removeKeyValue p m k).1 = .ok ()
      ∨ (s.removeKeyValue p m k).2 = s := by
  obtain ⟨⟨c1, pd1⟩, ⟨c2, pd2⟩, ⟨c3, pd3⟩, ⟨c4, pd4⟩, ⟨c5, pd5⟩, ⟨c6, pd6⟩⟩ := s
  obtain ⟨h1, h2, h3, h4, h5, h6⟩ := hq
  cases h1; cases h2; cases h3; cases h4; cases h5; cases h6
  rcases hmid : alGet c3 (p, m) with _ | mid
  · right
    simp [Storage.removeKeyValue, Storage.getMappingId, AMap.getSpec, hmid]
  · rcases hkv : alGet c4 mid with _ | kvs
    · right
      simp [Storage.removeKeyValue, Storage.getMappingId, AMap.getSpec, hmid,
        hkv]
    · by_cases hin : alContains kvs (keyIdOf mid k)
      · left
        simp [Storage.removeKeyValue, Storage.getMappingId, AMap.getSpec,
          hmid, hkv, hin, Storage.atomicWriteBatch,
          Storage.isAtomicInProgress, AMap.isAtomicInProgress,
          Storage.startAtomic, AMap.startAtomic, AMap.insert, AMap.remove]
      · right
        simp [Storage.removeKeyValue, Storage.getMappingId, AMap.getSpec,
          hmid, hkv, hin]

/-- `remove_mapping` on a quiescent state either succeeds or leaves the
storage exactly as it was. -/
theorem removeMapping_sound (s : Storage) (p m : Nat) (hq : s.Quiescent) :
    (s.removeMapping p m).1 = .ok () ∨ (s.removeMapping p m).2 = s := by
  obtain ⟨⟨c1, pd1⟩, ⟨c2, pd2⟩, ⟨c3, pd3⟩, ⟨c4, pd4⟩, ⟨c5, pd5⟩, ⟨c6, pd6⟩⟩ := s
  obtain ⟨h1, h2, h3, h4, h5, h6⟩ := hq
  cases h1; cases h2; cases h3; cases h4; cases h5; cases h6
  rcases hmid : alGet c3 (p, m) with _ | mid
  · right
    simp [Storage.removeMapping, Storage.getMappingId, AMap.getSpec, hmid]
  · rcases hkv : alGet c4 mid with _ | kvs
    · right
      simp [Storage.removeMapping, Storage.getMappingId, AMap.getSpec, hmid,
        hkv]
    · rcases hns : alGet c1 p with _ | ns
      · right
        simp [Storage.removeMapping, Storage.getMappingId, AMap.getSpec,
          hmid, hkv, hns]
      · by_cases hm : m ∈ ns
        · left
          simp only [Storage.removeMapping, Storage.getMappingId,
            AMap.getSpec, hmid, hkv, hns]
          rw [if_neg (not_not_intro hm), atomicWriteBatch_quiescent]
        · right
          simp [Storage.removeMapping, Storage.getMappingId, AMap.getSpec,
            hmid, hkv, hns, hm]

/-- `remove_program` on a quiescent state either succeeds or leaves the
storage exactly as it was: a loop failure aborts the batch. -/
theorem removeProgram_sound (s : Storage) (p : Nat) (hq : s.Quiescent) :
    (s.removeProgram p).1 = .ok () ∨ (s.removeProgram p).2 = s := by
  obtain ⟨⟨c1, pd1⟩, ⟨c2, pd2⟩, ⟨c3, pd3⟩, ⟨c4, pd4⟩, ⟨c5, pd5⟩, ⟨c6, pd6⟩⟩ := s
  obtain ⟨h1, h2, h3, h4, h5, h6⟩ := hq
  cases h1; cases h2; cases h3; cases h4; cases h5; cases h6
  rcases hns : alGet c1 p with _ | ns
  · right
    simp [Storage.removeProgram, AMap.getSpec, hns]
  · rcases hidx : alGet c2 p with _ | depIdx
    · right
      simp [Storage.removeProgram, AMap.getSpec, hns, hidx]
    · simp only [Storage.removeProgram, AMap.getSpec, hns, hidx]
      rw [atomicWriteBatch_quiescent]
      simp only [AMap.remove, AMap.iter, List.nil_append]
      rw [indexFold_batched]
      rcases hloop : Storage.removeProgramLoop p ns
          ⟨⟨c1, some [MapOp.del p]⟩,
            ⟨c2, some ([MapOp.del p]
              ++ (c2.filter (fun qi => qi.2 > depIdx)).map
                (fun qi => MapOp.ins qi.1 (qi.2 - 1)))⟩,
            ⟨c3, some []⟩, ⟨c4, some []⟩, ⟨c5, some []⟩, ⟨c6, some []⟩⟩
          with ⟨r, st2⟩
      rcases r with e | u
      · right
        exact removeProgramLoop_abort p ns c1 _ c2 _ c3 _ c4 _ c5 _ c6 _
          e st2 hloop
      · left
        rfl

/-- A mutator call that errors on a quiescent state hands back the
storage it was given. -/
theorem error_state_eq {r : Except Err Unit × Storage} {e : Err}
    {s' : Storage} (hs : r.1 = .ok () ∨ r.2 = s')
    (h : r.1 = .error e) : r.2 = s' := by
  rcases hs with h1 | h1
  · rw [h] at h1
    exact absurd h1 (by simp)
  · exact h1

end Storage

/-! ## Key-sorted lists

Tools shared by the checksum (`BTreeMap` collection) and the finalize
tree (`sort_keys`): a strictly-key-sorted list is determined by its
entries. -/

section Sorting

variable {α : Type}

/-- Sorted insert with overwrite, modelling `BTreeMap` collection. -/
def btreeInsert : List (Nat × α) → Nat → α → List (Nat × α)
  | [], k, v => [(k, v)]
  | (k', v') :: t, k, v =>
      if k = k' then (k, v) :: t
      else if k < k' then (k, v) :: (k', v') :: t
      else (k', v') :: btreeInsert t k v

/-- Strict key order on entries. -/
def keyLT (a b : Nat × α) : Prop := a.1 < b.1

/-- Weak key order on entries. -/
def keyLE (a b : Nat × α) : Prop := a.1 ≤ b.1

instance : DecidableRel (keyLT (α := α)) := fun a b => by
  unfold keyLT; infer_instance

instance : DecidableRel (keyLE (α := α)) := fun a b => by
  unfold keyLE; infer_instance

instance : IsTotal (Nat × α) keyLE := ⟨fun a b => Nat.le_total a.1 b.1⟩

instance : IsTrans (Nat × α) keyLE := ⟨fun _ _ _ h1 h2 => Nat.le_trans h1 h2⟩

instance : IsAntisymm (Nat × α) keyLT :=
  ⟨fun _ _ h1 h2 => absurd h2 (Nat.not_lt.mpr (Nat.le_of_lt h1))⟩

theorem sortedLT_of_sortedLE_nodup {l : List (Nat × α)}
    (hs : l.Pairwise keyLE) (hnd : (l.map Prod.fst).Nodup) :
    l.Pairwise keyLT := by
  have hne : l.Pairwise (fun a b : Nat × α => a.1 ≠ b.1) :=
    (List.pairwise_map.mp hnd)
  exact (hs.and hne).imp (fun h => Nat.lt_of_le_of_ne h.1 h.2)

theorem eq_of_perm_of_sortedLT {l1 l2 : List (Nat × α)} (hp : l1.Perm l2)
    (h1 : l1.Pairwise keyLT) (h2 : l2.Pairwise keyLT) : l1 = l2 :=
  List.eq_of_perm_of_sorted hp h1 h2

theorem btreeInsert_perm {acc : List (Nat × α)} {k : Nat} (v : α)
    (h : ∀ e ∈ acc, e.1 ≠ k) : (btreeInsert acc k v).Perm ((k, v) :: acc) := by
  induction acc with
  | nil => simp [btreeInsert]
  | cons e t ih =>
    obtain ⟨ek, ev⟩ := e
    have hne : ek ≠ k := h (ek, ev) (by simp)
    by_cases h1 : k = ek
    · exact absurd h1.symm hne
    · by_cases h2 : k < ek
      · simp [btreeInsert, h1, h2]
      · simp only [btreeInsert, h1, h2, if_false]
        refine List.Perm.trans (List.Perm.cons _
          (ih (fun e he => h e (List.mem_cons_of_mem _ he)))) ?_
        exact List.Perm.swap _ _ _

theorem btreeInsert_sorted {acc : List (Nat × α)} {k : Nat} (v : α)
    (hs : acc.Pairwise keyLT) (h : ∀ e ∈ acc, e.1 ≠ k) :
    (btreeInsert acc k v).Pairwise keyLT := by
  induction acc with
  | nil => simp [btreeInsert]
  | cons e t ih =>
    obtain ⟨ek, ev⟩ := e
    have hne : ek ≠ k := h (ek, ev) (by simp)
    rcases List.pairwise_cons.mp hs with ⟨he, ht⟩
    by_cases h1 : k = ek
    · exact absurd h1.symm hne
    · by_cases h2 : k < ek
      · simp only [btreeInsert, h1, h2, if_true, if_false]
        refine List.pairwise_cons.mpr ⟨?_, hs⟩
        intro b hb
        rcases List.mem_cons.mp hb with hb1 | hb1
        · subst hb1
          exact h2
        · exact Nat.lt_trans h2 (he b hb1)
      · simp only [btreeInsert, h1, h2, if_false]
        refine List.pairwise_cons.mpr ⟨?_, ih ht
          (fun e he2 => h e (List.mem_cons_of_mem _ he2))⟩
        intro b hb
        have hb2 := (btreeInsert_perm v
          (fun e he2 => h e (List.mem_cons_of_mem _ he2))).mem_iff.mp hb
        rcases List.mem_cons.mp hb2 with hb3 | hb3
        · subst hb3
          exact Nat.lt_of_le_of_ne (Nat.le_of_not_lt h2) (fun hc => h1 hc.symm)
        · exact he b hb3

/-- The `BTreeMap` collection fold: result is a permutation of the input
together with the accumulator, provided all keys are distinct. -/
theorem fold_btreeInsert_perm (l : List (Nat × α)) :
    ∀ acc : List (Nat × α),
    ((acc.map Prod.fst) ++ (l.map Prod.fst)).Nodup →
    (l.foldl (fun acc kv => btreeInsert acc kv.1 kv.2) acc).Perm (l ++ acc) := by
  induction l with
  | nil => intro acc _; simp
  | cons e t ih =>
    intro acc hnd
    rw [List.foldl_cons]
    have hek : ∀ x ∈ acc, x.1 ≠ e.1 := by
      intro x hx hc
      rw [List.map_cons, List.nodup_append] at hnd
      exact hnd.2.2 (List.mem_map.mpr ⟨x, hx, rfl⟩) (by simp [hc])
    have hperm1 : (btreeInsert acc e.1 e.2).Perm ((e.1, e.2) :: acc) :=
      btreeInsert_perm e.2 hek
    have hbase : ((e.1 :: acc.map Prod.fst) ++ t.map Prod.fst).Nodup := by
      rw [List.map_cons, List.nodup_append] at hnd
      rcases hnd with ⟨ha, hb, hc⟩
      rcases List.nodup_cons.mp hb with ⟨hb1, hb2⟩
      rw [List.cons_append, List.nodup_cons, List.nodup_append]
      refine ⟨?_, ha, hb2, ?_⟩
      · intro hc2
        rcases List.mem_append.mp hc2 with h9 | h9
        · exact hc h9 (by simp)
        · exact hb1 h9
      · intro x hx hy
        exact hc hx (List.mem_cons_of_mem _ hy)
    have hnd2 : (((btreeInsert acc e.1 e.2).map Prod.fst)
        ++ (t.map Prod.fst)).Nodup :=
      (((hperm1.map Prod.fst).append_right (t.map Prod.fst)).symm).nodup hbase
    have := ih (btreeInsert acc e.1 e.2) hnd2
    refine this.trans ?_
    refine (List.Perm.append_left t hperm1).trans ?_
    exact (List.perm_middle).trans (List.Perm.refl _)

theorem fold_btreeInsert_sorted (l : List (Nat × α)) :
    ∀ acc : List (Nat × α), acc.Pairwise keyLT →
    ((acc.map Prod.fst) ++ (l.map Prod.fst)).Nodup →
    (l.foldl (fun acc kv => btreeInsert acc kv.1 kv.2) acc).Pairwise keyLT := by
  induction l with
  | nil => intro acc hs _; simpa using hs
  | cons e t ih =>
    intro acc hs hnd
    rw [List.foldl_cons]
    have hek : ∀ x ∈ acc, x.1 ≠ e.1 := by
      intro x hx hc
      rw [List.map_cons, List.nodup_append] at hnd
      exact hnd.2.2 (List.mem_map.mpr ⟨x, hx, rfl⟩) (by simp [hc])
    have hperm1 : (btreeInsert acc e.1 e.2).Perm ((e.1, e.2) :: acc) :=
      btreeInsert_perm e.2 hek
    have hbase : ((e.1 :: acc.map Prod.fst) ++ t.map Prod.fst).Nodup := by
      rw [List.map_cons, List.nodup_append] at hnd
      rcases hnd with ⟨ha, hb, hc⟩
      rcases List.nodup_cons.mp hb with ⟨hb1, hb2⟩
      rw [List.cons_append, List.nodup_cons, List.nodup_append]
      refine ⟨?_, ha, hb2, ?_⟩
      · intro hc2
        rcases List.mem_append.mp hc2 with h9 | h9
        · exact hc h9 (by simp)
        · exact hb1 h9
      · intro x hx hy
        exact hc hx (List.mem_cons_of_mem _ hy)
    refine ih _ (btreeInsert_sorted e.2 hs hek) ?_
    exact (((hperm1.map Prod.fst).append_right (t.map Prod.fst)).symm).nodup hbase

end Sorting

/-! ## Checksum -/

/-- `get_checksum`: per-mapping checksums over `KeyValueIDMap`, collected
into a `BTreeMap` keyed by mapping ID, then hashed in its (ascending key)
order. -/
def Storage.getChecksum (s : Storage) : Nat :=
  let preimage := s.keyValueIDMap.iter.foldl
    (fun acc mkv =>
      btreeInsert acc mkv.1 (mappingChecksum mkv.1 (mkv.2.map Prod.snd))) []
  checksumHash (preimage.map Prod.snd)

/-! ## The FinalizeStore facade -/

/-- `prepare_update`, modelled from the spec: a new tree with the leaf at
the given index replaced. -/
def treePrepareUpdate (tree : List Nat) (index : Nat) (leaf : Nat) : List Nat :=
  tree.set index leaf

/-- `prepare_append`, modelled from the spec: a new tree with the leaves
appended. -/
def treePrepareAppend (tree : List Nat) (leaves : List Nat) : List Nat :=
  tree ++ leaves

/-- The finalize store: storage, the cached finalize tree (as its leaf
sequence), and the speculate flag. -/
structure FStore where
  storage : Storage
  tree : List Nat
  isSpeculate : Bool
  deriving DecidableEq

namespace FStore

/-- `current_storage_root`: the root of the committed tree. -/
def currentStorageRoot (st : FStore) : Nat := merkleRoot st.tree

/-- `FinalizeStore::initialize_mapping`. -/
def initializeMapping (st : FStore) (p m : Nat) : Except Err Unit × FStore :=
  if st.isSpeculate then
    let rs := st.storage.initializeMapping p m
    (rs.1, { st with storage := rs.2 })
  else
    let mappingId := hashMappingID p m
    match st.storage.toProgramTree p (some [.insertMapping mappingId]) with
    | .error e => (.error e, st)
    | .ok programTree =>
        let updatedTree := match st.storage.programIndexMap.get p with
          | some programIdIndex =>
              treePrepareUpdate st.tree programIdIndex (merkleRoot programTree)
          | none => treePrepareAppend st.tree [merkleRoot programTree]
        let rs := st.storage.initializeMapping p m
        match rs.1 with
        | .ok _ => (.ok (), { storage := rs.2, tree := updatedTree,
                              isSpeculate := st.isSpeculate })
        | .error e => (.error e, { st with storage := rs.2 })

/-- `FinalizeStore::insert_key_value`. -/
def insertKeyValue (st : FStore) (p m k v : Nat) : Except Err Unit × FStore :=
  if st.isSpeculate then
    let rs := st.storage.insertKeyValue p m k v
    (rs.1, { st with storage := rs.2 })
  else
    match st.storage.getMappingId p m with
    | none => (.error .storeMappingNotInit, st)
    | some mappingId =>
        let keyId := keyIdOf mappingId k
        let valueId := valueIdOf keyId v
        match st.storage.toProgramTree p
            (some [.insertValue mappingId keyId valueId]) with
        | .error e => (.error e, st)
        | .ok programTree =>
            match st.storage.programIndexMap.get p with
            | none => (.error .storeProgramIndexMissing, st)
            | some programIdIndex =>
                let updatedTree :=
                  treePrepareUpdate st.tree programIdIndex (merkleRoot programTree)
                let rs := st.storage.insertKeyValue p m k v
                match rs.1 with
                | .ok _ => (.ok (), { storage := rs.2, tree := updatedTree,
                                      isSpeculate := st.isSpeculate })
                | .error e => (.error e, { st with storage := rs.2 })

/-- `FinalizeStore::update_key_value`. -/
def updateKeyValue (st : FStore) (p m k v : Nat) : Except Err Unit × FStore :=
  if st.isSpeculate then
    let rs := st.storage.updateKeyValue p m k v
    (rs.1, { st with storage := rs.2 })
  else
    match st.storage.getMappingId p m with
    | none => (.error .storeMappingNotInit, st)
    | some mappingId =>
        let keyId := keyIdOf mappingId k
        let valueId := valueIdOf keyId v
        match st.storage.keyValueIDMap.get mappingId with
        | none => (.error .storeKvMissing, st)
        | some keyValueMap =>
            let update := match alIndexOf keyValueMap keyId with
              | some keyIdIndex =>
                  MerkleTreeUpdate.updateValue mappingId keyIdIndex keyId valueId
              | none => MerkleTreeUpdate.insertValue mappingId keyId valueId
            match st.storage.toProgramTree p (some [update]) with
            | .error e => (.error e, st)
            | .ok programTree =>
                match st.storage.programIndexMap.get p with
                | none => (.error .storeProgramIndexMissing, st)
                | some programIdIndex =>
                    let updatedTree :=
                      treePrepareUpdate st.tree programIdIndex
                        (merkleRoot programTree)
                    let rs := st.storage.updateKeyValue p m k v
                    match rs.1 with
                    | .ok _ => (.ok (), { storage := rs.2, tree := updatedTree,
                                          isSpeculate := st.isSpeculate })
                    | .error e => (.error e, { st with storage := rs.2 })

/-- `FinalizeStore::remove_key_value`. -/
def removeKeyValue (st : FStore) (p m k : Nat) : Except Err Unit × FStore :=
  if st.isSpeculate then
    let rs := st.storage.removeKeyValue p m k
    (rs.1, { st with storage := rs.2 })
  else
    match st.storage.getMappingId p m with
    | none => (.error .storeMappingNotInit, st)
    | some mappingId =>
        let keyId := keyIdOf mappingId k
        match st.storage.keyValueIDMap.get mappingId with
        | none => (.error .storeKvMissing, st)
        | some keyValueMap =>
            match alIndexOf keyValueMap keyId with
            | none => (.error .storeKeyIndexMissing, st)
            | some keyIdIndex =>
                match st.storage.toProgramTree p
                    (some [.removeValue mappingId keyIdIndex]) with
                | .error e => (.error e, st)
                | .ok programTree =>
                    match st.storage.programIndexMap.get p with
                    | none => (.error .storeProgramIndexMissing, st)
                    | some programIdIndex =>
                        let updatedTree :=
                          treePrepareUpdate st.tree programIdIndex
                            (merkleRoot programTree)
                        let rs := st.storage.removeKeyValue p m k
                        match rs.1 with
                        | .ok _ => (.ok (),
                            { storage := rs.2, tree := updatedTree,
                              isSpeculate := st.isSpeculate })
                        | .error e => (.error e, { st with storage := rs.2 })

/-- `FinalizeStore::remove_mapping`. -/
def removeMapping (st : FStore) (p m : Nat) : Except Err Unit × FStore :=
  if st.isSpeculate then
    let rs := st.storage.removeMapping p m
    (rs.1, { st with storage := rs.2 })
  else
    match st.storage.getMappingId p m with
    | none => (.error .storeMappingNotInit, st)
    | some mappingId =>
        match st.storage.toProgramTree p (some [.removeMapping mappingId]) with
        | .error e => (.error e, st)
        | .ok programTree =>
            match st.storage.programIndexMap.get p with
            | none => (.error .storeProgramIndexMissing, st)
            | some programIdIndex =>
                let updatedTree :=
                  treePrepareUpdate st.tree programIdIndex (merkleRoot programTree)
                let rs := st.storage.removeMapping p m
                match rs.1 with
                | .ok _ => (.ok (), { storage := rs.2, tree := updatedTree,
                                      isSpeculate := st.isSpeculate })
                | .error e => (.error e, { st with storage := rs.2 })

/-- `FinalizeStore::remove_program`: performs the storage mutation first
and then rebuilds the finalize tree from scratch. -/
def removeProgram (st : FStore) (p : Nat) : Except Err Unit × FStore :=
  if st.isSpeculate then
    let rs := st.storage.removeProgram p
    (rs.1, { st with storage := rs.2 })
  else
    let rs := st.storage.removeProgram p
    match rs.1 with
    | .error e => (.error e, { st with storage := rs.2 })
    | .ok _ =>
        match rs.2.toFinalizeLeaves with
        | .error e => (.error e, { st with storage := rs.2 })
        | .ok updatedTree => (.ok (), { storage := rs.2, tree := updatedTree,
                                        isSpeculate := st.isSpeculate })

/-- The store produced by `open` on a fresh in-memory backend: empty
storage and the finalize tree computed from it (the empty tree). -/
def initialStore : FStore :=
  { storage := Storage.empty, tree := [], isSpeculate := false }

end FStore

/-- The states reached from a fresh store by sequences of successful
non-speculative mutators. -/
inductive Reaches : FStore → Prop where
  | init : Reaches FStore.initialStore
  | initializeMapping {st st' : FStore} {p m : Nat} : Reaches st →
      st.initializeMapping p m = (.ok (), st') → Reaches st'
  | insertKeyValue {st st' : FStore} {p m k v : Nat} : Reaches st →
      st.insertKeyValue p m k v = (.ok (), st') → Reaches st'
  | updateKeyValue {st st' : FStore} {p m k v : Nat} : Reaches st →
      st.updateKeyValue p m k v = (.ok (), st') → Reaches st'
  | removeKeyValue {st st' : FStore} {p m k : Nat} : Reaches st →
      st.removeKeyValue p m k = (.ok (), st') → Reaches st'
  | removeMapping {st st' : FStore} {p m : Nat} : Reaches st →
      st.removeMapping p m = (.ok (), st') → Reaches st'
  | removeProgram {st st' : FStore} {p : Nat} : Reaches st →
      st.removeProgram p = (.ok (), st') → Reaches st'

/-! ## Spec-side reference definitions -/

/-- The checksum as the spec words it (C5): the per-mapping checksums
concatenated in the iteration (insertion) order of `KeyValueIDMap`. -/
def checksumSpecIterOrder (s : Storage) : Nat :=
  checksumHash (s.keyValueIDMap.iter.map
    (fun mkv => mappingChecksum mkv.1 (mkv.2.map Prod.snd)))

/-- The checksum as amended (C5): the per-mapping checksums concatenated
in ascending mapping-ID order. -/
def checksumSpecSorted (s : Storage) : Nat :=
  checksumHash (((s.keyValueIDMap.iter.map
    (fun mkv => (mkv.1, mappingChecksum mkv.1 (mkv.2.map Prod.snd)))).insertionSort
      keyLE).map Prod.snd)

/-- `contains_program` as the spec words it (C6): computed over the
speculative (pending-batch) view. -/
def containsProgramSpecView (s : Storage) (p : Nat) : Bool :=
  (s.programIDMap.getSpec p).isSome && (s.programIndexMap.getSpec p).isSome

/-- Invariant I5, phrased over the committed contents: the key sets of
`KeyMap` and `ValueMap` coincide with the disjoint union of the key sets
of the `KeyValueIDMap` entries. -/
def InvI5 (s : Storage) : Prop :=
  (∀ e ∈ s.keyMap.committed, alContains s.valueMap.committed e.1 = true) ∧
  (∀ e ∈ s.valueMap.committed, alContains s.keyMap.committed e.1 = true) ∧
  (∀ e ∈ s.keyMap.committed,
    ∃ f ∈ s.keyValueIDMap.committed, alContains f.2 e.1 = true) ∧
  (∀ f ∈ s.keyValueIDMap.committed, ∀ g ∈ f.2,
    alContains s.keyMap.committed g.1 = true) ∧
  (∀ f1 ∈ s.keyValueIDMap.committed, ∀ f2 ∈ s.keyValueIDMap.committed,
    ∀ g1 ∈ f1.2, ∀ g2 ∈ f2.2, g1.1 = g2.1 → f1 = f2)

instance (s : Storage) : Decidable (InvI5 s) := by
  unfold InvI5; infer_instance

/-! ## Claim C10 -/

/-- **C10.** For every state (the in-memory backend maps never error),
`contains_program(p)` returns exactly `ProgramIndexMap.contains_key(p)`:
the boolean computed from `ProgramIDMap.contains_key(p)` is discarded by
`Result::and`, so a program present in only one of the two maps is
reported according to `ProgramIndexMap` alone. -/
theorem C10_contains_program_index_only (s : Storage) (p : Nat) :
    s.containsProgram p = .ok (s.programIndexMap.containsK p) := rfl

/-! ## Claim C5 -/

theorem fold_btree_map (l : List (Nat × List (Nat × Nat)))
    (acc : List (Nat × Nat)) :
    l.foldl (fun acc mkv =>
      btreeInsert acc mkv.1 (mappingChecksum mkv.1 (mkv.2.map Prod.snd))) acc
    = (l.map (fun mkv =>
        (mkv.1, mappingChecksum mkv.1 (mkv.2.map Prod.snd)))).foldl
        (fun acc kv => btreeInsert acc kv.1 kv.2) acc := by
  induction l generalizing acc with
  | nil => rfl
  | cons e t ih => simp only [List.foldl_cons, List.map_cons, ih]

/-- A state whose `KeyValueIDMap` holds two (empty) mappings in
descending mapping-ID order. -/
def c5State : Storage :=
  { programIDMap := .empty, programIndexMap := .empty, mappingIDMap := .empty,
    keyValueIDMap := ⟨[(1, []), (0, [])], none⟩,
    keyMap := .empty, valueMap := .empty }

/-- **C5 (counterexample).** `get_checksum()` does not concatenate the
per-mapping checksums in the iteration (insertion) order of
`KeyValueIDMap`: on a state holding the mapping IDs in descending order
the two disagree, because the source collects the checksums into a
`BTreeMap` keyed by mapping ID. -/
theorem C5_checksum_not_iter_order :
    c5State.getChecksum ≠ checksumSpecIterOrder c5State := by decide

/-- **C5 (amended).** For every state whose `KeyValueIDMap` keys are
distinct, `get_checksum()` equals the hash of the per-mapping checksums
`H(bits(mid) ‖ value_id bits in entry insertion order)`, concatenated in
ascending mapping-ID order. -/
theorem C5_checksum_sorted_by_mapping_id (s : Storage)
    (hnd : (s.keyValueIDMap.committed.map Prod.fst).Nodup) :
    s.getChecksum = checksumSpecSorted s := by
  rw [Storage.getChecksum, checksumSpecSorted]
  rw [fold_btree_map]
  congr 1
  set L := s.keyValueIDMap.iter.map (fun mkv =>
    (mkv.1, mappingChecksum mkv.1 (mkv.2.map Prod.snd))) with hL
  have hLkeys : L.map Prod.fst = s.keyValueIDMap.committed.map Prod.fst := by
    rw [hL, List.map_map]
    rfl
  have hLnd : (L.map Prod.fst).Nodup := by rw [hLkeys]; exact hnd
  have hnd0 : ((([] : List (Nat × Nat)).map Prod.fst) ++ L.map Prod.fst).Nodup := by
    simpa using hLnd
  have hfoldperm : (L.foldl (fun acc kv => btreeInsert acc kv.1 kv.2) []).Perm L := by
    have := fold_btreeInsert_perm L [] hnd0
    simpa using this
  have hfoldsorted : (L.foldl (fun acc kv =>
      btreeInsert acc kv.1 kv.2) []).Pairwise keyLT :=
    fold_btreeInsert_sorted L [] (by simp) hnd0
  have hsortperm : (L.insertionSort keyLE).Perm L := L.perm_insertionSort keyLE
  have hsortsorted : (L.insertionSort keyLE).Pairwise keyLT := by
    refine sortedLT_of_sortedLE_nodup (L.sorted_insertionSort keyLE) ?_
    exact ((hsortperm.map Prod.fst).symm).nodup hLnd
  have := eq_of_perm_of_sortedLT (hfoldperm.trans hsortperm.symm)
    hfoldsorted hsortsorted
  rw [this]

/-- **C5 (amended) witness.** -/
theorem C5_checksum_sorted_witness :
    (c5State.keyValueIDMap.committed.map Prod.fst).Nodup ∧
    c5State.getChecksum = checksumSpecSorted c5State :=
  ⟨by decide, C5_checksum_sorted_by_mapping_id c5State (by decide)⟩

/-! ## Claim C6 -/

/-- A state with an atomic batch in progress whose pending writes add a
program that the committed view does not contain. -/
def c6State : Storage :=
  { programIDMap := ⟨[], some [MapOp.ins 7 [1]]⟩,
    programIndexMap := ⟨[], some [MapOp.ins 7 0]⟩,
    mappingIDMap := ⟨[], some []⟩, keyValueIDMap := ⟨[], some []⟩,
    keyMap := ⟨[], some []⟩, valueMap := ⟨[], some []⟩ }

/-- **C6 (counterexample).** Not every query answers over the
speculative view: with a batch in progress whose pending writes insert
program `7`, `contains_program` still answers over the committed view
(`false`), while the speculative view holds the program. -/
theorem C6_contains_program_not_speculative :
    c6State.containsProgram 7 = .ok false
      ∧ containsProgramSpecView c6State 7 = true := by decide

/-- **C6 (amended).** The views each query reads: `get_mapping_names`,
`get_mapping_id`, `get_key` and `get_value_from_key_id` answer over the
speculative view (`get_speculative`); `contains_program` and
`contains_mapping` answer over the committed view (`contains_key`);
`contains_key`, `get_key_id` and `get_value` resolve the mapping ID
speculatively but decide key membership on the committed view, and
`get_value` reads the value (and its second-chance key lookup)
speculatively. -/
theorem C6_query_views (s : Storage) (p m k kid : Nat) :
    s.containsProgram p = .ok ((s.programIndexMap.get p).isSome) ∧
    s.containsMapping p m = (s.mappingIDMap.get (p, m)).isSome ∧
    s.getMappingNames p = s.programIDMap.getSpec p ∧
    s.getMappingId p m = s.mappingIDMap.getSpec (p, m) ∧
    s.getKey kid = s.keyMap.getSpec kid ∧
    s.getValueFromKeyId kid = s.valueMap.getSpec kid ∧
    s.containsKey p m k = (match s.mappingIDMap.getSpec (p, m) with
      | none => false
      | some mid => (s.keyMap.get (keyIdOf mid k)).isSome) ∧
    s.getKeyId p m k = (match s.mappingIDMap.getSpec (p, m) with
      | none => none
      | some mid =>
          match (s.keyMap.get (keyIdOf mid k)).isSome with
          | true => some (keyIdOf mid k)
          | false => none) ∧
    s.getValue p m k = (match s.getKeyId p m k with
      | some kid2 => s.valueMap.getSpec kid2
      | none =>
          match s.keyMap.getSpec (keyIdOf (hashMappingID p m) k) with
          | some _ => s.valueMap.getSpec (keyIdOf (hashMappingID p m) k)
          | none => none) :=
  ⟨rfl, rfl, rfl, rfl, rfl, rfl, rfl, rfl, rfl⟩

/-! ## Claim C8 -/

/-- **C8.** In every quiescent state satisfying invariant I5, the
consistency check in `update_key_value` that fires when the key ID is
absent from `KeyMap` yet present in the mapping's entry list is
unreachable: `update_key_value` never returns that error. -/
theorem C8_update_bail_unreachable (s : Storage) (p m k v : Nat)
    (hq : s.Quiescent) (h5 : InvI5 s) :
    (s.updateKeyValue p m k v).1 ≠ .error .updKeyExists := by
  obtain ⟨⟨c1, pd1⟩, ⟨c2, pd2⟩, ⟨c3, pd3⟩, ⟨c4, pd4⟩, ⟨c5, pd5⟩, ⟨c6, pd6⟩⟩ := s
  obtain ⟨h1, h2, h3, h4, h5q, h6⟩ := hq
  cases h1; cases h2; cases h3; cases h4; cases h5q; cases h6
  rcases hmid : alGet c3 (p, m) with _ | mid
  · simp [Storage.updateKeyValue, Storage.getMappingId, AMap.getSpec, hmid]
  · rcases hkv : alGet c4 mid with _ | kvs
    · simp [Storage.updateKeyValue, Storage.getMappingId, AMap.getSpec, hmid,
        hkv]
    · by_cases hbail : alGet c5 (keyIdOf mid k) = none
          ∧ alContains kvs (keyIdOf mid k) = true
      · exfalso
        rcases Option.isSome_iff_exists.mp hbail.2 with ⟨vid, hvid⟩
        have hmem : ((keyIdOf mid k), vid) ∈ kvs := alGet_mem hvid
        have h54 := h5.2.2.2.1 (mid, kvs) (alGet_mem hkv)
          ((keyIdOf mid k), vid) hmem
        simp only [alContains] at h54
        rw [hbail.1] at h54
        simp at h54
      · have hbail2 : ¬ ((alGet c5 (keyIdOf mid k)).isNone = true
            ∧ alContains kvs (keyIdOf mid k) = true) := by
          intro hc
          exact hbail ⟨Option.isNone_iff_eq_none.mp hc.1, hc.2⟩
        simp only [Storage.updateKeyValue, Storage.getMappingId, AMap.getSpec,
          hmid, hkv]
        rw [if_neg hbail2, Storage.atomicWriteBatch_quiescent]
        intro hc
        simp at hc

/-- **C8 witness.** A quiescent state with one initialized (empty)
mapping satisfies I5, and `update_key_value` on it does not return the
inconsistency error. -/
theorem C8_update_bail_witness :
    (Storage.mk AMap.empty AMap.empty ⟨[((1, 10), 77)], none⟩ ⟨[(77, [])], none⟩
        AMap.empty AMap.empty).Quiescent ∧
    InvI5 (Storage.mk AMap.empty AMap.empty ⟨[((1, 10), 77)], none⟩
        ⟨[(77, [])], none⟩ AMap.empty AMap.empty) ∧
    ((Storage.mk AMap.empty AMap.empty ⟨[((1, 10), 77)], none⟩
        ⟨[(77, [])], none⟩ AMap.empty AMap.empty).updateKeyValue 1 10 5 6).1
      ≠ .error .updKeyExists :=
  ⟨by decide, by decide,
    C8_update_bail_unreachable _ 1 10 5 6 (by decide) (by decide)⟩

/-! ## Claim C3 -/

theorem alInsert_map_fst_of_contains {l : List (K × V)} {k : K} (v : V)
    (h : alContains l k = true) :
    (alInsert l k v).map Prod.fst = l.map Prod.fst := by
  rcases Option.isSome_iff_exists.mp h with ⟨w, hw⟩
  obtain ⟨l1, l2, rfl, hl1⟩ := alGet_eq_some_split hw
  rw [alInsert_append_cons w v hl1]
  simp

/-- **C3.** For an initialized mapping (its mapping ID bound in
`MappingIDMap`, its entry list in `KeyValueIDMap`) on a quiescent state:
if the key ID is not in `KeyMap`, `update_key_value` has the same effect
on all six maps as `insert_key_value` (same post-state, and one succeeds
exactly when the other does); if the key ID is in `KeyMap` and in the
mapping's entry list, it succeeds, overwrites `ValueMap[key_id]` with the
value and replaces the `value_id` at the key's existing position in
`KeyValueIDMap[mid]`, leaving the entry order unchanged. -/
theorem C3_update_vs_insert (s : Storage) (p m k v mappingId : Nat)
    (keyValueIds : List (Nat × Nat)) (hq : s.Quiescent)
    (hmid : alGet s.mappingIDMap.committed (p, m) = some mappingId)
    (hkv : alGet s.keyValueIDMap.committed mappingId = some keyValueIds) :
    (alGet s.keyMap.committed (keyIdOf mappingId k) = none →
      (s.updateKeyValue p m k v).2 = (s.insertKeyValue p m k v).2 ∧
      (s.updateKeyValue p m k v).1.isOk = (s.insertKeyValue p m k v).1.isOk) ∧
    ((alGet s.keyMap.committed (keyIdOf mappingId k)).isSome = true →
      alContains keyValueIds (keyIdOf mappingId k) = true →
      s.updateKeyValue p m k v = (.ok (), { s with
        keyValueIDMap := ⟨alInsert s.keyValueIDMap.committed mappingId
          (alInsert keyValueIds (keyIdOf mappingId k)
            (valueIdOf (keyIdOf mappingId k) v)), none⟩,
        keyMap := ⟨alInsert s.keyMap.committed (keyIdOf mappingId k) k, none⟩,
        valueMap := ⟨alInsert s.valueMap.committed (keyIdOf mappingId k) v,
          none⟩ })
      ∧ (alInsert keyValueIds (keyIdOf mappingId k)
          (valueIdOf (keyIdOf mappingId k) v)).map Prod.fst
          = keyValueIds.map Prod.fst
      ∧ alGet (alInsert keyValueIds (keyIdOf mappingId k)
          (valueIdOf (keyIdOf mappingId k) v)) (keyIdOf mappingId k)
          = some (valueIdOf (keyIdOf mappingId k) v)) := by
  obtain ⟨⟨c1, pd1⟩, ⟨c2, pd2⟩, ⟨c3, pd3⟩, ⟨c4, pd4⟩, ⟨c5, pd5⟩, ⟨c6, pd6⟩⟩ := s
  obtain ⟨h1, h2, h3, h4, h5, h6⟩ := hq
  cases h1; cases h2; cases h3; cases h4; cases h5; cases h6
  constructor
  · intro hnone
    by_cases hin : alContains keyValueIds (keyIdOf mappingId k)
    · have hu : Storage.updateKeyValue
          ⟨⟨c1, none⟩, ⟨c2, none⟩, ⟨c3, none⟩, ⟨c4, none⟩, ⟨c5, none⟩,
            ⟨c6, none⟩⟩ p m k v = (.error .updKeyExists,
          ⟨⟨c1, none⟩, ⟨c2, none⟩, ⟨c3, none⟩, ⟨c4, none⟩, ⟨c5, none⟩,
            ⟨c6, none⟩⟩) := by
        simp [Storage.updateKeyValue, Storage.getMappingId, AMap.getSpec,
          hmid, hkv, hnone, hin]
      have hc5 : AMap.containsK (⟨c5, none⟩ : AMap Nat Nat)
          (keyIdOf mappingId k) = false := by
        simp [AMap.containsK, alContains, hnone]
      have hi : Storage.insertKeyValue
          ⟨⟨c1, none⟩, ⟨c2, none⟩, ⟨c3, none⟩, ⟨c4, none⟩, ⟨c5, none⟩,
            ⟨c6, none⟩⟩ p m k v = (.error .insKeyInKvList,
          ⟨⟨c1, none⟩, ⟨c2, none⟩, ⟨c3, none⟩, ⟨c4, none⟩, ⟨c5, none⟩,
            ⟨c6, none⟩⟩) := by
        simp [Storage.insertKeyValue, Storage.getMappingId, AMap.getSpec,
          hmid, hkv, hc5, hin]
      rw [hu, hi]
      exact ⟨rfl, rfl⟩
    · have hbail2 : ¬ ((alGet c5 (keyIdOf mappingId k)).isNone = true
          ∧ alContains keyValueIds (keyIdOf mappingId k) = true) := by
        intro hc
        exact hin hc.2
      have hu : Storage.updateKeyValue
          ⟨⟨c1, none⟩, ⟨c2, none⟩, ⟨c3, none⟩, ⟨c4, none⟩, ⟨c5, none⟩,
            ⟨c6, none⟩⟩ p m k v = (.ok (),
          ⟨⟨c1, none⟩, ⟨c2, none⟩, ⟨c3, none⟩,
            ⟨alInsert c4 mappingId (alInsert keyValueIds
              (keyIdOf mappingId k) (valueIdOf (keyIdOf mappingId k) v)),
              none⟩,
            ⟨alInsert c5 (keyIdOf mappingId k) k, none⟩,
            ⟨alInsert c6 (keyIdOf mappingId k) v, none⟩⟩) := by
        simp only [Storage.updateKeyValue, Storage.getMappingId, AMap.getSpec,
          hmid, hkv]
        rw [if_neg hbail2]
        simp [Storage.atomicWriteBatch, Storage.isAtomicInProgress,
          AMap.isAtomicInProgress, Storage.startAtomic, AMap.startAtomic,
          AMap.insert, Storage.finishAtomic, AMap.finishAtomic, AMap.applyOps,
          AMap.applyOp]
      have hc5 : AMap.containsK (⟨c5, none⟩ : AMap Nat Nat)
          (keyIdOf mappingId k) = false := by
        simp [AMap.containsK, alContains, hnone]
      have hi : Storage.insertKeyValue
          ⟨⟨c1, none⟩, ⟨c2, none⟩, ⟨c3, none⟩, ⟨c4, none⟩, ⟨c5, none⟩,
            ⟨c6, none⟩⟩ p m k v = (.ok (),
          ⟨⟨c1, none⟩, ⟨c2, none⟩, ⟨c3, none⟩,
            ⟨alInsert c4 mappingId (alInsert keyValueIds
              (keyIdOf mappingId k) (valueIdOf (keyIdOf mappingId k) v)),
              none⟩,
            ⟨alInsert c5 (keyIdOf mappingId k) k, none⟩,
            ⟨alInsert c6 (keyIdOf mappingId k) v, none⟩⟩) := by
        simp [Storage.insertKeyValue, Storage.getMappingId, AMap.getSpec,
          hmid, hkv, hc5, hin,
          Storage.atomicWriteBatch, Storage.isAtomicInProgress,
          AMap.isAtomicInProgress, Storage.startAtomic, AMap.startAtomic,
          AMap.insert, Storage.finishAtomic, AMap.finishAtomic, AMap.applyOps,
          AMap.applyOp]
      rw [hu, hi]
      exact ⟨rfl, rfl⟩
  · intro hsome hin
    have hbail2 : ¬ ((alGet c5 (keyIdOf mappingId k)).isNone = true
        ∧ alContains keyValueIds (keyIdOf mappingId k) = true) := by
      intro hc
      rw [Option.isNone_iff_eq_none.mp hc.1] at hsome
      simp at hsome
    refine ⟨?_, alInsert_map_fst_of_contains _ hin, ?_⟩
    · simp only [Storage.updateKeyValue, Storage.getMappingId, AMap.getSpec,
        hmid, hkv]
      rw [if_neg hbail2]
      simp [Storage.atomicWriteBatch, Storage.isAtomicInProgress,
        AMap.isAtomicInProgress, Storage.startAtomic, AMap.startAtomic,
        AMap.insert, Storage.finishAtomic, AMap.finishAtomic, AMap.applyOps,
        AMap.applyOp]
    · rw [alGet_alInsert]
      simp

/-- **C3 witness.** -/
theorem C3_update_vs_insert_witness :
    (Storage.mk AMap.empty AMap.empty ⟨[((1, 10), 77)], none⟩ ⟨[(77, [])], none⟩
        AMap.empty AMap.empty).Quiescent ∧
    alGet (Storage.mk AMap.empty AMap.empty ⟨[((1, 10), 77)], none⟩
        ⟨[(77, [])], none⟩ AMap.empty AMap.empty).mappingIDMap.committed (1, 10)
      = some 77 ∧
    ((Storage.mk AMap.empty AMap.empty ⟨[((1, 10), 77)], none⟩
        ⟨[(77, [])], none⟩ AMap.empty AMap.empty).updateKeyValue 1 10 5 6).2
      = ((Storage.mk AMap.empty AMap.empty ⟨[((1, 10), 77)], none⟩
        ⟨[(77, [])], none⟩ AMap.empty AMap.empty).insertKeyValue 1 10 5 6).2 :=
  ⟨by decide, by decide,
    ((C3_update_vs_insert _ 1 10 5 6 77 [] (by decide) (by decide)
      (by decide)).1 (by decide)).1⟩

/-! ## Claim C4 -/

theorem alGet_isSome_iff {l : List (K × V)} {k : K} :
    (alGet l k).isSome = true ↔ k ∈ l.map Prod.fst := by
  rcases hg : alGet l k with _ | w
  · simp only [Option.isSome_none, Bool.false_eq_true, false_iff]
    intro hc
    rcases List.mem_map.mp hc with ⟨e, he, hfst⟩
    exact (alGet_eq_none_iff l k).mp hg e he hfst
  · simp only [Option.isSome_some, true_iff]
    exact List.mem_map.mpr ⟨(k, w), alGet_mem hg, rfl⟩

theorem mem_eq_of_nodup_keys {l : List (K × V)}
    (hnd : (l.map Prod.fst).Nodup) {a b : K × V}
    (ha : a ∈ l) (hb : b ∈ l) (hk : a.1 = b.1) : a = b := by
  have h1 : alGet l a.1 = some a.2 := alGet_of_mem_nodup hnd ha
  have h2 : alGet l b.1 = some b.2 := alGet_of_mem_nodup hnd hb
  rw [hk] at h1
  rw [h1] at h2
  have : a.2 = b.2 := by injection h2
  exact Prod.ext hk this

/-- Looking up through a fold of in-place inserts with distinct keys. -/
theorem fold_alInsert_map_eq {K V : Type} [DecidableEq K] :
    ∀ (us base : List (K × V)),
    (base.map Prod.fst).Nodup → (us.map Prod.fst).Nodup →
    (∀ u ∈ us, alContains base u.1 = true) →
    us.foldl (fun acc u => alInsert acc u.1 u.2) base
    = base.map (fun e => match alGet us e.1 with
        | some w => (e.1, w)
        | none => e) := by
  intro us
  induction us with
  | nil =>
    intro base _ _ _
    simp [alGet]
  | cons u us' ih =>
    intro base hbase hus hsub
    rw [List.foldl_cons]
    have hcon : alContains base u.1 = true := hsub u (by simp)
    rcases Option.isSome_iff_exists.mp hcon with ⟨w, hw⟩
    obtain ⟨l1, l2, rfl, hl1⟩ := alGet_eq_some_split hw
    rw [alInsert_append_cons w u.2 hl1]
    have hkeys : ((l1 ++ (u.1, u.2) :: l2).map Prod.fst).Nodup := by
      simpa using hbase
    rw [ih (l1 ++ (u.1, u.2) :: l2) hkeys
      (List.nodup_cons.mp hus).2 ?side]
    case side =>
      intro x hx
      have : alContains (l1 ++ (u.1, w) :: l2) x.1 = true :=
        hsub x (List.mem_cons_of_mem _ hx)
      rw [alContains, alGet_isSome_iff] at this ⊢
      simpa using (by simpa using this :
        x.1 ∈ l1.map Prod.fst ++ u.1 :: l2.map Prod.fst)
    have hu1 : u.1 ∉ us'.map Prod.fst := (List.nodup_cons.mp hus).1
    have hgu : alGet us' u.1 = none := by
      rw [alGet_eq_none_iff]
      intro e he hc
      exact hu1 (List.mem_map.mpr ⟨e, he, hc⟩)
    have hne_l : ∀ e : K × V, e ∈ l1 ∨ e ∈ l2 → e.1 ≠ u.1 := by
      intro e he hc
      rcases he with he | he
      · exact hl1 e he hc
      · have hmem : u.1 ∈ (l1 ++ (u.1, w) :: l2).map Prod.fst := by simp
        simp only [List.map_append, List.map_cons, List.nodup_append] at hbase
        rcases hbase with ⟨ha, hb, hcdis⟩
        rcases List.nodup_cons.mp hb with ⟨hb1, _⟩
        exact hb1 (hc ▸ List.mem_map.mpr ⟨e, he, rfl⟩)
    simp only [List.map_append, List.map_cons]
    congr 1
    · refine List.map_congr_left ?_
      intro e he
      have hne : e.1 ≠ u.1 := hne_l e (Or.inl he)
      rw [show alGet (u :: us') e.1
        = if u.1 = e.1 then some u.2 else alGet us' e.1 from rfl]
      rw [if_neg (fun hc => hne hc.symm)]
    · congr 1
      · rw [hgu, show alGet (u :: us') u.1
          = if u.1 = u.1 then some u.2 else alGet us' u.1 from rfl]
        rw [if_pos rfl]
      · refine List.map_congr_left ?_
        intro e he
        have hne : e.1 ≠ u.1 := hne_l e (Or.inr he)
        rw [show alGet (u :: us') e.1
          = if u.1 = e.1 then some u.2 else alGet us' e.1 from rfl]
        rw [if_neg (fun hc => hne hc.symm)]

/-- Removing one value from a dense range and shifting the larger ones
down yields the smaller dense range. -/
theorem erase_dec_perm (N d : Nat) (hd : d < N) :
    (((List.range N).erase d).map
      (fun i => if d < i then i - 1 else i)).Perm (List.range (N - 1)) := by
  have hnderase : ((List.range N).erase d).Nodup :=
    (List.nodup_range N).erase d
  have hmem_erase : ∀ i, i ∈ (List.range N).erase d ↔ i ≠ d ∧ i < N := by
    intro i
    rw [List.Nodup.mem_erase_iff (List.nodup_range N), List.mem_range]
  refine List.perm_of_nodup_nodup_toFinset_eq ?_ (List.nodup_range (N - 1)) ?_
  · refine List.Nodup.map_on ?_ hnderase
    intro x hx y hy hxy
    rw [hmem_erase] at hx hy
    by_cases h1 : d < x <;> by_cases h2 : d < y <;>
      simp only [h1, h2, if_true, if_false] at hxy <;> omega
  · ext x
    simp only [List.mem_toFinset, List.mem_map, List.mem_range]
    constructor
    · rintro ⟨i, hi, rfl⟩
      rw [hmem_erase] at hi
      by_cases h1 : d < i <;> simp only [h1, if_true, if_false] <;> omega
    · intro hx
      by_cases h1 : x < d
      · exact ⟨x, (hmem_erase x).mpr (by omega), by simp [show ¬ d < x by omega]⟩
      · exact ⟨x + 1, (hmem_erase (x + 1)).mpr (by omega),
          by simp [show d < x + 1 by omega]⟩

/-- Invariant I1, phrased over the committed contents: `ProgramIDMap`
and `ProgramIndexMap` have the same key set. -/
def InvI1 (s : Storage) : Prop :=
  (∀ e ∈ s.programIDMap.committed,
    alContains s.programIndexMap.committed e.1 = true) ∧
  (∀ e ∈ s.programIndexMap.committed,
    alContains s.programIDMap.committed e.1 = true)

instance (s : Storage) : Decidable (InvI1 s) := by
  unfold InvI1; infer_instance

/-- The effect of a successful `remove_program` on `ProgramIndexMap`:
keys stay distinct, length drops by one, survivors keep (shifted)
indices, and the values stay dense. -/
theorem removeProgram_index_spec {s s' : Storage} {p depIdx : Nat}
    (hq : s.Quiescent)
    (hnd : (s.programIndexMap.committed.map Prod.fst).Nodup)
    (hI2 : (s.programIndexMap.committed.map Prod.snd).Perm
      (List.range s.programIndexMap.committed.length))
    (hdep : alGet s.programIndexMap.committed p = some depIdx)
    (h : s.removeProgram p = (.ok (), s')) :
    (s'.programIndexMap.committed.map Prod.fst).Nodup ∧
    s'.programIndexMap.committed.length
      = s.programIndexMap.committed.length - 1 ∧
    (∀ q, (alGet s'.programIndexMap.committed q).isSome = true
        ↔ (q ≠ p ∧ (alGet s.programIndexMap.committed q).isSome = true)) ∧
    (∀ q i, alGet s.programIndexMap.committed q = some i → q ≠ p →
      alGet s'.programIndexMap.committed q
        = some (if depIdx < i then i - 1 else i)) ∧
    (s'.programIndexMap.committed.map Prod.snd).Perm
      (List.range (s.programIndexMap.committed.length - 1)) := by
  obtain ⟨ns, depIdx2, C3, C4, C5, C6, hns, hidx2, hpure, hs'⟩ :=
    Storage.removeProgram_ok hq h
  rw [hdep] at hidx2
  have hdep2 : depIdx = depIdx2 := Option.some.inj hidx2
  subst hdep2
  set c2 := s.programIndexMap.committed with hc2def
  obtain ⟨l1, l2, hsplit, hl1⟩ := alGet_eq_some_split hdep
  have hndc2 : (c2.map Prod.fst).Nodup := hnd
  have hpl2 : ∀ e ∈ l2, e.1 ≠ p := by
    intro e he hc
    rw [hsplit] at hndc2
    simp only [List.map_append, List.map_cons, List.nodup_append] at hndc2
    rcases hndc2 with ⟨_, hb, _⟩
    rcases List.nodup_cons.mp hb with ⟨hb1, _⟩
    exact hb1 (hc ▸ List.mem_map.mpr ⟨e, he, rfl⟩)
  have hR : alRemove c2 p = l1 ++ l2 := by
    rw [hsplit]
    exact alRemove_append_cons depIdx hl1 hpl2
  have hRnd : ((alRemove c2 p).map Prod.fst).Nodup := nodup_keys_alRemove p hnd
  have hmemR : ∀ e : Nat × Nat, e ∈ alRemove c2 p → e ∈ c2 ∧ e.1 ≠ p := by
    intro e he
    rw [hR] at he
    rcases List.mem_append.mp he with h9 | h9
    · exact ⟨by rw [hsplit]; exact List.mem_append_left _ h9, hl1 e h9⟩
    · refine ⟨?_, hpl2 e h9⟩
      rw [hsplit]
      exact List.mem_append_right _ (List.mem_cons_of_mem _ h9)
  have hmemR2 : ∀ e : Nat × Nat, e ∈ c2 → e.1 ≠ p → e ∈ alRemove c2 p := by
    intro e he hne
    rw [hR]
    rw [hsplit] at he
    rcases List.mem_append.mp he with h9 | h9
    · exact List.mem_append_left _ h9
    · rcases List.mem_cons.mp h9 with h9 | h9
      · exact absurd (congrArg Prod.fst h9) (by simpa using hne)
      · exact List.mem_append_right _ h9
  set us := (c2.filter (fun qi => depIdx < qi.2)).map
    (fun qi => (qi.1, qi.2 - 1)) with husdef
  have husnd : (us.map Prod.fst).Nodup := by
    rw [husdef, List.map_map]
    have : ((c2.filter (fun qi => depIdx < qi.2)).map
        (Prod.fst ∘ fun qi => (qi.1, qi.2 - 1)))
        = (c2.filter (fun qi => depIdx < qi.2)).map Prod.fst := rfl
    rw [this]
    exact List.Nodup.sublist
      (List.Sublist.map Prod.fst (List.filter_sublist c2)) hnd
  have hussub : ∀ u ∈ us, alContains (alRemove c2 p) u.1 = true := by
    intro u hu
    rcases List.mem_map.mp hu with ⟨qi, hqi, rfl⟩
    rcases List.mem_filter.mp hqi with ⟨hqic2, hqi2⟩
    have hqip : qi.1 ≠ p := by
      intro hc
      have : qi = (p, depIdx) := mem_eq_of_nodup_keys hnd hqic2
        (alGet_mem hdep) (by simpa using hc)
      rw [this] at hqi2
      simp at hqi2
    have : qi ∈ alRemove c2 p := hmemR2 qi hqic2 hqip
    rw [alContains, alGet_isSome_iff]
    exact List.mem_map.mpr ⟨qi, this, rfl⟩
  have hdecomp := fold_alInsert_map_eq us (alRemove c2 p) hRnd husnd hussub
  have hc2' : s'.programIndexMap.committed
      = (alRemove c2 p).map
          (fun e => if depIdx < e.2 then (e.1, e.2 - 1) else e) := by
    rw [hs']
    show Storage.decrementIndices c2 p depIdx = _
    rw [Storage.decrementIndices, ← husdef, hdecomp]
    refine List.map_congr_left ?_
    intro e he
    rcases hmemR e he with ⟨hec2, hep⟩
    by_cases he2 : depIdx < e.2
    · have hmemus : (e.1, e.2 - 1) ∈ us := by
        rw [husdef]
        exact List.mem_map.mpr ⟨e, List.mem_filter.mpr
          ⟨hec2, by simpa using he2⟩, rfl⟩
      rw [alGet_of_mem_nodup husnd hmemus, if_pos he2]
    · have hnone : alGet us e.1 = none := by
        rw [alGet_eq_none_iff]
        intro x hx hc
        rcases List.mem_map.mp hx with ⟨qi, hqi, rfl⟩
        rcases List.mem_filter.mp hqi with ⟨hqic2, hqi2⟩
        have : qi = e := mem_eq_of_nodup_keys hnd hqic2 hec2 hc
        rw [this] at hqi2
        simp at hqi2
        exact he2 hqi2
      rw [hnone, if_neg he2]
  have hfstpres : ((alRemove c2 p).map
      (fun e => if depIdx < e.2 then (e.1, e.2 - 1) else e)).map Prod.fst
      = (alRemove c2 p).map Prod.fst := by
    rw [List.map_map]
    refine List.map_congr_left ?_
    intro e _
    by_cases h9 : depIdx < e.2 <;> simp [h9]
  refine ⟨?_, ?_, ?_, ?_, ?_⟩
  · rw [hc2', hfstpres]
    exact hRnd
  · rw [hc2', List.length_map, hR, hsplit]
    simp
  · intro q
    rw [hc2', alGet_isSome_iff, hfstpres, ← alGet_isSome_iff,
      alGet_alRemove]
    by_cases h9 : p = q
    · simp [h9]
    · simp only [h9, if_false, iff_and_self]
      intro _
      exact fun hc => h9 hc.symm
  · intro q i hqi hqp
    have hmem : (q, i) ∈ alRemove c2 p :=
      hmemR2 (q, i) (alGet_mem hqi) (by simpa using hqp)
    have hmem2 : ((fun e : Nat × Nat =>
        if depIdx < e.2 then (e.1, e.2 - 1) else e) (q, i))
        ∈ (alRemove c2 p).map
          (fun e => if depIdx < e.2 then (e.1, e.2 - 1) else e) :=
      List.mem_map.mpr ⟨(q, i), hmem, rfl⟩
    have hnd' : (((alRemove c2 p).map
        (fun e => if depIdx < e.2 then (e.1, e.2 - 1) else e)).map
          Prod.fst).Nodup := by
      rw [hfstpres]; exact hRnd
    rw [hc2']
    by_cases h9 : depIdx < i
    · have := alGet_of_mem_nodup hnd' (by simpa [h9] using hmem2)
      simpa [h9] using this
    · have := alGet_of_mem_nodup hnd' (by simpa [h9] using hmem2)
      simpa [h9] using this
  · have hsndmap : (s'.programIndexMap.committed.map Prod.snd)
        = ((alRemove c2 p).map Prod.snd).map
          (fun i => if depIdx < i then i - 1 else i) := by
      rw [hc2', List.map_map, List.map_map]
      refine List.map_congr_left ?_
      intro e _
      by_cases h9 : depIdx < e.2 <;> simp [h9]
    have hmidperm : (c2.map Prod.snd).Perm
        (depIdx :: (alRemove c2 p).map Prod.snd) := by
      rw [hR, hsplit]
      simp only [List.map_append, List.map_cons]
      exact List.perm_middle
    have hconsperm : (depIdx :: (alRemove c2 p).map Prod.snd).Perm
        (List.range c2.length) := hmidperm.symm.trans hI2
    have hdmem : depIdx ∈ List.range c2.length :=
      (List.cons_perm_iff_perm_erase.mp hconsperm).1
    have hdlt : depIdx < c2.length := List.mem_range.mp hdmem
    have hRperm : ((alRemove c2 p).map Prod.snd).Perm
        ((List.range c2.length).erase depIdx) :=
      (List.cons_perm_iff_perm_erase.mp hconsperm).2
    rw [hsndmap]
    exact (hRperm.map _).trans (erase_dec_perm c2.length depIdx hdlt)

/-- **C4.** On a quiescent state satisfying I1 and I2 (distinct keys and
dense indices `{0..N-1}`) in which program `p` has index `depIdx`, a
successful `remove_program(p)` leaves `ProgramIndexMap` holding exactly
the surviving programs; every survivor whose index exceeded `depIdx` is
decremented by one and all others keep their index; and the values form
exactly the dense set `{0..N-2}`. -/
theorem C4_remove_program_compaction {s s' : Storage} {p depIdx : Nat}
    (hq : s.Quiescent) (hI1 : InvI1 s)
    (hnd : (s.programIndexMap.committed.map Prod.fst).Nodup)
    (hI2 : (s.programIndexMap.committed.map Prod.snd).Perm
      (List.range s.programIndexMap.committed.length))
    (hdep : alGet s.programIndexMap.committed p = some depIdx)
    (h : s.removeProgram p = (.ok (), s')) :
    (∀ q, (alGet s'.programIndexMap.committed q).isSome = true
        ↔ (q ≠ p ∧ (alGet s.programIndexMap.committed q).isSome = true)) ∧
    (∀ q i, alGet s.programIndexMap.committed q = some i → q ≠ p →
      alGet s'.programIndexMap.committed q
        = some (if depIdx < i then i - 1 else i)) ∧
    (s'.programIndexMap.committed.map Prod.snd).Perm
      (List.range (s.programIndexMap.committed.length - 1)) := by
  obtain ⟨-, -, h1, h2, h3⟩ := removeProgram_index_spec hq hnd hI2 hdep h
  exact ⟨h1, h2, h3⟩

/-- **C4 witness.** A three-program state: removing the middle program
renumbers the survivors to `{0, 1}`. -/
theorem C4_remove_program_witness :
    ((Storage.mk ⟨[(1, []), (2, []), (3, [])], none⟩
      ⟨[(1, 0), (2, 1), (3, 2)], none⟩ ⟨[], none⟩ ⟨[], none⟩ ⟨[], none⟩
      ⟨[], none⟩).removeProgram 2
      = (.ok (), Storage.mk ⟨[(1, []), (3, [])], none⟩
        ⟨[(1, 0), (3, 1)], none⟩ ⟨[], none⟩ ⟨[], none⟩ ⟨[], none⟩
        ⟨[], none⟩))
    ∧ (([(1, 0), (3, 1)] : List (Nat × Nat)).map Prod.snd).Perm
        (List.range 2) := by
  refine ⟨by decide, ?_⟩
  have h := @C4_remove_program_compaction (Storage.mk
      ⟨[(1, []), (2, []), (3, [])], none⟩ ⟨[(1, 0), (2, 1), (3, 2)], none⟩
      ⟨[], none⟩ ⟨[], none⟩ ⟨[], none⟩ ⟨[], none⟩)
    (Storage.mk ⟨[(1, []), (3, [])], none⟩ ⟨[(1, 0), (3, 1)], none⟩
      ⟨[], none⟩ ⟨[], none⟩ ⟨[], none⟩ ⟨[], none⟩)
    2 1 (by decide) (by decide) (by decide) (by decide)
    (by decide) (by decide)
  exact h.2.2

/-- A store holding program 1 (with no mappings) and program 2 whose
mapping-name list mentions mapping 3, absent from `MappingIDMap`. -/
def c2Store : FStore :=
  { storage := ⟨⟨[(1, []), (2, [3])], none⟩, ⟨[(1, 0), (2, 1)], none⟩,
      ⟨[], none⟩, ⟨[], none⟩, ⟨[], none⟩, ⟨[], none⟩⟩,
    tree := [], isSpeculate := false }

/-- **C2 (counterexample).** `FinalizeStore::remove_program` can mutate
the storage maps and still return an error: the storage transaction
commits first, and the finalize-tree recomputation that follows it
fails, so the call errors with the six maps already changed. -/
theorem C2_remove_program_partial_application :
    (c2Store.removeProgram 1).1 = .error .treeMappingIdMissing ∧
    (c2Store.removeProgram 1).2.storage ≠ c2Store.storage := by decide

/-- **C2 (amended).** On a quiescent, non-speculative store, the five
mutators other than `remove_program` roll back completely on error: the
six maps and the cached tree are exactly as before the call.
`remove_program` only guarantees the cached tree (and the speculate
flag) unchanged on error: the storage maps may have been mutated. -/
theorem C2_error_rollback (st : FStore) (hq : st.storage.Quiescent)
    (hs : st.isSpeculate = false) :
    (∀ p m e st1, st.initializeMapping p m = (.error e, st1) → st1 = st) ∧
    (∀ p m k v e st1, st.insertKeyValue p m k v = (.error e, st1) →
      st1 = st) ∧
    (∀ p m k v e st1, st.updateKeyValue p m k v = (.error e, st1) →
      st1 = st) ∧
    (∀ p m k e st1, st.removeKeyValue p m k = (.error e, st1) → st1 = st) ∧
    (∀ p m e st1, st.removeMapping p m = (.error e, st1) → st1 = st) ∧
    (∀ p e st1, st.removeProgram p = (.error e, st1) →
      st1.tree = st.tree ∧ st1.isSpeculate = st.isSpeculate) := by
  obtain ⟨sg, tr, sp⟩ := st
  subst hs
  refine ⟨?_, ?_, ?_, ?_, ?_, ?_⟩
  · intro p m e st1 h
    simp only [FStore.initializeMapping, Bool.false_eq_true, if_false] at h
    rcases htree : sg.toProgramTree p
        (some [MerkleTreeUpdate.insertMapping (hashMappingID p m)])
        with e' | ptree
    · simp only [htree] at h
      exact (congrArg Prod.snd h).symm
    · simp only [htree] at h
      rcases hrs : sg.initializeMapping p m with ⟨r, s2⟩
      simp only [hrs] at h
      rcases r with e'' | u
      · have hsg : s2 = sg := by
          have h9 := Storage.initializeMapping_sound sg p m hq
          rw [hrs] at h9
          rcases h9 with h9 | h9
          · exact absurd h9 (by simp)
          · exact h9
        rw [← hsg]
        exact (congrArg Prod.snd h).symm
      · exact absurd (show (Except.ok () : Except Err Unit) = Except.error e
          from congrArg Prod.fst h) (by simp)
  · intro p m k v e st1 h
    simp only [FStore.insertKeyValue, Bool.false_eq_true, if_false] at h
    rcases hmid : sg.getMappingId p m with _ | mid
    · simp only [hmid] at h
      exact (congrArg Prod.snd h).symm
    · simp only [hmid] at h
      rcases htree : sg.toProgramTree p
          (some [MerkleTreeUpdate.insertValue mid (keyIdOf mid k)
            (valueIdOf (keyIdOf mid k) v)]) with e' | ptree
      · simp only [htree] at h
        exact (congrArg Prod.snd h).symm
      · simp only [htree] at h
        rcases hpi : AMap.get sg.programIndexMap p with _ | pidx
        · simp only [hpi] at h
          exact (congrArg Prod.snd h).symm
        · simp only [hpi] at h
          rcases hrs : sg.insertKeyValue p m k v with ⟨r, s2⟩
          simp only [hrs] at h
          rcases r with e'' | u
          · have hsg : s2 = sg := by
              have h9 := Storage.insertKeyValue_sound sg p m k v hq
              rw [hrs] at h9
              rcases h9 with h9 | h9
              · exact absurd h9 (by simp)
              · exact h9
            rw [← hsg]
            exact (congrArg Prod.snd h).symm
          · exact absurd (show (Except.ok () : Except Err Unit)
              = Except.error e from congrArg Prod.fst h) (by simp)
  · intro p m k v e st1 h
    simp only [FStore.updateKeyValue, Bool.false_eq_true, if_false] at h
    rcases hmid : sg.getMappingId p m with _ | mid
    · simp only [hmid] at h
      exact (congrArg Prod.snd h).symm
    · simp only [hmid] at h
      rcases hkvm : AMap.get sg.keyValueIDMap mid with _ | kvm
      · simp only [hkvm] at h
        exact (congrArg Prod.snd h).symm
      · simp only [hkvm] at h
        rcases hupd : alIndexOf kvm (keyIdOf mid k) with _ | kidx
        · simp only [hupd] at h
          rcases htree : sg.toProgramTree p
              (some [MerkleTreeUpdate.insertValue mid (keyIdOf mid k)
                (valueIdOf (keyIdOf mid k) v)]) with e' | ptree
          · simp only [htree] at h
            exact (congrArg Prod.snd h).symm
          · simp only [htree] at h
            rcases hpi : AMap.get sg.programIndexMap p with _ | pidx
            · simp only [hpi] at h
              exact (congrArg Prod.snd h).symm
            · simp only [hpi] at h
              rcases hrs : sg.updateKeyValue p m k v with ⟨r, s2⟩
              simp only [hrs] at h
              rcases r with e'' | u
              · have hsg : s2 = sg := by
                  have h9 := Storage.updateKeyValue_sound sg p m k v hq
                  rw [hrs] at h9
                  rcases h9 with h9 | h9
                  · exact absurd h9 (by simp)
                  · exact h9
                rw [← hsg]
                exact (congrArg Prod.snd h).symm
              · exact absurd (show (Except.ok () : Except Err Unit)
                  = Except.error e from congrArg Prod.fst h) (by simp)
        · simp only [hupd] at h
          rcases htree : sg.toProgramTree p
              (some [MerkleTreeUpdate.updateValue mid kidx (keyIdOf mid k)
                (valueIdOf (keyIdOf mid k) v)]) with e' | ptree
          · simp only [htree] at h
            exact (congrArg Prod.snd h).symm
          · simp only [htree] at h
            rcases hpi : AMap.get sg.programIndexMap p with _ | pidx
            · simp only [hpi] at h
              exact (congrArg Prod.snd h).symm
            · simp only [hpi] at h
              rcases hrs : sg.updateKeyValue p m k v with ⟨r, s2⟩
              simp only [hrs] at h
              rcases r with e'' | u
              · have hsg : s2 = sg := by
                  have h9 := Storage.updateKeyValue_sound sg p m k v hq
                  rw [hrs] at h9
                  rcases h9 with h9 | h9
                  · exact absurd h9 (by simp)
                  · exact h9
                rw [← hsg]
                exact (congrArg Prod.snd h).symm
              · exact absurd (show (Except.ok () : Except Err Unit)
                  = Except.error e from congrArg Prod.fst h) (by simp)
  · intro p m k e st1 h
    simp only [FStore.removeKeyValue, Bool.false_eq_true, if_false] at h
    rcases hmid : sg.getMappingId p m with _ | mid
    · simp only [hmid] at h
      exact (congrArg Prod.snd h).symm
    · simp only [hmid] at h
      rcases hkvm : AMap.get sg.keyValueIDMap mid with _ | kvm
      · simp only [hkvm] at h
        exact (congrArg Prod.snd h).symm
      · simp only [hkvm] at h
        rcases hupd : alIndexOf kvm (keyIdOf mid k) with _ | kidx
        · simp only [hupd] at h
          exact (congrArg Prod.snd h).symm
        · simp only [hupd] at h
          rcases htree : sg.toProgramTree p
              (some [MerkleTreeUpdate.removeValue mid kidx]) with e' | ptree
          · simp only [htree] at h
            exact (congrArg Prod.snd h).symm
          · simp only [htree] at h
            rcases hpi : AMap.get sg.programIndexMap p with _ | pidx
            · simp only [hpi] at h
              exact (congrArg Prod.snd h).symm
            · simp only [hpi] at h
              rcases hrs : sg.removeKeyValue p m k with ⟨r, s2⟩
              simp only [hrs] at h
              rcases r with e'' | u
              · have hsg : s2 = sg := by
                  have h9 := Storage.removeKeyValue_sound sg p m k hq
                  rw [hrs] at h9
                  rcases h9 with h9 | h9
                  · exact absurd h9 (by simp)
                  · exact h9
                rw [← hsg]
                exact (congrArg Prod.snd h).symm
              · exact absurd (show (Except.ok () : Except Err Unit)
                  = Except.error e from congrArg Prod.fst h) (by simp)
  · intro p m e st1 h
    simp only [FStore.removeMapping, Bool.false_eq_true, if_false] at h
    rcases hmid : sg.getMappingId p m with _ | mid
    · simp only [hmid] at h
      exact (congrArg Prod.snd h).symm
    · simp only [hmid] at h
      rcases htree : sg.toProgramTree p
          (some [MerkleTreeUpdate.removeMapping mid]) with e' | ptree
      · simp only [htree] at h
        exact (congrArg Prod.snd h).symm
      · simp only [htree] at h
        rcases hpi : AMap.get sg.programIndexMap p with _ | pidx
        · simp only [hpi] at h
          exact (congrArg Prod.snd h).symm
        · simp only [hpi] at h
          rcases hrs : sg.removeMapping p m with ⟨r, s2⟩
          simp only [hrs] at h
          rcases r with e'' | u
          · have hsg : s2 = sg := by
              have h9 := Storage.removeMapping_sound sg p m hq
              rw [hrs] at h9
              rcases h9 with h9 | h9
              · exact absurd h9 (by simp)
              · exact h9
            rw [← hsg]
            exact (congrArg Prod.snd h).symm
          · exact absurd (show (Except.ok () : Except Err Unit)
              = Except.error e from congrArg Prod.fst h) (by simp)
  · intro p e st1 h
    simp only [FStore.removeProgram, Bool.false_eq_true, if_false] at h
    rcases hrs : sg.removeProgram p with ⟨r, s2⟩
    simp only [hrs] at h
    rcases r with e'' | u
    · have h2 : (⟨s2, tr, false⟩ : FStore) = st1 := congrArg Prod.snd h
      rw [← h2]
      exact ⟨rfl, rfl⟩
    · rcases hlv : s2.toFinalizeLeaves with e3 | lvs
      · simp only [hlv] at h
        have h2 : (⟨s2, tr, false⟩ : FStore) = st1 := congrArg Prod.snd h
        rw [← h2]
        exact ⟨rfl, rfl⟩
      · simp only [hlv] at h
        exact absurd (show (Except.ok () : Except Err Unit) = Except.error e
          from congrArg Prod.fst h) (by simp)

/-- **C2 (amended) witness.** On the fresh store, `remove_program 0`
errors (no such program) and the cached tree is unchanged. -/
theorem C2_error_rollback_witness :
    FStore.initialStore.storage.Quiescent ∧
    (FStore.initialStore.removeProgram 0).1
      = .error Err.rprogProgramMissing ∧
    (FStore.initialStore.removeProgram 0).2.tree
      = FStore.initialStore.tree := by
  refine ⟨by decide, by decide, ?_⟩
  exact ((C2_error_rollback FStore.initialStore (by decide) rfl).2.2.2.2.2 0
    Err.rprogProgramMissing (FStore.initialStore.removeProgram 0).2
    (by decide)).1

/-- Invariant I3, phrased over the committed contents: for every
`(p, m)` with `m ∈ ProgramIDMap[p]`, `MappingIDMap[(p, m)] = H(p ‖ m)`. -/
def InvI3 (s : Storage) : Prop :=
  ∀ e ∈ s.programIDMap.committed, ∀ m ∈ e.2,
    alGet s.mappingIDMap.committed (e.1, m) = some (hashMappingID e.1 m)

instance (s : Storage) : Decidable (InvI3 s) := by
  unfold InvI3; infer_instance

/-- Invariant I4, phrased over the committed contents:
`KeyValueIDMap.keys = MappingIDMap.values` as sets. -/
def InvI4 (s : Storage) : Prop :=
  (∀ e ∈ s.keyValueIDMap.committed,
    e.1 ∈ s.mappingIDMap.committed.map Prod.snd) ∧
  (∀ e ∈ s.mappingIDMap.committed,
    e.2 ∈ s.keyValueIDMap.committed.map Prod.fst)

instance (s : Storage) : Decidable (InvI4 s) := by
  unfold InvI4; infer_instance

/-- Invariant I6, phrased over the committed contents: every binding
`(key_id, value_id)` of a mapping `mid` satisfies
`value_id = H(key_id ‖ H(ValueMap[key_id]))` and
`key_id = H(mid ‖ H(KeyMap[key_id]))`. -/
def InvI6 (s : Storage) : Prop :=
  ∀ e ∈ s.keyValueIDMap.committed, ∀ kv ∈ e.2,
    (alGet s.valueMap.committed kv.1).map (fun v => valueIdOf kv.1 v)
        = some kv.2 ∧
    (alGet s.keyMap.committed kv.1).map (fun kk => keyIdOf e.1 kk)
        = some kv.1

instance (s : Storage) : Decidable (InvI6 s) := by
  unfold InvI6; infer_instance

/-- Every `MappingIDMap` binding carries the hash of its own key — the
form in which `initialize_mapping` writes it. -/
def MappingIDMapConsistent (s : Storage) : Prop :=
  ∀ e ∈ s.mappingIDMap.committed, e.2 = hashMappingID e.1.1 e.1.2

instance (s : Storage) : Decidable (MappingIDMapConsistent s) := by
  unfold MappingIDMapConsistent; infer_instance

/-- The primary path of `get_value` as the spec words it (C9):
`get_key_id` followed by `get_value_from_key_id`, with no second
chance. -/
def Storage.getValuePrimary (s : Storage) (p m k : Nat) : Option Nat :=
  match s.getKeyId p m k with
  | some keyId => s.getValueFromKeyId keyId
  | none => none

/-- A state satisfying I3, I4 and I5 in which the key ID that
`get_value 1 2 3`'s second-chance branch recomputes was planted in the
entry list of a different mapping, `(1, 4)`. -/
def c9State : Storage :=
  ⟨⟨[(1, [4])], none⟩, ⟨[(1, 0)], none⟩,
   ⟨[((1, 4), hashMappingID 1 4)], none⟩,
   ⟨[(hashMappingID 1 4, [(keyIdOf (hashMappingID 1 2) 3, 5)])], none⟩,
   ⟨[(keyIdOf (hashMappingID 1 2) 3, 3)], none⟩,
   ⟨[(keyIdOf (hashMappingID 1 2) 3, 99)], none⟩⟩

/-- **C9 (counterexample).** Invariants I3–I5 do not make the
second-chance branch of `get_value` redundant: on `c9State` (which
satisfies I3, I4 and I5) the primary path returns `none` while
`get_value` returns a value through the recomputed key ID. -/
theorem C9_second_chance_diverges :
    InvI3 c9State ∧ InvI4 c9State ∧ InvI5 c9State ∧
    c9State.getValue 1 2 3 = some 99 ∧
    c9State.getValuePrimary 1 2 3 = none := by decide

/-- **C9 (amended).** On a quiescent state whose `MappingIDMap`
bindings carry the hashes of their own keys and which satisfies I4, I5
and I6, `get_value` coincides with the primary path: the second-chance
branch never changes the result. -/
theorem C9_get_value_matches_primary (s : Storage) (p m k : Nat)
    (hq : s.Quiescent) (h3m : MappingIDMapConsistent s) (h4 : InvI4 s)
    (h5 : InvI5 s) (h6 : InvI6 s) :
    s.getValue p m k = s.getValuePrimary p m k := by
  obtain ⟨⟨c1, pd1⟩, ⟨c2, pd2⟩, ⟨c3, pd3⟩, ⟨c4, pd4⟩, ⟨c5, pd5⟩, ⟨c6, pd6⟩⟩ := s
  obtain ⟨h1q, h2q, h3q, h4q, h5q, h6q⟩ := hq
  cases h1q; cases h2q; cases h3q; cases h4q; cases h5q; cases h6q
  rcases hmid : alGet c3 (p, m) with _ | mid
  · rcases hkm : alGet c5 (keyIdOf (hashMappingID p m) k) with _ | k9
    · simp [Storage.getValue, Storage.getValuePrimary, Storage.getKeyId,
        Storage.getMappingId, AMap.getSpec, hmid, hkm]
    · exfalso
      obtain ⟨f, hf, hcont⟩ :=
        h5.2.2.1 (keyIdOf (hashMappingID p m) k, k9) (alGet_mem hkm)
      obtain ⟨w, hw⟩ := Option.isSome_iff_exists.mp hcont
      have hkv : (keyIdOf (hashMappingID p m) k, w) ∈ f.2 := alGet_mem hw
      have h6f := (h6 f hf (keyIdOf (hashMappingID p m) k, w) hkv).2
      rw [hkm] at h6f
      simp only [Option.map_some] at h6f
      have hkid := Option.some.inj h6f
      obtain ⟨hfe, _⟩ := keyIdOf_inj hkid
      obtain ⟨me, hme, hme2⟩ := List.mem_map.mp (h4.1 f hf)
      have hcons := h3m me hme
      rw [hcons, hfe] at hme2
      obtain ⟨hp9, hm9⟩ := hashMappingID_inj hme2
      have : alGet c3 (p, m) ≠ none := by
        rw [← Option.isSome_iff_ne_none, alGet_isSome_iff]
        refine List.mem_map.mpr ⟨me, hme, ?_⟩
        rw [show me.1 = (me.1.1, me.1.2) from rfl, hp9, hm9]
      exact this hmid
  · have hmidC : mid = hashMappingID p m := h3m ((p, m), mid) (alGet_mem hmid)
    by_cases hck : alContains c5 (keyIdOf mid k)
    · simp [Storage.getValue, Storage.getValuePrimary, Storage.getKeyId,
        Storage.getMappingId, AMap.getSpec, hmid, AMap.containsK, hck]
    · have hnone : alGet c5 (keyIdOf mid k) = none := by
        rw [← Option.not_isSome_iff_eq_none]
        exact fun hc => hck hc
      simp [Storage.getValue, Storage.getValuePrimary, Storage.getKeyId,
        Storage.getMappingId, AMap.getSpec, hmid, AMap.containsK, hck,
        ← hmidC, hnone]

/-- **C9 (amended) witness.** A properly initialized one-mapping state:
`get_value` and the primary path agree on a concrete query. -/
theorem C9_get_value_matches_primary_witness :
    (⟨⟨[(1, [2])], none⟩, ⟨[(1, 0)], none⟩,
      ⟨[((1, 2), hashMappingID 1 2)], none⟩,
      ⟨[(hashMappingID 1 2, [])], none⟩, ⟨[], none⟩, ⟨[], none⟩⟩
        : Storage).getValue 1 2 3
    = (⟨⟨[(1, [2])], none⟩, ⟨[(1, 0)], none⟩,
        ⟨[((1, 2), hashMappingID 1 2)], none⟩,
        ⟨[(hashMappingID 1 2, [])], none⟩, ⟨[], none⟩, ⟨[], none⟩⟩
          : Storage).getValuePrimary 1 2 3 :=
  C9_get_value_matches_primary _ 1 2 3 (by decide) (by decide) (by decide)
    (by decide) (by decide)

/-! ## Claim C7 -/

theorem alInsert_alInsert {K V : Type} [DecidableEq K]
    (l : List (K × V)) (k : K) (v w : V) :
    alInsert (alInsert l k v) k w = alInsert l k w := by
  induction l with
  | nil => simp [alInsert]
  | cons e t ih =>
    obtain ⟨ek, ev⟩ := e
    by_cases h1 : ek = k
    · subst h1
      simp [alInsert]
    · simp [alInsert, h1, ih]

theorem alInsert_self {K V : Type} [DecidableEq K]
    {l : List (K × V)} {k : K} {v : V} (h : alGet l k = some v) :
    alInsert l k v = l := by
  induction l with
  | nil => simp [alGet] at h
  | cons e t ih =>
    obtain ⟨ek, ev⟩ := e
    by_cases h1 : ek = k
    · subst h1
      simp only [alGet, if_pos rfl] at h
      rw [alInsert, if_pos rfl, Option.some.inj h]
    · simp only [alGet, h1, if_false] at h
      simp [alInsert, h1, ih h]

theorem alRemove_append {K V : Type} [DecidableEq K]
    (a b : List (K × V)) (k : K) :
    alRemove (a ++ b) k = alRemove a k ++ alRemove b k := by
  induction a with
  | nil => simp [alRemove]
  | cons e t ih =>
    obtain ⟨ek, ev⟩ := e
    by_cases h1 : ek = k
    · simp [alRemove, h1, ih]
    · simp [alRemove, h1, ih]

theorem eraseIdx_append_last {α : Type} (l : List α) (a : α) :
    (l ++ [a]).eraseIdx l.length = l := by
  induction l with
  | nil => rfl
  | cons b t ih => simp [List.eraseIdx, ih]

/-- `mapM` over `Except` depends only on the pointwise values. -/
theorem mapM_congr_except {α β : Type} {f g : α → Except Err β}
    (l : List α) (h : ∀ a ∈ l, f a = g a) : l.mapM f = l.mapM g := by
  induction l with
  | nil => rfl
  | cons a t ih =>
    rw [List.mapM_cons, List.mapM_cons, h a (List.mem_cons_self a t),
      ih (fun b hb => h b (List.mem_cons_of_mem _ hb))]

/-- The mapping tree of any mapping of `p`, rebuilt after inserting
`(kid, vid)` into mapping `mid` and with the matching `RemoveValue`
update applied, is the mapping tree of the original state. -/
theorem roundTrip_toMappingTree
    (c1 : List (Nat × List Nat)) (c2 : List (Nat × Nat))
    (c3 : List ((Nat × Nat) × Nat)) (c4 : List (Nat × List (Nat × Nat)))
    (c5 c6 c5x c6x : List (Nat × Nat))
    (p mid kid vid m9 : Nat) (kvs : List (Nat × Nat))
    (hkvs : alGet c4 mid = some kvs) (hkin : alGet kvs kid = none) :
    Storage.toMappingTree
      ⟨⟨c1, none⟩, ⟨c2, none⟩, ⟨c3, none⟩,
        ⟨alInsert c4 mid (alInsert kvs kid vid), none⟩,
        ⟨c5x, none⟩, ⟨c6x, none⟩⟩
      p m9 (some [MerkleTreeUpdate.removeValue mid kvs.length])
    = Storage.toMappingTree
        ⟨⟨c1, none⟩, ⟨c2, none⟩, ⟨c3, none⟩, ⟨c4, none⟩, ⟨c5, none⟩,
          ⟨c6, none⟩⟩ p m9 none := by
  have hX : alInsert kvs kid vid = kvs ++ [(kid, vid)] :=
    alInsert_of_get_none vid hkin
  rcases hm9 : alGet c3 (p, m9) with _ | mid9
  · simp [Storage.toMappingTree, Storage.getMappingId, AMap.getSpec, hm9,
      throw, throwThe, MonadExceptOf.throw, bind, Except.bind]
  · by_cases hmm : mid9 = mid
    · subst hmm
      simp only [Storage.toMappingTree, Storage.getMappingId, AMap.getSpec,
        hm9, hkvs, alGet_alInsert, if_pos rfl, hX, Storage.applyLeafUpdate,
        MerkleTreeUpdate.mappingId, List.foldl_cons, List.foldl_nil,
        bind, Except.bind, pure, Except.pure, Functor.map, Except.map,
        ne_eq, not_true_eq_false, if_false, ite_false, reduceIte,
        List.map_append, List.map_cons, List.map_nil]
      rw [show kvs.length = (kvs.map Prod.snd).length by simp]
      rw [eraseIdx_append_last]
    · have hne : mid ≠ mid9 := fun hc => hmm hc.symm
      simp only [Storage.toMappingTree, Storage.getMappingId, AMap.getSpec,
        hm9, alGet_alInsert, if_neg hmm, Storage.applyLeafUpdate,
        MerkleTreeUpdate.mappingId, List.foldl_cons, List.foldl_nil,
        bind, Except.bind, pure, Except.pure, Functor.map, Except.map,
        ne_eq, hne, not_false_eq_true, if_true, ite_true, reduceIte]

/-- The program tree of `p`, rebuilt after inserting `(kid, vid)` into
mapping `mid` and with the matching `RemoveValue` update applied, is
the program tree of the original state. -/
theorem roundTrip_toProgramTree
    (c1 : List (Nat × List Nat)) (c2 : List (Nat × Nat))
    (c3 : List ((Nat × Nat) × Nat)) (c4 : List (Nat × List (Nat × Nat)))
    (c5 c6 c5x c6x : List (Nat × Nat))
    (p mid kid vid : Nat) (kvs : List (Nat × Nat))
    (hkvs : alGet c4 mid = some kvs) (hkin : alGet kvs kid = none) :
    Storage.toProgramTree
      ⟨⟨c1, none⟩, ⟨c2, none⟩, ⟨c3, none⟩,
        ⟨alInsert c4 mid (alInsert kvs kid vid), none⟩,
        ⟨c5x, none⟩, ⟨c6x, none⟩⟩
      p (some [MerkleTreeUpdate.removeValue mid kvs.length])
    = Storage.toProgramTree
        ⟨⟨c1, none⟩, ⟨c2, none⟩, ⟨c3, none⟩, ⟨c4, none⟩, ⟨c5, none⟩,
          ⟨c6, none⟩⟩ p none := by
  simp only [Storage.toProgramTree, AMap.getSpec]
  rw [mapM_congr_except ((alGet c1 p).getD [])
    (fun m9 _ => roundTrip_toMappingTree c1 c2 c3 c4 c5 c6 c5x c6x
      p mid kid vid m9 kvs hkvs hkin)]
  rcases hM : ((alGet c1 p).getD []).mapM (fun m9 =>
      Storage.toMappingTree ⟨⟨c1, none⟩, ⟨c2, none⟩, ⟨c3, none⟩, ⟨c4, none⟩,
        ⟨c5, none⟩, ⟨c6, none⟩⟩ p m9 none) with e | pairs
  · rfl
  · simp [Storage.applyMappingUpdate, bind, Except.bind]

/-- A store with mapping `(1, 2)` initialized and key `3` absent from
`KeyMap`, but whose `ValueMap` already holds a stale binding for key
`3`'s key ID. -/
def c7Store : FStore :=
  ⟨⟨⟨[(1, [2])], none⟩, ⟨[(1, 0)], none⟩, ⟨[((1, 2), 5)], none⟩,
    ⟨[(5, [])], none⟩, ⟨[], none⟩, ⟨[(keyIdOf 5 3, 7)], none⟩⟩,
   [0], false⟩

/-- **C7 (counterexample).** `insert_key_value` then `remove_key_value`
both succeed yet do not restore the six maps: the insert overwrote a
stale `ValueMap` binding and the remove deleted it. -/
theorem C7_round_trip_not_identity :
    (c7Store.insertKeyValue 1 2 3 9).1 = .ok () ∧
    ((c7Store.insertKeyValue 1 2 3 9).2.removeKeyValue 1 2 3).1 = .ok () ∧
    ((c7Store.insertKeyValue 1 2 3 9).2.removeKeyValue 1 2 3).2.storage
      ≠ c7Store.storage := by decide

/-- **C7 (amended).** On a quiescent, non-speculative store where the
mapping is initialized, the key ID is absent from `KeyMap`, the
mapping's entry list **and** `ValueMap`, the program is indexed, the
two program-tree rebuilds succeed, and the cached tree already agrees
with the recomputed program tree at the program's leaf position,
`insert_key_value` then `remove_key_value` succeed and restore the
entire store — all six maps, the cached tree, and hence the root. -/
theorem C7_insert_remove_round_trip (st : FStore) (p m k v mid idx : Nat)
    (kvs : List (Nat × Nat)) (ptree1 ptree0 : List Nat)
    (hq : st.storage.Quiescent) (hsp : st.isSpeculate = false)
    (hmid : alGet st.storage.mappingIDMap.committed (p, m) = some mid)
    (hkvs : alGet st.storage.keyValueIDMap.committed mid = some kvs)
    (hk5 : alGet st.storage.keyMap.committed (keyIdOf mid k) = none)
    (hkin : alGet kvs (keyIdOf mid k) = none)
    (hk6 : alGet st.storage.valueMap.committed (keyIdOf mid k) = none)
    (hpi : alGet st.storage.programIndexMap.committed p = some idx)
    (htree1 : st.storage.toProgramTree p
      (some [MerkleTreeUpdate.insertValue mid (keyIdOf mid k)
        (valueIdOf (keyIdOf mid k) v)]) = .ok ptree1)
    (htree0 : st.storage.toProgramTree p none = .ok ptree0)
    (hagree : treePrepareUpdate st.tree idx (merkleRoot ptree0) = st.tree) :
    (st.insertKeyValue p m k v).1 = .ok () ∧
    ((st.insertKeyValue p m k v).2.removeKeyValue p m k).1 = .ok () ∧
    ((st.insertKeyValue p m k v).2.removeKeyValue p m k).2 = st := by
  obtain ⟨⟨⟨c1, pd1⟩, ⟨c2, pd2⟩, ⟨c3, pd3⟩, ⟨c4, pd4⟩, ⟨c5, pd5⟩,
    ⟨c6, pd6⟩⟩, tr, sp⟩ := st
  obtain ⟨h1q, h2q, h3q, h4q, h5q, h6q⟩ := hq
  cases h1q; cases h2q; cases h3q; cases h4q; cases h5q; cases h6q
  have hsp9 : sp = false := hsp
  subst hsp9
  have hc5b : alContains c5 (keyIdOf mid k) = false := by
    rw [alContains, hk5]
    rfl
  have hinb : alContains kvs (keyIdOf mid k) = false := by
    rw [alContains, hkin]
    rfl
  have hresS1 : Storage.insertKeyValue
      ⟨⟨c1, none⟩, ⟨c2, none⟩, ⟨c3, none⟩, ⟨c4, none⟩, ⟨c5, none⟩,
        ⟨c6, none⟩⟩ p m k v
      = (.ok (), ⟨⟨c1, none⟩, ⟨c2, none⟩, ⟨c3, none⟩,
          ⟨alInsert c4 mid (alInsert kvs (keyIdOf mid k)
            (valueIdOf (keyIdOf mid k) v)), none⟩,
          ⟨alInsert c5 (keyIdOf mid k) k, none⟩,
          ⟨alInsert c6 (keyIdOf mid k) v, none⟩⟩) := by
    simp [Storage.insertKeyValue, Storage.getMappingId, AMap.getSpec, hmid,
      AMap.containsK, hc5b, hkvs, hinb, Storage.atomicWriteBatch,
      Storage.isAtomicInProgress, AMap.isAtomicInProgress,
      Storage.startAtomic, AMap.startAtomic, AMap.insert,
      Storage.finishAtomic, AMap.finishAtomic, AMap.applyOps, AMap.applyOp]
  have hres1 : FStore.insertKeyValue
      ⟨⟨⟨c1, none⟩, ⟨c2, none⟩, ⟨c3, none⟩, ⟨c4, none⟩, ⟨c5, none⟩,
        ⟨c6, none⟩⟩, tr, false⟩ p m k v
      = (.ok (), ⟨⟨⟨c1, none⟩, ⟨c2, none⟩, ⟨c3, none⟩,
          ⟨alInsert c4 mid (alInsert kvs (keyIdOf mid k)
            (valueIdOf (keyIdOf mid k) v)), none⟩,
          ⟨alInsert c5 (keyIdOf mid k) k, none⟩,
          ⟨alInsert c6 (keyIdOf mid k) v, none⟩⟩,
          treePrepareUpdate tr idx (merkleRoot ptree1), false⟩) := by
    simp only [FStore.insertKeyValue, Bool.false_eq_true, if_false,
      Storage.getMappingId, AMap.getSpec, hmid, htree1, AMap.get, hpi,
      hresS1]
  have hXapp : alInsert kvs (keyIdOf mid k) (valueIdOf (keyIdOf mid k) v)
      = kvs ++ [(keyIdOf mid k, valueIdOf (keyIdOf mid k) v)] :=
    alInsert_of_get_none _ hkin
  have hkv1 : alGet (alInsert c4 mid (alInsert kvs (keyIdOf mid k)
      (valueIdOf (keyIdOf mid k) v))) mid
      = some (alInsert kvs (keyIdOf mid k) (valueIdOf (keyIdOf mid k) v)) := by
    rw [alGet_alInsert]
    simp
  have hidxof : alIndexOf (alInsert kvs (keyIdOf mid k)
      (valueIdOf (keyIdOf mid k) v)) (keyIdOf mid k) = some kvs.length := by
    rw [hXapp]
    exact alIndexOf_append_cons _ ((alGet_eq_none_iff kvs _).mp hkin)
  have hgX : alGet (alInsert kvs (keyIdOf mid k)
      (valueIdOf (keyIdOf mid k) v)) (keyIdOf mid k)
      = some (valueIdOf (keyIdOf mid k) v) := by
    rw [alGet_alInsert]
    simp
  have hinX : alContains (alInsert kvs (keyIdOf mid k)
      (valueIdOf (keyIdOf mid k) v)) (keyIdOf mid k) = true := by
    rw [alContains, hgX]
    rfl
  have htree2 : Storage.toProgramTree
      ⟨⟨c1, none⟩, ⟨c2, none⟩, ⟨c3, none⟩,
        ⟨alInsert c4 mid (alInsert kvs (keyIdOf mid k)
          (valueIdOf (keyIdOf mid k) v)), none⟩,
        ⟨alInsert c5 (keyIdOf mid k) k, none⟩,
        ⟨alInsert c6 (keyIdOf mid k) v, none⟩⟩ p
      (some [MerkleTreeUpdate.removeValue mid kvs.length]) = .ok ptree0 :=
    (roundTrip_toProgramTree c1 c2 c3 c4 c5 c6
      (alInsert c5 (keyIdOf mid k) k) (alInsert c6 (keyIdOf mid k) v)
      p mid (keyIdOf mid k) (valueIdOf (keyIdOf mid k) v) kvs hkvs
      hkin).trans htree0
  have hresS2 : Storage.removeKeyValue
      ⟨⟨c1, none⟩, ⟨c2, none⟩, ⟨c3, none⟩,
        ⟨alInsert c4 mid (alInsert kvs (keyIdOf mid k)
          (valueIdOf (keyIdOf mid k) v)), none⟩,
        ⟨alInsert c5 (keyIdOf mid k) k, none⟩,
        ⟨alInsert c6 (keyIdOf mid k) v, none⟩⟩ p m k
      = (.ok (), ⟨⟨c1, none⟩, ⟨c2, none⟩, ⟨c3, none⟩,
          ⟨alInsert (alInsert c4 mid (alInsert kvs (keyIdOf mid k)
              (valueIdOf (keyIdOf mid k) v))) mid
            (alRemove (alInsert kvs (keyIdOf mid k)
              (valueIdOf (keyIdOf mid k) v)) (keyIdOf mid k)), none⟩,
          ⟨alRemove (alInsert c5 (keyIdOf mid k) k) (keyIdOf mid k), none⟩,
          ⟨alRemove (alInsert c6 (keyIdOf mid k) v) (keyIdOf mid k),
            none⟩⟩) := by
    simp [Storage.removeKeyValue, Storage.getMappingId, AMap.getSpec, hmid,
      hkv1, hinX, Storage.atomicWriteBatch, Storage.isAtomicInProgress,
      AMap.isAtomicInProgress, Storage.startAtomic, AMap.startAtomic,
      AMap.insert, AMap.remove, Storage.finishAtomic, AMap.finishAtomic,
      AMap.applyOps, AMap.applyOp]
  have hres2 : FStore.removeKeyValue
      ⟨⟨⟨c1, none⟩, ⟨c2, none⟩, ⟨c3, none⟩,
        ⟨alInsert c4 mid (alInsert kvs (keyIdOf mid k)
          (valueIdOf (keyIdOf mid k) v)), none⟩,
        ⟨alInsert c5 (keyIdOf mid k) k, none⟩,
        ⟨alInsert c6 (keyIdOf mid k) v, none⟩⟩,
        treePrepareUpdate tr idx (merkleRoot ptree1), false⟩ p m k
      = (.ok (), ⟨⟨⟨c1, none⟩, ⟨c2, none⟩, ⟨c3, none⟩,
          ⟨alInsert (alInsert c4 mid (alInsert kvs (keyIdOf mid k)
              (valueIdOf (keyIdOf mid k) v))) mid
            (alRemove (alInsert kvs (keyIdOf mid k)
              (valueIdOf (keyIdOf mid k) v)) (keyIdOf mid k)), none⟩,
          ⟨alRemove (alInsert c5 (keyIdOf mid k) k) (keyIdOf mid k), none⟩,
          ⟨alRemove (alInsert c6 (keyIdOf mid k) v) (keyIdOf mid k),
            none⟩⟩,
          treePrepareUpdate (treePrepareUpdate tr idx (merkleRoot ptree1))
            idx (merkleRoot ptree0), false⟩) := by
    simp only [FStore.removeKeyValue, Bool.false_eq_true, if_false,
      Storage.getMappingId, AMap.getSpec, hmid, AMap.get, hkv1, hidxof,
      htree2, hpi, hresS2]
  have hc4f : alInsert (alInsert c4 mid (alInsert kvs (keyIdOf mid k)
      (valueIdOf (keyIdOf mid k) v))) mid
      (alRemove (alInsert kvs (keyIdOf mid k)
        (valueIdOf (keyIdOf mid k) v)) (keyIdOf mid k)) = c4 := by
    rw [hXapp, alRemove_append, alRemove_of_get_none hkin]
    rw [show alRemove [(keyIdOf mid k, valueIdOf (keyIdOf mid k) v)]
      (keyIdOf mid k) = [] by simp [alRemove]]
    rw [List.append_nil, alInsert_alInsert, alInsert_self hkvs]
  have hc5f : alRemove (alInsert c5 (keyIdOf mid k) k) (keyIdOf mid k)
      = c5 := by
    rw [alInsert_of_get_none k hk5, alRemove_append,
      alRemove_of_get_none hk5]
    rw [show alRemove [(keyIdOf mid k, k)] (keyIdOf mid k) = []
      by simp [alRemove]]
    rw [List.append_nil]
  have hc6f : alRemove (alInsert c6 (keyIdOf mid k) v) (keyIdOf mid k)
      = c6 := by
    rw [alInsert_of_get_none v hk6, alRemove_append,
      alRemove_of_get_none hk6]
    rw [show alRemove [(keyIdOf mid k, v)] (keyIdOf mid k) = []
      by simp [alRemove]]
    rw [List.append_nil]
  have htrf : treePrepareUpdate (treePrepareUpdate tr idx
      (merkleRoot ptree1)) idx (merkleRoot ptree0) = tr := by
    rw [show treePrepareUpdate (treePrepareUpdate tr idx (merkleRoot ptree1))
        idx (merkleRoot ptree0)
      = treePrepareUpdate tr idx (merkleRoot ptree0) by
        simp [treePrepareUpdate, List.set_set]]
    exact hagree
  have hfinal : ((FStore.insertKeyValue
      ⟨⟨⟨c1, none⟩, ⟨c2, none⟩, ⟨c3, none⟩, ⟨c4, none⟩, ⟨c5, none⟩,
        ⟨c6, none⟩⟩, tr, false⟩ p m k v).2.removeKeyValue p m k)
      = (.ok (), ⟨⟨⟨c1, none⟩, ⟨c2, none⟩, ⟨c3, none⟩, ⟨c4, none⟩,
          ⟨c5, none⟩, ⟨c6, none⟩⟩, tr, false⟩) := by
    rw [hres1]
    rw [show ((Except.ok (), (⟨⟨⟨c1, none⟩, ⟨c2, none⟩, ⟨c3, none⟩,
        ⟨alInsert c4 mid (alInsert kvs (keyIdOf mid k)
          (valueIdOf (keyIdOf mid k) v)), none⟩,
        ⟨alInsert c5 (keyIdOf mid k) k, none⟩,
        ⟨alInsert c6 (keyIdOf mid k) v, none⟩⟩,
        treePrepareUpdate tr idx (merkleRoot ptree1), false⟩ : FStore))
          : Except Err Unit × FStore).2
      = (⟨⟨⟨c1, none⟩, ⟨c2, none⟩, ⟨c3, none⟩,
          ⟨alInsert c4 mid (alInsert kvs (keyIdOf mid k)
            (valueIdOf (keyIdOf mid k) v)), none⟩,
          ⟨alInsert c5 (keyIdOf mid k) k, none⟩,
          ⟨alInsert c6 (keyIdOf mid k) v, none⟩⟩,
          treePrepareUpdate tr idx (merkleRoot ptree1), false⟩ : FStore)
      from rfl]
    rw [hres2, hc4f, hc5f, hc6f, htrf]
  refine ⟨?_, ?_, ?_⟩
  · rw [hres1]
  · exact congrArg Prod.fst hfinal
  · exact congrArg Prod.snd hfinal

/-- A well-formed one-mapping store on which the round trip applies. -/
def c7WitnessStore : FStore :=
  ⟨⟨⟨[(1, [2])], none⟩, ⟨[(1, 0)], none⟩, ⟨[((1, 2), 5)], none⟩,
    ⟨[(5, [])], none⟩, ⟨[], none⟩, ⟨[], none⟩⟩,
   [merkleRoot [merkleRoot []]], false⟩

/-- **C7 (amended) witness.** -/
theorem C7_insert_remove_round_trip_witness :
    ((c7WitnessStore.insertKeyValue 1 2 3 9).2.removeKeyValue 1 2 3).2
      = c7WitnessStore :=
  (C7_insert_remove_round_trip c7WitnessStore 1 2 3 9 5 0 []
    [merkleRoot [valueIdOf (keyIdOf 5 3) 9]] [merkleRoot []]
    (by decide) rfl (by decide) (by decide) (by decide) (by decide)
    (by decide) (by decide) (by decide) (by decide) (by decide)).2.2

/-! ## Claim C1: machinery -/

/-- Extract the value of a successful `Except`, with a default. -/
def okD {α : Type} (e : Except Err α) (d : α) : α :=
  match e with
  | .ok a => a
  | .error _ => d

theorem mapM_ok {α β : Type} (g : α → Except Err β) (h : α → β) :
    ∀ l : List α, (∀ a ∈ l, g a = .ok (h a)) → l.mapM g = .ok (l.map h) := by
  intro l hl
  induction l with
  | nil => rfl
  | cons a t ih =>
    rw [List.mapM_cons, hl a (List.mem_cons_self a t),
      ih (fun b hb => hl b (List.mem_cons_of_mem _ hb))]
    rfl

theorem mapM_ok_inv {α β : Type} {g : α → Except Err β} :
    ∀ {l : List α} {r : List β}, l.mapM g = .ok r →
      ∀ a ∈ l, ∃ b, g a = .ok b := by
  intro l
  induction l with
  | nil => intro r _ a ha; simp at ha
  | cons x t ih =>
    intro r h a ha
    rw [List.mapM_cons] at h
    rcases hg : g x with e | b
    · rw [hg] at h
      exact absurd h (by simp [bind, Except.bind])
    · rw [hg] at h
      rcases List.mem_cons.mp ha with h9 | h9
      · exact ⟨b, h9 ▸ hg⟩
      · rcases ht : t.mapM g with e2 | r2
        · rw [ht] at h
          exact absurd h (by simp [bind, Except.bind])
        · exact ih ht a h9

theorem alGet_append_none {K V : Type} [DecidableEq K]
    {a : List (K × V)} (b : List (K × V)) {k : K} (h : alGet a k = none) :
    alGet (a ++ b) k = alGet b k := by
  induction a with
  | nil => rfl
  | cons e t ih =>
    obtain ⟨ek, ev⟩ := e
    by_cases h1 : ek = k
    · subst h1
      simp [alGet] at h
    · simp only [alGet, h1, if_false] at h
      simp only [List.cons_append, alGet, h1, if_false]
      exact ih h

theorem fold_alInsert_append {K V : Type} [DecidableEq K] :
    ∀ (l acc : List (K × V)), (l.map Prod.fst).Nodup →
      (∀ e ∈ l, alGet acc e.1 = none) →
      l.foldl (fun acc e => alInsert acc e.1 e.2) acc = acc ++ l := by
  intro l
  induction l with
  | nil => intro acc _ _; simp
  | cons e t ih =>
    intro acc hnd hfree
    rw [List.foldl_cons]
    have he : alInsert acc e.1 e.2 = acc ++ [e] := by
      rw [alInsert_of_get_none e.2 (hfree e (List.mem_cons_self e t))]
    rw [he]
    rw [List.map_cons, List.nodup_cons] at hnd
    have hstep := ih (acc ++ [e]) hnd.2 (fun f hf => by
      rw [alGet_append_none [e] (hfree f (List.mem_cons_of_mem _ hf))]
      have hne : f.1 ≠ e.1 := fun hc =>
        hnd.1 (hc ▸ List.mem_map.mpr ⟨f, hf, rfl⟩)
      have hne2 : e.1 ≠ f.1 := fun hc => hne hc.symm
      simp [alGet, hne2])
    rw [hstep, List.append_assoc]
    rfl

theorem alRemove_eq_filter {K V : Type} [DecidableEq K]
    (l : List (K × V)) (k : K) :
    alRemove l k = l.filter (fun e => e.1 ≠ k) := by
  induction l with
  | nil => rfl
  | cons e t ih =>
    by_cases h1 : e.1 = k
    · rw [show alRemove (e :: t) k = alRemove t k by
        rw [show (e :: t) = ((e.1, e.2) :: t) by rfl]
        simp [alRemove, h1]]
      rw [ih, List.filter_cons]
      simp [h1]
    · rw [show alRemove (e :: t) k = e :: alRemove t k by
        rw [show (e :: t) = ((e.1, e.2) :: t) by rfl]
        simp [alRemove, h1]]
      rw [ih, List.filter_cons]
      simp [h1]

theorem mem_alRemove_ne {K V : Type} [DecidableEq K]
    {l : List (K × V)} {k : K} {e : K × V} (h : e ∈ alRemove l k) :
    e.1 ≠ k := by
  rw [alRemove_eq_filter] at h
  have := List.of_mem_filter h
  simpa using this

theorem eraseIdx_append_cons {α : Type} (a : List α) (b : α) (c : List α) :
    (a ++ b :: c).eraseIdx a.length = a ++ c := by
  induction a with
  | nil => rfl
  | cons x t ih => simp [List.eraseIdx, ih]

theorem set_append_cons {α : Type} (a : List α) (b : α) (c : List α)
    (w : α) : (a ++ b :: c).set a.length w = a ++ w :: c := by
  induction a with
  | nil => rfl
  | cons x t ih => simp [List.set, ih]

theorem alIndexOf_lt_length {K V : Type} [DecidableEq K]
    {l : List (K × V)} {k : K} {i : Nat} (h : alIndexOf l k = some i) :
    i < l.length := by
  induction l generalizing i with
  | nil => simp [alIndexOf, List.findIdx?] at h
  | cons e t ih =>
    by_cases h1 : e.1 = k
    · have : alIndexOf (e :: t) k = some 0 := by
        simp [alIndexOf, List.findIdx?_cons, h1]
      rw [this] at h
      have : i = 0 := (Option.some.inj h).symm
      simp [this]
    · have hstep : alIndexOf (e :: t) k
          = (alIndexOf t k).map (fun n => n + 1) := by
        simp [alIndexOf, List.findIdx?_cons, h1, List.findIdx?_succ]
      rw [hstep] at h
      rcases ht : alIndexOf t k with _ | j
      · rw [ht] at h
        simp at h
      · rw [ht] at h
        have : i = j + 1 := (Option.some.inj h).symm
        subst this
        exact Nat.succ_lt_succ (ih ht)

theorem alGet_none_of_alIndexOf_none {K V : Type} [DecidableEq K]
    {l : List (K × V)} {k : K} (h : alIndexOf l k = none) :
    alGet l k = none := by
  rcases hg : alGet l k with _ | v
  · rfl
  · obtain ⟨l1, l2, hsplit, hl1⟩ := alGet_eq_some_split hg
    rw [hsplit, alIndexOf_append_cons v hl1] at h
    simp at h

theorem mem_eq_of_nodup_vals {K V : Type} [DecidableEq V]
    {l : List (K × V)} (hnd : (l.map Prod.snd).Nodup)
    {e f : K × V} (he : e ∈ l) (hf : f ∈ l) (hkk : e.2 = f.2) : e = f := by
  induction l with
  | nil => simp at he
  | cons x t ih =>
    rw [List.map_cons, List.nodup_cons] at hnd
    rcases List.mem_cons.mp he with h1 | h1 <;>
      rcases List.mem_cons.mp hf with h2 | h2
    · rw [h1, h2]
    · exact absurd (List.mem_map.mpr ⟨f, h2, (hkk ▸ h1 ▸ rfl : f.2 = x.2)⟩)
        (by rw [h1] at hkk; exact fun hc => hnd.1 (hkk ▸ hc))
    · exact absurd (List.mem_map.mpr ⟨e, h1, (hkk ▸ h2 ▸ rfl : e.2 = x.2)⟩)
        (by rw [h2] at hkk; exact fun hc => hnd.1 (hkk ▸ hc))
    · exact ih hnd.2 h1 h2

instance : IsTotal (Nat × List Nat)
    (fun a b : Nat × List Nat => a.1 ≤ b.1) :=
  ⟨fun a b => Nat.le_total a.1 b.1⟩

instance : IsTrans (Nat × List Nat)
    (fun a b : Nat × List Nat => a.1 ≤ b.1) :=
  ⟨fun _ _ _ h1 h2 => Nat.le_trans h1 h2⟩

/-- Evaluating `to_mapping_tree` with no updates on a quiescent state. -/
theorem toMappingTree_none_eval
    {c1 : List (Nat × List Nat)} {c2 : List (Nat × Nat)}
    {c3 : List ((Nat × Nat) × Nat)} {c4 : List (Nat × List (Nat × Nat))}
    {c5 c6 : List (Nat × Nat)} {p m9 mid9 : Nat} {kv9 : List (Nat × Nat)}
    (hm : alGet c3 (p, m9) = some mid9) (hkv : alGet c4 mid9 = some kv9) :
    Storage.toMappingTree
      ⟨⟨c1, none⟩, ⟨c2, none⟩, ⟨c3, none⟩, ⟨c4, none⟩, ⟨c5, none⟩,
        ⟨c6, none⟩⟩ p m9 none
    = .ok (mid9, kv9.map Prod.snd) := by
  simp [Storage.toMappingTree, Storage.getMappingId, AMap.getSpec, hm, hkv,
    bind, Except.bind, pure, Except.pure]

/-- A successful `to_mapping_tree` presupposes the mapping-ID and
key-value bindings. -/
theorem toMappingTree_ok_inv
    {c1 : List (Nat × List Nat)} {c2 : List (Nat × Nat)}
    {c3 : List ((Nat × Nat) × Nat)} {c4 : List (Nat × List (Nat × Nat))}
    {c5 c6 : List (Nat × Nat)} {p m9 : Nat}
    {u : Option (List MerkleTreeUpdate)} {pr : Nat × List Nat}
    (h : Storage.toMappingTree
      ⟨⟨c1, none⟩, ⟨c2, none⟩, ⟨c3, none⟩, ⟨c4, none⟩, ⟨c5, none⟩,
        ⟨c6, none⟩⟩ p m9 u = .ok pr) :
    ∃ mid9 kv9, alGet c3 (p, m9) = some mid9 ∧ alGet c4 mid9 = some kv9 := by
  rcases hm : alGet c3 (p, m9) with _ | mid9
  · rw [Storage.toMappingTree] at h
    simp only [Storage.getMappingId, AMap.getSpec, hm] at h
    simp [throw, throwThe, MonadExceptOf.throw, bind, Except.bind] at h
  · rcases hkv : alGet c4 mid9 with _ | kv9
    · rw [Storage.toMappingTree] at h
      simp only [Storage.getMappingId, AMap.getSpec, hm, hkv] at h
      simp [hkv, throw, throwThe, MonadExceptOf.throw, bind, Except.bind,
        pure, Except.pure] at h
    · exact ⟨mid9, kv9, rfl, hkv⟩

/-- Evaluating `to_program_tree` once every mapping tree is known. -/
theorem toProgramTree_eval
    {c1 : List (Nat × List Nat)} {c2 : List (Nat × Nat)}
    {c3 : List ((Nat × Nat) × Nat)} {c4 : List (Nat × List (Nat × Nat))}
    {c5 c6 : List (Nat × Nat)} {p : Nat}
    {u : Option (List MerkleTreeUpdate)} (tM : Nat → Nat × List Nat)
    (hall : ∀ m9 ∈ (alGet c1 p).getD [],
      Storage.toMappingTree
        ⟨⟨c1, none⟩, ⟨c2, none⟩, ⟨c3, none⟩, ⟨c4, none⟩, ⟨c5, none⟩,
          ⟨c6, none⟩⟩ p m9 u = .ok (tM m9)) :
    Storage.toProgramTree
      ⟨⟨c1, none⟩, ⟨c2, none⟩, ⟨c3, none⟩, ⟨c4, none⟩, ⟨c5, none⟩,
        ⟨c6, none⟩⟩ p u
    = .ok (((match u with
        | some updates => updates.foldl Storage.applyMappingUpdate
            ((((alGet c1 p).getD []).map tM).foldl
              (fun acc kv => alInsert acc kv.1 kv.2) [])
        | none => (((alGet c1 p).getD []).map tM).foldl
            (fun acc kv => alInsert acc kv.1 kv.2) [])
          : List (Nat × List Nat)).map
        (fun kv => merkleRoot kv.2)) := by
  simp only [Storage.toProgramTree, AMap.getSpec]
  rw [mapM_ok _ tM _ hall]
  rcases u with _ | updates
  · simp [bind, Except.bind, pure, Except.pure]
  · simp [bind, Except.bind, pure, Except.pure]

/-- A successful `to_program_tree` presupposes every mapping tree. -/
theorem toProgramTree_ok_inv
    {c1 : List (Nat × List Nat)} {c2 : List (Nat × Nat)}
    {c3 : List ((Nat × Nat) × Nat)} {c4 : List (Nat × List (Nat × Nat))}
    {c5 c6 : List (Nat × Nat)} {p : Nat}
    {u : Option (List MerkleTreeUpdate)} {pt : List Nat}
    (h : Storage.toProgramTree
      ⟨⟨c1, none⟩, ⟨c2, none⟩, ⟨c3, none⟩, ⟨c4, none⟩, ⟨c5, none⟩,
        ⟨c6, none⟩⟩ p u = .ok pt) :
    ∀ m9 ∈ (alGet c1 p).getD [],
      ∃ pr, Storage.toMappingTree
        ⟨⟨c1, none⟩, ⟨c2, none⟩, ⟨c3, none⟩, ⟨c4, none⟩, ⟨c5, none⟩,
          ⟨c6, none⟩⟩ p m9 u = .ok pr := by
  intro m9 hm9
  rw [Storage.toProgramTree] at h
  simp only [AMap.getSpec] at h
  rcases hM : ((alGet c1 p).getD []).mapM (fun m' =>
      Storage.toMappingTree ⟨⟨c1, none⟩, ⟨c2, none⟩, ⟨c3, none⟩, ⟨c4, none⟩,
        ⟨c5, none⟩, ⟨c6, none⟩⟩ p m' u) with e | pairs
  · rw [hM] at h
    simp [bind, Except.bind] at h
  · exact mapM_ok_inv hM m9 hm9

/-- Congruence for `to_mapping_tree` (no updates): only the bindings of
`(q, m9)` in `MappingIDMap` and of its mapping ID in `KeyValueIDMap`
matter. -/
theorem toMappingTree_congr
    {c1 c1b : List (Nat × List Nat)} {c2 c2b : List (Nat × Nat)}
    {c3 c3b : List ((Nat × Nat) × Nat)}
    {c4 c4b : List (Nat × List (Nat × Nat))}
    {c5 c6 c5b c6b : List (Nat × Nat)} {q m9 : Nat}
    (h3 : alGet c3 (q, m9) = alGet c3b (q, m9))
    (h4 : ∀ mid9, alGet c3b (q, m9) = some mid9 →
      alGet c4 mid9 = alGet c4b mid9) :
    Storage.toMappingTree
      ⟨⟨c1, none⟩, ⟨c2, none⟩, ⟨c3, none⟩, ⟨c4, none⟩, ⟨c5, none⟩,
        ⟨c6, none⟩⟩ q m9 none
    = Storage.toMappingTree
        ⟨⟨c1b, none⟩, ⟨c2b, none⟩, ⟨c3b, none⟩, ⟨c4b, none⟩, ⟨c5b, none⟩,
          ⟨c6b, none⟩⟩ q m9 none := by
  rcases hm : alGet c3b (q, m9) with _ | mid9
  · have hma : alGet c3 (q, m9) = none := h3.trans hm
    simp [Storage.toMappingTree, Storage.getMappingId, AMap.getSpec, hma, hm,
      throw, throwThe, MonadExceptOf.throw, bind, Except.bind]
  · have h3a : alGet c3 (q, m9) = some mid9 := h3.trans hm
    rw [show Storage.toMappingTree
        ⟨⟨c1, none⟩, ⟨c2, none⟩, ⟨c3, none⟩, ⟨c4, none⟩, ⟨c5, none⟩,
          ⟨c6, none⟩⟩ q m9 none
      = (match alGet c4 mid9 with
        | some kv => Except.ok (mid9, kv.map Prod.snd)
        | none => Except.error Err.treeKvMissing) by
      simp [Storage.toMappingTree, Storage.getMappingId, AMap.getSpec, h3a,
        bind, Except.bind, pure, Except.pure, throw, throwThe,
        MonadExceptOf.throw]]
    rw [show Storage.toMappingTree
        ⟨⟨c1b, none⟩, ⟨c2b, none⟩, ⟨c3b, none⟩, ⟨c4b, none⟩, ⟨c5b, none⟩,
          ⟨c6b, none⟩⟩ q m9 none
      = (match alGet c4b mid9 with
        | some kv => Except.ok (mid9, kv.map Prod.snd)
        | none => Except.error Err.treeKvMissing) by
      simp [Storage.toMappingTree, Storage.getMappingId, AMap.getSpec, hm,
        bind, Except.bind, pure, Except.pure, throw, throwThe,
        MonadExceptOf.throw]]
    rw [h4 mid9 hm]

/-- Congruence for `to_program_tree` (no updates): only program `q`'s
own bindings matter. -/
theorem toProgramTree_congr
    {c1 c1b : List (Nat × List Nat)} {c2 c2b : List (Nat × Nat)}
    {c3 c3b : List ((Nat × Nat) × Nat)}
    {c4 c4b : List (Nat × List (Nat × Nat))}
    {c5 c6 c5b c6b : List (Nat × Nat)} {q : Nat}
    (h1 : alGet c1 q = alGet c1b q)
    (h3 : ∀ m9, alGet c3 (q, m9) = alGet c3b (q, m9))
    (h4 : ∀ m9 mid9, alGet c3b (q, m9) = some mid9 →
      alGet c4 mid9 = alGet c4b mid9) :
    Storage.toProgramTree
      ⟨⟨c1, none⟩, ⟨c2, none⟩, ⟨c3, none⟩, ⟨c4, none⟩, ⟨c5, none⟩,
        ⟨c6, none⟩⟩ q none
    = Storage.toProgramTree
        ⟨⟨c1b, none⟩, ⟨c2b, none⟩, ⟨c3b, none⟩, ⟨c4b, none⟩, ⟨c5b, none⟩,
          ⟨c6b, none⟩⟩ q none := by
  simp only [Storage.toProgramTree, AMap.getSpec, h1]
  rw [mapM_congr_except ((alGet c1b q).getD [])
    (fun m9 _ => @toMappingTree_congr c1 c1b c2 c2b c3 c3b c4 c4b
      c5 c6 c5b c6b q m9 (h3 m9) (h4 m9))]

/-- The finalize-tree leaves once every program tree is known: the
program-tree roots in deployment-index order. -/
theorem toFinalizeLeaves_eval
    {c1 : List (Nat × List Nat)} {c2 : List (Nat × Nat)}
    {c3 : List ((Nat × Nat) × Nat)} {c4 : List (Nat × List (Nat × Nat))}
    {c5 c6 : List (Nat × Nat)} (ptF : Nat → List Nat)
    (hall : ∀ qi ∈ c2, Storage.toProgramTree
      ⟨⟨c1, none⟩, ⟨c2, none⟩, ⟨c3, none⟩, ⟨c4, none⟩, ⟨c5, none⟩,
        ⟨c6, none⟩⟩ qi.1 none = .ok (ptF qi.1)) :
    Storage.toFinalizeLeaves
      ⟨⟨c1, none⟩, ⟨c2, none⟩, ⟨c3, none⟩, ⟨c4, none⟩, ⟨c5, none⟩,
        ⟨c6, none⟩⟩
    = .ok ((Storage.sortByKey ((c2.map (fun qi => (qi.2, ptF qi.1))).foldl
        (fun acc kv => alInsert acc kv.1 kv.2) [])).map
          (fun kv => merkleRoot kv.2)) := by
  simp only [Storage.toFinalizeLeaves, AMap.iter]
  rw [mapM_ok _ (fun qi : Nat × Nat => (qi.2, ptF qi.1)) c2
    (fun qi hqi => by
      simp [hall qi hqi, bind, Except.bind, pure, Except.pure])]
  simp [bind, Except.bind, pure, Except.pure]

/-- A successful `to_finalize_tree` presupposes every program tree. -/
theorem toFinalizeLeaves_ok_inv
    {c1 : List (Nat × List Nat)} {c2 : List (Nat × Nat)}
    {c3 : List ((Nat × Nat) × Nat)} {c4 : List (Nat × List (Nat × Nat))}
    {c5 c6 : List (Nat × Nat)} {L : List Nat}
    (h : Storage.toFinalizeLeaves
      ⟨⟨c1, none⟩, ⟨c2, none⟩, ⟨c3, none⟩, ⟨c4, none⟩, ⟨c5, none⟩,
        ⟨c6, none⟩⟩ = .ok L) :
    ∀ qi ∈ c2, ∃ pt, Storage.toProgramTree
      ⟨⟨c1, none⟩, ⟨c2, none⟩, ⟨c3, none⟩, ⟨c4, none⟩, ⟨c5, none⟩,
        ⟨c6, none⟩⟩ qi.1 none = .ok pt := by
  intro qi hqi
  rw [Storage.toFinalizeLeaves] at h
  simp only [AMap.iter] at h
  rcases hM : c2.mapM (fun qi : Nat × Nat => do
      pure (qi.2, ← Storage.toProgramTree
        ⟨⟨c1, none⟩, ⟨c2, none⟩, ⟨c3, none⟩, ⟨c4, none⟩, ⟨c5, none⟩,
          ⟨c6, none⟩⟩ qi.1 none)) with e | pairs
  · rw [hM] at h
    simp [bind, Except.bind] at h
  · obtain ⟨b, hb⟩ := mapM_ok_inv hM qi hqi
    rcases hpt : Storage.toProgramTree
        ⟨⟨c1, none⟩, ⟨c2, none⟩, ⟨c3, none⟩, ⟨c4, none⟩, ⟨c5, none⟩,
          ⟨c6, none⟩⟩ qi.1 none with e2 | pt
    · rw [hpt] at hb
      simp [bind, Except.bind] at hb
    · exact ⟨pt, rfl⟩

/-- On a dense index map, the sorted program-tree roots are indexed
exactly by the deployment indices. -/
theorem sortByKey_dense {c2 : List (Nat × Nat)} (ptF : Nat → List Nat)
    (hdens : (c2.map Prod.snd).Perm (List.range c2.length)) :
    ((Storage.sortByKey ((c2.map (fun qi => (qi.2, ptF qi.1))).foldl
        (fun acc kv => alInsert acc kv.1 kv.2) [])).map
      (fun kv => merkleRoot kv.2)).length = c2.length ∧
    ∀ qi ∈ c2,
      ((Storage.sortByKey ((c2.map (fun qi => (qi.2, ptF qi.1))).foldl
          (fun acc kv => alInsert acc kv.1 kv.2) [])).map
        (fun kv => merkleRoot kv.2)).get? qi.2
      = some (merkleRoot (ptF qi.1)) := by
  have hvnd : (c2.map Prod.snd).Nodup :=
    hdens.symm.nodup (List.nodup_range c2.length)
  have hkeys0 : (c2.map (fun qi : Nat × Nat => (qi.2, ptF qi.1))).map
      Prod.fst = c2.map Prod.snd := by
    rw [List.map_map]
    rfl
  have hfold : (c2.map (fun qi : Nat × Nat => (qi.2, ptF qi.1))).foldl
      (fun acc kv => alInsert acc kv.1 kv.2) []
      = c2.map (fun qi : Nat × Nat => (qi.2, ptF qi.1)) := by
    have := fold_alInsert_append
      (c2.map (fun qi : Nat × Nat => (qi.2, ptF qi.1))) []
      (by rw [hkeys0]; exact hvnd) (fun e _ => rfl)
    simpa using this
  rw [hfold]
  set pairs := c2.map (fun qi : Nat × Nat => (qi.2, ptF qi.1)) with hpairs
  have hperm : (Storage.sortByKey pairs).Perm pairs :=
    List.perm_insertionSort _ pairs
  have hsorted : List.Sorted (fun a b : Nat × List Nat => a.1 ≤ b.1)
      (Storage.sortByKey pairs) :=
    List.sorted_insertionSort _ pairs
  have hkeysperm : ((Storage.sortByKey pairs).map Prod.fst).Perm
      (List.range c2.length) := by
    refine (hperm.map Prod.fst).trans ?_
    rw [hpairs, hkeys0]
    exact hdens
  have hkeysorted : ((Storage.sortByKey pairs).map Prod.fst).Sorted
      (fun a b : Nat => a ≤ b) := by
    rw [List.Sorted, List.pairwise_map]
    exact hsorted
  have hrangesorted : (List.range c2.length).Sorted
      (fun a b : Nat => a ≤ b) :=
    List.Pairwise.imp Nat.le_of_lt (List.pairwise_lt_range c2.length)
  have hkeys : (Storage.sortByKey pairs).map Prod.fst
      = List.range c2.length :=
    List.eq_of_perm_of_sorted hkeysperm hkeysorted hrangesorted
  have hAlen : (Storage.sortByKey pairs).length = c2.length := by
    have := congrArg List.length hkeys
    simpa using this
  refine ⟨by simpa using hAlen, ?_⟩
  intro qi hqi
  have hj : qi.2 < c2.length := by
    have hmem : qi.2 ∈ c2.map Prod.snd := List.mem_map.mpr ⟨qi, hqi, rfl⟩
    exact List.mem_range.mp (hdens.mem_iff.mp hmem)
  have hjA : qi.2 < (Storage.sortByKey pairs).length := by
    rw [hAlen]; exact hj
  have hAj : (Storage.sortByKey pairs).get? qi.2
      = some ((Storage.sortByKey pairs).get ⟨qi.2, hjA⟩) :=
    List.get?_eq_get hjA
  have hkeyj : ((Storage.sortByKey pairs).get ⟨qi.2, hjA⟩).1 = qi.2 := by
    have h9 := congrArg (fun l => l.get? qi.2) hkeys
    simp only [List.get?_eq_getElem?] at h9
    rw [List.getElem?_map, List.getElem?_range hj] at h9
    rw [List.getElem?_eq_getElem hjA] at h9
    simpa using h9
  have hmemA : (Storage.sortByKey pairs).get ⟨qi.2, hjA⟩
      ∈ Storage.sortByKey pairs := List.get_mem _ _ _
  have hmemP : (Storage.sortByKey pairs).get ⟨qi.2, hjA⟩ ∈ pairs :=
    hperm.mem_iff.mp hmemA
  have hmemP2 : (Storage.sortByKey pairs).get ⟨qi.2, hjA⟩
      ∈ c2.map (fun qi : Nat × Nat => (qi.2, ptF qi.1)) := by
    rw [← hpairs]
    exact hmemP
  obtain ⟨qi9, hqi9, hqe⟩ := List.mem_map.mp hmemP2
  have hqe2 : (qi9.2, ptF qi9.1)
      = (Storage.sortByKey pairs).get ⟨qi.2, hjA⟩ := hqe
  have hsame : qi9 = qi := by
    refine mem_eq_of_nodup_vals hvnd hqi9 hqi ?_
    have h9 : qi9.2 = ((Storage.sortByKey pairs).get ⟨qi.2, hjA⟩).1 := by
      rw [← hqe2]
    rw [h9, hkeyj]
  have hval : (Storage.sortByKey pairs).get ⟨qi.2, hjA⟩
      = (qi.2, ptF qi.1) := by
    rw [← hqe2, hsame]
  rw [List.get?_eq_getElem?, List.getElem?_map]
  rw [show (Storage.sortByKey pairs)[qi.2]?
    = some ((Storage.sortByKey pairs).get ⟨qi.2, hjA⟩) by
      rw [← List.get?_eq_getElem?]; exact hAj]
  rw [hval]
  rfl

/-- Lifting a pointwise mapping-tree correspondence to the program
tree, for updates that leave the mapping-tree collection itself
untouched (`InsertValue`, `UpdateValue`, `RemoveValue`). -/
theorem toProgramTree_value_update
    {c1 c1b : List (Nat × List Nat)} {c2 c2b : List (Nat × Nat)}
    {c3 c3b : List ((Nat × Nat) × Nat)}
    {c4 c4b : List (Nat × List (Nat × Nat))}
    {c5 c6 c5b c6b : List (Nat × Nat)} {p : Nat} {u : MerkleTreeUpdate}
    (hc1 : alGet c1 p = alGet c1b p)
    (hpoint : ∀ m9 ∈ (alGet c1b p).getD [],
      Storage.toMappingTree
        ⟨⟨c1, none⟩, ⟨c2, none⟩, ⟨c3, none⟩, ⟨c4, none⟩, ⟨c5, none⟩,
          ⟨c6, none⟩⟩ p m9 none
      = Storage.toMappingTree
          ⟨⟨c1b, none⟩, ⟨c2b, none⟩, ⟨c3b, none⟩, ⟨c4b, none⟩,
            ⟨c5b, none⟩, ⟨c6b, none⟩⟩ p m9 (some [u]))
    (hskip : ∀ acc, Storage.applyMappingUpdate acc u = acc) :
    Storage.toProgramTree
      ⟨⟨c1, none⟩, ⟨c2, none⟩, ⟨c3, none⟩, ⟨c4, none⟩, ⟨c5, none⟩,
        ⟨c6, none⟩⟩ p none
    = Storage.toProgramTree
        ⟨⟨c1b, none⟩, ⟨c2b, none⟩, ⟨c3b, none⟩, ⟨c4b, none⟩, ⟨c5b, none⟩,
          ⟨c6b, none⟩⟩ p (some [u]) := by
  simp only [Storage.toProgramTree, AMap.getSpec, hc1]
  rw [mapM_congr_except _ hpoint]
  rcases hM : ((alGet c1b p).getD []).mapM (fun m9 =>
      Storage.toMappingTree ⟨⟨c1b, none⟩, ⟨c2b, none⟩, ⟨c3b, none⟩,
        ⟨c4b, none⟩, ⟨c5b, none⟩, ⟨c6b, none⟩⟩ p m9 (some [u]))
      with e | pairs
  · rfl
  · simp [hskip, bind, Except.bind]

/-- Pointwise effect of `insert_key_value` on a mapping tree: the new
state with no updates matches the old state with the `InsertValue`
update. -/
theorem insertValue_point
    {c1 c1b : List (Nat × List Nat)} {c2 c2b : List (Nat × Nat)}
    {c3 : List ((Nat × Nat) × Nat)} {c4 : List (Nat × List (Nat × Nat))}
    {c5 c6 c5b c6b : List (Nat × Nat)}
    {p mid kid vid m9 : Nat} {kvs : List (Nat × Nat)}
    (hkvs : alGet c4 mid = some kvs) (hkin : alGet kvs kid = none) :
    Storage.toMappingTree
      ⟨⟨c1, none⟩, ⟨c2, none⟩, ⟨c3, none⟩,
        ⟨alInsert c4 mid (alInsert kvs kid vid), none⟩, ⟨c5, none⟩,
        ⟨c6, none⟩⟩ p m9 none
    = Storage.toMappingTree
        ⟨⟨c1b, none⟩, ⟨c2b, none⟩, ⟨c3, none⟩, ⟨c4, none⟩, ⟨c5b, none⟩,
          ⟨c6b, none⟩⟩ p m9
        (some [MerkleTreeUpdate.insertValue mid kid vid]) := by
  have hX : alInsert kvs kid vid = kvs ++ [(kid, vid)] :=
    alInsert_of_get_none vid hkin
  rcases hm9 : alGet c3 (p, m9) with _ | mid9
  · simp [Storage.toMappingTree, Storage.getMappingId, AMap.getSpec, hm9,
      throw, throwThe, MonadExceptOf.throw, bind, Except.bind]
  · by_cases hmm : mid9 = mid
    · subst hmm
      simp only [Storage.toMappingTree, Storage.getMappingId, AMap.getSpec,
        hm9, hkvs, alGet_alInsert, if_pos rfl, hX, Storage.applyLeafUpdate,
        MerkleTreeUpdate.mappingId, List.foldl_cons, List.foldl_nil,
        bind, Except.bind, pure, Except.pure, Functor.map, Except.map,
        ne_eq, not_true_eq_false, if_false, ite_false, reduceIte,
        List.map_append, List.map_cons, List.map_nil]
    · have hne : mid ≠ mid9 := fun hc => hmm hc.symm
      simp only [Storage.toMappingTree, Storage.getMappingId, AMap.getSpec,
        hm9, alGet_alInsert, if_neg hmm, Storage.applyLeafUpdate,
        MerkleTreeUpdate.mappingId, List.foldl_cons, List.foldl_nil,
        bind, Except.bind, pure, Except.pure, Functor.map, Except.map,
        ne_eq, hne, not_false_eq_true, if_true, ite_true, reduceIte]

/-- Pointwise effect of `update_key_value` (key present at position
`l1.length`) on a mapping tree. -/
theorem updateValue_point
    {c1 c1b : List (Nat × List Nat)} {c2 c2b : List (Nat × Nat)}
    {c3 : List ((Nat × Nat) × Nat)} {c4 : List (Nat × List (Nat × Nat))}
    {c5 c6 c5b c6b : List (Nat × Nat)}
    {p mid kid vid v0 m9 : Nat} {l1 l2 : List (Nat × Nat)}
    (hkvs : alGet c4 mid = some (l1 ++ (kid, v0) :: l2))
    (hl1 : ∀ e ∈ l1, e.1 ≠ kid) :
    Storage.toMappingTree
      ⟨⟨c1, none⟩, ⟨c2, none⟩, ⟨c3, none⟩,
        ⟨alInsert c4 mid (alInsert (l1 ++ (kid, v0) :: l2) kid vid), none⟩,
        ⟨c5, none⟩, ⟨c6, none⟩⟩ p m9 none
    = Storage.toMappingTree
        ⟨⟨c1b, none⟩, ⟨c2b, none⟩, ⟨c3, none⟩, ⟨c4, none⟩, ⟨c5b, none⟩,
          ⟨c6b, none⟩⟩ p m9
        (some [MerkleTreeUpdate.updateValue mid l1.length kid vid]) := by
  have hX : alInsert (l1 ++ (kid, v0) :: l2) kid vid
      = l1 ++ (kid, vid) :: l2 := alInsert_append_cons v0 vid hl1
  rcases hm9 : alGet c3 (p, m9) with _ | mid9
  · simp [Storage.toMappingTree, Storage.getMappingId, AMap.getSpec, hm9,
      throw, throwThe, MonadExceptOf.throw, bind, Except.bind]
  · by_cases hmm : mid9 = mid
    · subst hmm
      simp only [Storage.toMappingTree, Storage.getMappingId, AMap.getSpec,
        hm9, hkvs, alGet_alInsert, if_pos rfl, hX, Storage.applyLeafUpdate,
        MerkleTreeUpdate.mappingId, List.foldl_cons, List.foldl_nil,
        bind, Except.bind, pure, Except.pure, Functor.map, Except.map,
        ne_eq, not_true_eq_false, if_false, ite_false, reduceIte,
        List.map_append, List.map_cons, List.map_nil]
      have hlt : l1.length < (List.map Prod.snd l1
          ++ v0 :: List.map Prod.snd l2).length := by
        simp
      rw [if_pos hlt]
      rw [show l1.length = (List.map Prod.snd l1).length by simp]
      rw [set_append_cons]
    · have hne : mid ≠ mid9 := fun hc => hmm hc.symm
      simp only [Storage.toMappingTree, Storage.getMappingId, AMap.getSpec,
        hm9, alGet_alInsert, if_neg hmm, Storage.applyLeafUpdate,
        MerkleTreeUpdate.mappingId, List.foldl_cons, List.foldl_nil,
        bind, Except.bind, pure, Except.pure, Functor.map, Except.map,
        ne_eq, hne, not_false_eq_true, if_true, ite_true, reduceIte]

/-- Pointwise effect of `remove_key_value` (key present at position
`l1.length`, uniquely) on a mapping tree. -/
theorem removeValue_point
    {c1 c1b : List (Nat × List Nat)} {c2 c2b : List (Nat × Nat)}
    {c3 : List ((Nat × Nat) × Nat)} {c4 : List (Nat × List (Nat × Nat))}
    {c5 c6 c5b c6b : List (Nat × Nat)}
    {p mid kid v0 m9 : Nat} {l1 l2 : List (Nat × Nat)}
    (hkvs : alGet c4 mid = some (l1 ++ (kid, v0) :: l2))
    (hl1 : ∀ e ∈ l1, e.1 ≠ kid) (hl2 : ∀ e ∈ l2, e.1 ≠ kid) :
    Storage.toMappingTree
      ⟨⟨c1, none⟩, ⟨c2, none⟩, ⟨c3, none⟩,
        ⟨alInsert c4 mid (alRemove (l1 ++ (kid, v0) :: l2) kid), none⟩,
        ⟨c5, none⟩, ⟨c6, none⟩⟩ p m9 none
    = Storage.toMappingTree
        ⟨⟨c1b, none⟩, ⟨c2b, none⟩, ⟨c3, none⟩, ⟨c4, none⟩, ⟨c5b, none⟩,
          ⟨c6b, none⟩⟩ p m9
        (some [MerkleTreeUpdate.removeValue mid l1.length]) := by
  have hX : alRemove (l1 ++ (kid, v0) :: l2) kid = l1 ++ l2 :=
    alRemove_append_cons v0 hl1 hl2
  rcases hm9 : alGet c3 (p, m9) with _ | mid9
  · simp [Storage.toMappingTree, Storage.getMappingId, AMap.getSpec, hm9,
      throw, throwThe, MonadExceptOf.throw, bind, Except.bind]
  · by_cases hmm : mid9 = mid
    · subst hmm
      simp only [Storage.toMappingTree, Storage.getMappingId, AMap.getSpec,
        hm9, hkvs, alGet_alInsert, if_pos rfl, hX, Storage.applyLeafUpdate,
        MerkleTreeUpdate.mappingId, List.foldl_cons, List.foldl_nil,
        bind, Except.bind, pure, Except.pure, Functor.map, Except.map,
        ne_eq, not_true_eq_false, if_false, ite_false, reduceIte,
        List.map_append, List.map_cons, List.map_nil]
      rw [show l1.length = (List.map Prod.snd l1).length by simp]
      rw [eraseIdx_append_cons]
    · have hne : mid ≠ mid9 := fun hc => hmm hc.symm
      simp only [Storage.toMappingTree, Storage.getMappingId, AMap.getSpec,
        hm9, alGet_alInsert, if_neg hmm, Storage.applyLeafUpdate,
        MerkleTreeUpdate.mappingId, List.foldl_cons, List.foldl_nil,
        bind, Except.bind, pure, Except.pure, Functor.map, Except.map,
        ne_eq, hne, not_false_eq_true, if_true, ite_true, reduceIte]

/-- `InsertMapping` updates never change a mapping tree's leaves. -/
theorem applyLeafUpdate_skip_insertMapping (mid9 midx : Nat)
    (leaves : List Nat) :
    Storage.applyLeafUpdate mid9 (Except.ok leaves)
      (MerkleTreeUpdate.insertMapping midx) = Except.ok leaves := by
  by_cases hc : midx = mid9
  · simp [Storage.applyLeafUpdate, MerkleTreeUpdate.mappingId, hc,
      bind, Except.bind, pure, Except.pure]
  · simp [Storage.applyLeafUpdate, MerkleTreeUpdate.mappingId, hc,
      bind, Except.bind, pure, Except.pure]

/-- `RemoveMapping` updates never change a mapping tree's leaves. -/
theorem applyLeafUpdate_skip_removeMapping (mid9 midx : Nat)
    (leaves : List Nat) :
    Storage.applyLeafUpdate mid9 (Except.ok leaves)
      (MerkleTreeUpdate.removeMapping midx) = Except.ok leaves := by
  by_cases hc : midx = mid9
  · simp [Storage.applyLeafUpdate, MerkleTreeUpdate.mappingId, hc,
      bind, Except.bind, pure, Except.pure]
  · simp [Storage.applyLeafUpdate, MerkleTreeUpdate.mappingId, hc,
      bind, Except.bind, pure, Except.pure]

/-- The per-mapping data `initialize_mapping` and `remove_mapping`
leave in place for the surviving mappings of `p`. -/
def treeOfMapping (c4 : List (Nat × List (Nat × Nat))) (p : Nat) :
    Nat → Nat × List Nat :=
  fun m9 => (hashMappingID p m9,
    ((alGet c4 (hashMappingID p m9)).getD []).map Prod.snd)

/-- Effect of `initialize_mapping` on `p`'s program tree: the mutated
state with no updates matches the old state with `InsertMapping`. -/
theorem initializeMapping_tree
    {c1 : List (Nat × List Nat)} {c2 c2b : List (Nat × Nat)}
    {c3 : List ((Nat × Nat) × Nat)} {c4 : List (Nat × List (Nat × Nat))}
    {c5 c6 c5b c6b : List (Nat × Nat)} {p m : Nat} {ns : List Nat}
    (hns : (alGet c1 p).getD [] = ns) (hm : m ∉ ns)
    (hall3 : ∀ m9 ∈ ns, alGet c3 (p, m9) = some (hashMappingID p m9))
    (hall4 : ∀ m9 ∈ ns, ∃ kv9, alGet c4 (hashMappingID p m9) = some kv9) :
    Storage.toProgramTree
      ⟨⟨alInsert c1 p (setInsert ns m), none⟩, ⟨c2, none⟩,
        ⟨alInsert c3 (p, m) (hashMappingID p m), none⟩,
        ⟨alInsert c4 (hashMappingID p m) [], none⟩, ⟨c5, none⟩,
        ⟨c6, none⟩⟩ p none
    = Storage.toProgramTree
        ⟨⟨c1, none⟩, ⟨c2b, none⟩, ⟨c3, none⟩, ⟨c4, none⟩, ⟨c5b, none⟩,
          ⟨c6b, none⟩⟩ p
        (some [MerkleTreeUpdate.insertMapping (hashMappingID p m)]) := by
  have hinj : ∀ m9, m9 ≠ m → hashMappingID p m9 ≠ hashMappingID p m :=
    fun m9 hne hc => hne (hashMappingID_inj hc).2
  have hnsL : (alGet (alInsert c1 p (setInsert ns m)) p).getD []
      = ns ++ [m] := by
    rw [alGet_alInsert]
    simp [setInsert, hm]
  have hL := @toProgramTree_eval
    (alInsert c1 p (setInsert ns m)) c2
    (alInsert c3 (p, m) (hashMappingID p m))
    (alInsert c4 (hashMappingID p m) []) c5 c6 p none
    (fun m9 => if m9 = m then (hashMappingID p m, ([] : List Nat))
      else treeOfMapping c4 p m9)
    (by
      intro m9 hm9
      rw [hnsL] at hm9
      rcases List.mem_append.mp hm9 with h9 | h9
      · have hne : m9 ≠ m := fun hc => hm (hc ▸ h9)
        obtain ⟨kv9, hkv9⟩ := hall4 m9 h9
        have hg3 : alGet (alInsert c3 (p, m) (hashMappingID p m)) (p, m9)
            = some (hashMappingID p m9) := by
          rw [alGet_alInsert, if_neg (by
            intro hc
            exact hne ((Prod.mk.injEq _ _ _ _).mp hc).2.symm)]
          exact hall3 m9 h9
        have hg4 : alGet (alInsert c4 (hashMappingID p m) [])
            (hashMappingID p m9) = some kv9 := by
          rw [alGet_alInsert, if_neg (fun hc => hinj m9 hne hc.symm)]
          exact hkv9
        have hres : Storage.toMappingTree
            ⟨⟨alInsert c1 p (setInsert ns m), none⟩, ⟨c2, none⟩,
              ⟨alInsert c3 (p, m) (hashMappingID p m), none⟩,
              ⟨alInsert c4 (hashMappingID p m) [], none⟩, ⟨c5, none⟩,
              ⟨c6, none⟩⟩ p m9 none
            = Except.ok (treeOfMapping c4 p m9) := by
          rw [toMappingTree_none_eval hg3 hg4]
          simp [treeOfMapping, hkv9]
        exact hres.trans (congrArg Except.ok (if_neg hne).symm)
      · have hm9m : m9 = m := by simpa using h9
        subst hm9m
        have hg3 : alGet (alInsert c3 (p, m9) (hashMappingID p m9)) (p, m9)
            = some (hashMappingID p m9) := by
          rw [alGet_alInsert, if_pos rfl]
        have hg4 : alGet (alInsert c4 (hashMappingID p m9) [])
            (hashMappingID p m9) = some [] := by
          rw [alGet_alInsert, if_pos rfl]
        have hres : Storage.toMappingTree
            ⟨⟨alInsert c1 p (setInsert ns m9), none⟩, ⟨c2, none⟩,
              ⟨alInsert c3 (p, m9) (hashMappingID p m9), none⟩,
              ⟨alInsert c4 (hashMappingID p m9) [], none⟩, ⟨c5, none⟩,
              ⟨c6, none⟩⟩ p m9 none
            = Except.ok (hashMappingID p m9, ([] : List Nat)) :=
          toMappingTree_none_eval hg3 hg4
        exact hres.trans (congrArg Except.ok (if_pos rfl).symm))
  have hR := @toProgramTree_eval c1 c2b c3 c4 c5b c6b p
    (some [MerkleTreeUpdate.insertMapping (hashMappingID p m)])
    (fun m9 => if m9 = m then (hashMappingID p m, ([] : List Nat))
      else treeOfMapping c4 p m9)
    (by
      intro m9 hm9
      rw [hns] at hm9
      have hne : m9 ≠ m := fun hc => hm (hc ▸ hm9)
      obtain ⟨kv9, hkv9⟩ := hall4 m9 hm9
      have hres : Storage.toMappingTree
          ⟨⟨c1, none⟩, ⟨c2b, none⟩, ⟨c3, none⟩, ⟨c4, none⟩, ⟨c5b, none⟩,
            ⟨c6b, none⟩⟩ p m9
          (some [MerkleTreeUpdate.insertMapping (hashMappingID p m)])
          = Except.ok (treeOfMapping c4 p m9) := by
        rw [show Storage.toMappingTree
            ⟨⟨c1, none⟩, ⟨c2b, none⟩, ⟨c3, none⟩, ⟨c4, none⟩, ⟨c5b, none⟩,
              ⟨c6b, none⟩⟩ p m9
            (some [MerkleTreeUpdate.insertMapping (hashMappingID p m)])
          = Except.ok (hashMappingID p m9, kv9.map Prod.snd) by
          simp [Storage.toMappingTree, Storage.getMappingId, AMap.getSpec,
            hall3 m9 hm9, hkv9, List.foldl_cons, List.foldl_nil,
            applyLeafUpdate_skip_insertMapping, bind, Except.bind, pure,
            Except.pure, Functor.map, Except.map]]
        simp [treeOfMapping, hkv9]
      exact hres.trans (congrArg Except.ok (if_neg hne).symm))
  rw [hL, hR]
  refine congrArg Except.ok ?_
  refine congrArg (List.map _) ?_
  show List.foldl (fun acc kv => alInsert acc kv.1 kv.2) []
      (((alGet (alInsert c1 p (setInsert ns m)) p).getD []).map
        (fun m9 => if m9 = m then (hashMappingID p m, ([] : List Nat))
          else treeOfMapping c4 p m9))
    = List.foldl Storage.applyMappingUpdate
        (List.foldl (fun acc kv => alInsert acc kv.1 kv.2) []
          (((alGet c1 p).getD []).map
            (fun m9 => if m9 = m then (hashMappingID p m, ([] : List Nat))
              else treeOfMapping c4 p m9)))
        [MerkleTreeUpdate.insertMapping (hashMappingID p m)]
  rw [hnsL, hns]
  rw [List.map_append, List.foldl_append]
  simp [Storage.applyMappingUpdate]

/-- Effect of `remove_mapping` on `p`'s program tree: the mutated state
with no updates matches the old state with `RemoveMapping`. -/
theorem removeMapping_tree
    {c1 : List (Nat × List Nat)} {c2 c2b : List (Nat × Nat)}
    {c3 : List ((Nat × Nat) × Nat)} {c4 : List (Nat × List (Nat × Nat))}
    {c5 c6 c5b c6b : List (Nat × Nat)} {p m mid : Nat} {ns : List Nat}
    (hns0 : alGet c1 p = some ns) (hmem : m ∈ ns) (hnsnd : ns.Nodup)
    (hmidh : mid = hashMappingID p m)
    (hall3 : ∀ m9 ∈ ns, alGet c3 (p, m9) = some (hashMappingID p m9))
    (hall4 : ∀ m9 ∈ ns, ∃ kv9, alGet c4 (hashMappingID p m9) = some kv9) :
    Storage.toProgramTree
      ⟨⟨alInsert c1 p (setRemove ns m), none⟩, ⟨c2, none⟩,
        ⟨alRemove c3 (p, m), none⟩, ⟨alRemove c4 mid, none⟩, ⟨c5, none⟩,
        ⟨c6, none⟩⟩ p none
    = Storage.toProgramTree
        ⟨⟨c1, none⟩, ⟨c2b, none⟩, ⟨c3, none⟩, ⟨c4, none⟩, ⟨c5b, none⟩,
          ⟨c6b, none⟩⟩ p (some [MerkleTreeUpdate.removeMapping mid]) := by
  have hinj : ∀ m9, m9 ≠ m → hashMappingID p m9 ≠ mid := by
    intro m9 hne hc
    rw [hmidh] at hc
    exact hne (hashMappingID_inj hc).2
  have hnsL : (alGet (alInsert c1 p (setRemove ns m)) p).getD []
      = ns.filter (fun m9 => m9 ≠ m) := by
    rw [alGet_alInsert, if_pos rfl]
    rfl
  have hL := @toProgramTree_eval
    (alInsert c1 p (setRemove ns m)) c2
    (alRemove c3 (p, m)) (alRemove c4 mid) c5
    c6 p none (treeOfMapping c4 p)
    (by
      intro m9 hm9
      rw [hnsL] at hm9
      have h9 := List.mem_filter.mp hm9
      have hmem9 : m9 ∈ ns := h9.1
      have hne : m9 ≠ m := by simpa using h9.2
      obtain ⟨kv9, hkv9⟩ := hall4 m9 hmem9
      have hg3 : alGet (alRemove c3 (p, m)) (p, m9)
          = some (hashMappingID p m9) := by
        rw [alGet_alRemove, if_neg (by
          intro hc
          exact hne ((Prod.mk.injEq _ _ _ _).mp hc).2.symm)]
        exact hall3 m9 hmem9
      have hg4 : alGet (alRemove c4 mid) (hashMappingID p m9)
          = some kv9 := by
        rw [alGet_alRemove, if_neg (fun hc => hinj m9 hne hc.symm)]
        exact hkv9
      rw [toMappingTree_none_eval hg3 hg4]
      simp [treeOfMapping, hkv9])
  have hR := @toProgramTree_eval c1 c2b c3 c4 c5b c6b p
    (some [MerkleTreeUpdate.removeMapping mid])
    (treeOfMapping c4 p)
    (by
      intro m9 hm9
      rw [hns0] at hm9
      have hmem9 : m9 ∈ ns := by simpa using hm9
      obtain ⟨kv9, hkv9⟩ := hall4 m9 hmem9
      rw [show Storage.toMappingTree
          ⟨⟨c1, none⟩, ⟨c2b, none⟩, ⟨c3, none⟩, ⟨c4, none⟩, ⟨c5b, none⟩,
            ⟨c6b, none⟩⟩ p m9
          (some [MerkleTreeUpdate.removeMapping mid])
        = Except.ok (hashMappingID p m9, kv9.map Prod.snd) by
        simp [Storage.toMappingTree, Storage.getMappingId, AMap.getSpec,
          hall3 m9 hmem9, hkv9, List.foldl_cons, List.foldl_nil,
          applyLeafUpdate_skip_removeMapping, bind, Except.bind, pure,
          Except.pure, Functor.map, Except.map]]
      simp [treeOfMapping, hkv9])
  rw [hL, hR]
  refine congrArg Except.ok ?_
  refine congrArg (List.map _) ?_
  show List.foldl (fun acc kv => alInsert acc kv.1 kv.2) []
      (((alGet (alInsert c1 p (setRemove ns m)) p).getD []).map
        (treeOfMapping c4 p))
    = List.foldl Storage.applyMappingUpdate
        (List.foldl (fun acc kv => alInsert acc kv.1 kv.2) []
          (((alGet c1 p).getD []).map (treeOfMapping c4 p)))
        [MerkleTreeUpdate.removeMapping mid]
  rw [hnsL, show (alGet c1 p).getD [] = ns by rw [hns0]; rfl]
  have hkeysnd : ((ns.map (treeOfMapping c4 p)).map Prod.fst).Nodup := by
    rw [List.map_map]
    rw [show (Prod.fst ∘ treeOfMapping c4 p)
      = fun m9 => hashMappingID p m9 from rfl]
    exact hnsnd.map (fun a b hab => (hashMappingID_inj hab).2)
  have hkeysndF : (((ns.filter (fun m9 => m9 ≠ m)).map
      (treeOfMapping c4 p)).map Prod.fst).Nodup := by
    rw [List.map_map]
    rw [show (Prod.fst ∘ treeOfMapping c4 p)
      = fun m9 => hashMappingID p m9 from rfl]
    exact (hnsnd.filter _).map (fun a b hab => (hashMappingID_inj hab).2)
  rw [show List.foldl (fun acc kv => alInsert acc kv.1 kv.2) []
      ((ns.filter (fun m9 => m9 ≠ m)).map (treeOfMapping c4 p))
    = (ns.filter (fun m9 => m9 ≠ m)).map (treeOfMapping c4 p) by
      have := fold_alInsert_append
        ((ns.filter (fun m9 => m9 ≠ m)).map (treeOfMapping c4 p)) []
        hkeysndF (fun e _ => rfl)
      simpa using this]
  rw [show List.foldl (fun acc kv => alInsert acc kv.1 kv.2) []
      (ns.map (treeOfMapping c4 p)) = ns.map (treeOfMapping c4 p) by
      have := fold_alInsert_append (ns.map (treeOfMapping c4 p)) []
        hkeysnd (fun e _ => rfl)
      simpa using this]
  rw [show List.foldl Storage.applyMappingUpdate
      (ns.map (treeOfMapping c4 p)) [MerkleTreeUpdate.removeMapping mid]
    = alRemove (ns.map (treeOfMapping c4 p)) mid from rfl]
  rw [alRemove_eq_filter, List.filter_map]
  refine congrArg (List.map _) ?_
  refine List.filter_congr ?_
  intro m9 hmem9
  by_cases hc : m9 = m
  · subst hc
    simp [Function.comp, treeOfMapping, hmidh]
  · simp [Function.comp, treeOfMapping, hc, hinj m9 hc]

/-- What a successful `to_finalize_tree` says about each program: its
tree builds, and its root sits at its deployment index. -/
theorem finOk_facts
    {c1 : List (Nat × List Nat)} {c2 : List (Nat × Nat)}
    {c3 : List ((Nat × Nat) × Nat)} {c4 : List (Nat × List (Nat × Nat))}
    {c5 c6 : List (Nat × Nat)} {tree : List Nat}
    (hdens : (c2.map Prod.snd).Perm (List.range c2.length))
    (hfin : Storage.toFinalizeLeaves
      ⟨⟨c1, none⟩, ⟨c2, none⟩, ⟨c3, none⟩, ⟨c4, none⟩, ⟨c5, none⟩,
        ⟨c6, none⟩⟩ = .ok tree) :
    tree.length = c2.length ∧
    ∀ qi ∈ c2, ∃ pt, Storage.toProgramTree
      ⟨⟨c1, none⟩, ⟨c2, none⟩, ⟨c3, none⟩, ⟨c4, none⟩, ⟨c5, none⟩,
        ⟨c6, none⟩⟩ qi.1 none = .ok pt ∧
      tree.get? qi.2 = some (merkleRoot pt) := by
  have hall0 := toFinalizeLeaves_ok_inv hfin
  have hall : ∀ qi ∈ c2, Storage.toProgramTree
      ⟨⟨c1, none⟩, ⟨c2, none⟩, ⟨c3, none⟩, ⟨c4, none⟩, ⟨c5, none⟩,
        ⟨c6, none⟩⟩ qi.1 none
      = .ok (okD (Storage.toProgramTree
          ⟨⟨c1, none⟩, ⟨c2, none⟩, ⟨c3, none⟩, ⟨c4, none⟩, ⟨c5, none⟩,
            ⟨c6, none⟩⟩ qi.1 none) []) := by
    intro qi hqi
    obtain ⟨pt, hpt⟩ := hall0 qi hqi
    rw [hpt]
    rfl
  have heval := toFinalizeLeaves_eval (fun q => okD (Storage.toProgramTree
      ⟨⟨c1, none⟩, ⟨c2, none⟩, ⟨c3, none⟩, ⟨c4, none⟩, ⟨c5, none⟩,
        ⟨c6, none⟩⟩ q none) []) hall
  rw [hfin] at heval
  have htree := Except.ok.inj heval
  obtain ⟨hlen, hget⟩ := sortByKey_dense (fun q => okD
    (Storage.toProgramTree ⟨⟨c1, none⟩, ⟨c2, none⟩, ⟨c3, none⟩,
      ⟨c4, none⟩, ⟨c5, none⟩, ⟨c6, none⟩⟩ q none) []) hdens
  refine ⟨by rw [htree]; exact hlen, ?_⟩
  intro qi hqi
  refine ⟨_, hall qi hqi, ?_⟩
  rw [htree]
  exact hget qi hqi

/-- Rebuilding the finalize tree from per-program facts: if every
program tree builds and its root sits at its deployment index in
`tree`, then `to_finalize_tree` returns exactly `tree`. -/
theorem finOk_intro
    {c1 : List (Nat × List Nat)} {c2 : List (Nat × Nat)}
    {c3 : List ((Nat × Nat) × Nat)} {c4 : List (Nat × List (Nat × Nat))}
    {c5 c6 : List (Nat × Nat)} {tree : List Nat}
    (hdens : (c2.map Prod.snd).Perm (List.range c2.length))
    (hlen : tree.length = c2.length)
    (hpt : ∀ qi ∈ c2, ∃ pt, Storage.toProgramTree
      ⟨⟨c1, none⟩, ⟨c2, none⟩, ⟨c3, none⟩, ⟨c4, none⟩, ⟨c5, none⟩,
        ⟨c6, none⟩⟩ qi.1 none = .ok pt ∧
      tree.get? qi.2 = some (merkleRoot pt)) :
    Storage.toFinalizeLeaves
      ⟨⟨c1, none⟩, ⟨c2, none⟩, ⟨c3, none⟩, ⟨c4, none⟩, ⟨c5, none⟩,
        ⟨c6, none⟩⟩ = .ok tree := by
  have hall : ∀ qi ∈ c2, Storage.toProgramTree
      ⟨⟨c1, none⟩, ⟨c2, none⟩, ⟨c3, none⟩, ⟨c4, none⟩, ⟨c5, none⟩,
        ⟨c6, none⟩⟩ qi.1 none
      = .ok (okD (Storage.toProgramTree
          ⟨⟨c1, none⟩, ⟨c2, none⟩, ⟨c3, none⟩, ⟨c4, none⟩, ⟨c5, none⟩,
            ⟨c6, none⟩⟩ qi.1 none) []) := by
    intro qi hqi
    obtain ⟨pt, hpt1, _⟩ := hpt qi hqi
    rw [hpt1]
    rfl
  have heval := toFinalizeLeaves_eval (fun q => okD (Storage.toProgramTree
      ⟨⟨c1, none⟩, ⟨c2, none⟩, ⟨c3, none⟩, ⟨c4, none⟩, ⟨c5, none⟩,
        ⟨c6, none⟩⟩ q none) []) hall
  obtain ⟨hlen2, hget2⟩ := sortByKey_dense (fun q => okD
    (Storage.toProgramTree ⟨⟨c1, none⟩, ⟨c2, none⟩, ⟨c3, none⟩,
      ⟨c4, none⟩, ⟨c5, none⟩, ⟨c6, none⟩⟩ q none) []) hdens
  rw [heval]
  refine congrArg Except.ok ?_
  refine List.ext_get? ?_
  intro n
  by_cases hn : n < c2.length
  · have hmemn : n ∈ c2.map Prod.snd :=
      hdens.mem_iff.mpr (List.mem_range.mpr hn)
    obtain ⟨qi, hqi, hqn⟩ := List.mem_map.mp hmemn
    rw [← hqn]
    rw [hget2 qi hqi]
    obtain ⟨pt, hpt1, hpt2⟩ := hpt qi hqi
    rw [hpt2]
    rw [show okD (Storage.toProgramTree ⟨⟨c1, none⟩, ⟨c2, none⟩,
        ⟨c3, none⟩, ⟨c4, none⟩, ⟨c5, none⟩, ⟨c6, none⟩⟩ qi.1 none) []
      = pt by rw [hpt1]; rfl]
  · have h1 : ((Storage.sortByKey ((c2.map (fun qi =>
        (qi.2, okD (Storage.toProgramTree ⟨⟨c1, none⟩, ⟨c2, none⟩,
          ⟨c3, none⟩, ⟨c4, none⟩, ⟨c5, none⟩, ⟨c6, none⟩⟩ qi.1 none)
            []))).foldl (fun acc kv => alInsert acc kv.1 kv.2) [])).map
        (fun kv => merkleRoot kv.2)).get? n = none := by
      rw [List.get?_eq_none]
      rw [hlen2]
      omega
    have h2 : tree.get? n = none := by
      rw [List.get?_eq_none]
      rw [hlen]
      omega
    rw [h1, h2]

/-- Inverting a successful non-speculative `FinalizeStore::initialize_mapping`. -/
theorem FStore.initializeMapping_fok {st st' : FStore} {p m : Nat}
    (hsp : st.isSpeculate = false)
    (h : st.initializeMapping p m = (.ok (), st')) :
    ∃ ptree1,
      st.storage.toProgramTree p
        (some [MerkleTreeUpdate.insertMapping (hashMappingID p m)])
        = .ok ptree1 ∧
      st.storage.initializeMapping p m = (.ok (), st'.storage) ∧
      ((∃ idx, AMap.get st.storage.programIndexMap p = some idx ∧
          st'.tree = treePrepareUpdate st.tree idx (merkleRoot ptree1)) ∨
        (AMap.get st.storage.programIndexMap p = none ∧
          st'.tree = treePrepareAppend st.tree [merkleRoot ptree1])) ∧
      st'.isSpeculate = false := by
  obtain ⟨sg, tr, sp⟩ := st
  have hsp9 : sp = false := hsp
  subst hsp9
  simp only [FStore.initializeMapping, Bool.false_eq_true, if_false] at h
  rcases htree : sg.toProgramTree p
      (some [MerkleTreeUpdate.insertMapping (hashMappingID p m)])
      with e | pt
  · simp only [htree] at h
    exact absurd (show (Except.error e : Except Err Unit) = .ok ()
      from congrArg Prod.fst h) (by simp)
  · simp only [htree] at h
    rcases hpi : AMap.get sg.programIndexMap p with _ | idx
    · simp only [hpi] at h
      rcases hrs : sg.initializeMapping p m with ⟨r, s2⟩
      simp only [hrs] at h
      rcases r with e2 | u
      · exact absurd (show (Except.error e2 : Except Err Unit) = .ok ()
          from congrArg Prod.fst h) (by simp)
      · have h2 : st' = ⟨s2, treePrepareAppend tr [merkleRoot pt], false⟩ :=
          (congrArg Prod.snd h).symm
        exact ⟨pt, by first | rfl | exact htree,
          by first | (rw [h2]; exact hrs) | rw [h2],
          Or.inr ⟨by first | rfl | exact hpi, by rw [h2]⟩, by rw [h2]⟩
    · simp only [hpi] at h
      rcases hrs : sg.initializeMapping p m with ⟨r, s2⟩
      simp only [hrs] at h
      rcases r with e2 | u
      · exact absurd (show (Except.error e2 : Except Err Unit) = .ok ()
          from congrArg Prod.fst h) (by simp)
      · have h2 : st' = ⟨s2, treePrepareUpdate tr idx (merkleRoot pt),
            false⟩ := (congrArg Prod.snd h).symm
        exact ⟨pt, by first | rfl | exact htree,
          by first | (rw [h2]; exact hrs) | rw [h2],
          Or.inl ⟨idx, by first | rfl | exact hpi, by rw [h2]⟩,
          by rw [h2]⟩

/-- Inverting a successful non-speculative `FinalizeStore::insert_key_value`. -/
theorem FStore.insertKeyValue_fok {st st' : FStore} {p m k v : Nat}
    (hsp : st.isSpeculate = false)
    (h : st.insertKeyValue p m k v = (.ok (), st')) :
    ∃ mid ptree1 idx,
      st.storage.getMappingId p m = some mid ∧
      st.storage.toProgramTree p
        (some [MerkleTreeUpdate.insertValue mid (keyIdOf mid k)
          (valueIdOf (keyIdOf mid k) v)]) = .ok ptree1 ∧
      AMap.get st.storage.programIndexMap p = some idx ∧
      st.storage.insertKeyValue p m k v = (.ok (), st'.storage) ∧
      st'.tree = treePrepareUpdate st.tree idx (merkleRoot ptree1) ∧
      st'.isSpeculate = false := by
  obtain ⟨sg, tr, sp⟩ := st
  have hsp9 : sp = false := hsp
  subst hsp9
  simp only [FStore.insertKeyValue, Bool.false_eq_true, if_false] at h
  rcases hmid : sg.getMappingId p m with _ | mid
  · simp only [hmid] at h
    exact absurd (show (Except.error Err.storeMappingNotInit
      : Except Err Unit) = .ok () from congrArg Prod.fst h) (by simp)
  · simp only [hmid] at h
    rcases htree : sg.toProgramTree p
        (some [MerkleTreeUpdate.insertValue mid (keyIdOf mid k)
          (valueIdOf (keyIdOf mid k) v)]) with e | pt
    · simp only [htree] at h
      exact absurd (show (Except.error e : Except Err Unit) = .ok ()
        from congrArg Prod.fst h) (by simp)
    · simp only [htree] at h
      rcases hpi : AMap.get sg.programIndexMap p with _ | idx
      · simp only [hpi] at h
        exact absurd (show (Except.error Err.storeProgramIndexMissing
          : Except Err Unit) = .ok () from congrArg Prod.fst h) (by simp)
      · simp only [hpi] at h
        rcases hrs : sg.insertKeyValue p m k v with ⟨r, s2⟩
        simp only [hrs] at h
        rcases r with e2 | u
        · exact absurd (show (Except.error e2 : Except Err Unit) = .ok ()
            from congrArg Prod.fst h) (by simp)
        · have h2 : st' = ⟨s2, treePrepareUpdate tr idx (merkleRoot pt),
              false⟩ := (congrArg Prod.snd h).symm
          exact ⟨mid, pt, idx, by first | rfl | exact hmid,
            by first | rfl | exact htree, by first | rfl | exact hpi,
            by first | (rw [h2]; exact hrs) | rw [h2], by rw [h2],
            by rw [h2]⟩

/-- Inverting a successful non-speculative `FinalizeStore::update_key_value`. -/
theorem FStore.updateKeyValue_fok {st st' : FStore} {p m k v : Nat}
    (hsp : st.isSpeculate = false)
    (h : st.updateKeyValue p m k v = (.ok (), st')) :
    ∃ mid kvm ptree1 idx,
      st.storage.getMappingId p m = some mid ∧
      AMap.get st.storage.keyValueIDMap mid = some kvm ∧
      ((∃ kidIdx, alIndexOf kvm (keyIdOf mid k) = some kidIdx ∧
          st.storage.toProgramTree p
            (some [MerkleTreeUpdate.updateValue mid kidIdx (keyIdOf mid k)
              (valueIdOf (keyIdOf mid k) v)]) = .ok ptree1) ∨
        (alIndexOf kvm (keyIdOf mid k) = none ∧
          st.storage.toProgramTree p
            (some [MerkleTreeUpdate.insertValue mid (keyIdOf mid k)
              (valueIdOf (keyIdOf mid k) v)]) = .ok ptree1)) ∧
      AMap.get st.storage.programIndexMap p = some idx ∧
      st.storage.updateKeyValue p m k v = (.ok (), st'.storage) ∧
      st'.tree = treePrepareUpdate st.tree idx (merkleRoot ptree1) ∧
      st'.isSpeculate = false := by
  obtain ⟨sg, tr, sp⟩ := st
  have hsp9 : sp = false := hsp
  subst hsp9
  simp only [FStore.updateKeyValue, Bool.false_eq_true, if_false] at h
  rcases hmid : sg.getMappingId p m with _ | mid
  · simp only [hmid] at h
    exact absurd (show (Except.error Err.storeMappingNotInit
      : Except Err Unit) = .ok () from congrArg Prod.fst h) (by simp)
  · simp only [hmid] at h
    rcases hkvm : AMap.get sg.keyValueIDMap mid with _ | kvm
    · simp only [hkvm] at h
      exact absurd (show (Except.error Err.storeKvMissing
        : Except Err Unit) = .ok () from congrArg Prod.fst h) (by simp)
    · simp only [hkvm] at h
      rcases hupd : alIndexOf kvm (keyIdOf mid k) with _ | kidIdx
      · simp only [hupd] at h
        rcases htree : sg.toProgramTree p
            (some [MerkleTreeUpdate.insertValue mid (keyIdOf mid k)
              (valueIdOf (keyIdOf mid k) v)]) with e | pt
        · simp only [htree] at h
          exact absurd (show (Except.error e : Except Err Unit) = .ok ()
            from congrArg Prod.fst h) (by simp)
        · simp only [htree] at h
          rcases hpi : AMap.get sg.programIndexMap p with _ | idx
          · simp only [hpi] at h
            exact absurd (show (Except.error Err.storeProgramIndexMissing
              : Except Err Unit) = .ok () from congrArg Prod.fst h)
              (by simp)
          · simp only [hpi] at h
            rcases hrs : sg.updateKeyValue p m k v with ⟨r, s2⟩
            simp only [hrs] at h
            rcases r with e2 | u
            · exact absurd (show (Except.error e2 : Except Err Unit)
                = .ok () from congrArg Prod.fst h) (by simp)
            · have h2 : st' = ⟨s2, treePrepareUpdate tr idx
                  (merkleRoot pt), false⟩ := (congrArg Prod.snd h).symm
              exact ⟨mid, kvm, pt, idx, by first | rfl | exact hmid,
                by first | rfl | exact hkvm,
                Or.inr ⟨by first | rfl | exact hupd,
                  by first | rfl | exact htree⟩,
                by first | rfl | exact hpi,
                by first | (rw [h2]; exact hrs) | rw [h2], by rw [h2],
                by rw [h2]⟩
      · simp only [hupd] at h
        rcases htree : sg.toProgramTree p
            (some [MerkleTreeUpdate.updateValue mid kidIdx (keyIdOf mid k)
              (valueIdOf (keyIdOf mid k) v)]) with e | pt
        · simp only [htree] at h
          exact absurd (show (Except.error e : Except Err Unit) = .ok ()
            from congrArg Prod.fst h) (by simp)
        · simp only [htree] at h
          rcases hpi : AMap.get sg.programIndexMap p with _ | idx
          · simp only [hpi] at h
            exact absurd (show (Except.error Err.storeProgramIndexMissing
              : Except Err Unit) = .ok () from congrArg Prod.fst h)
              (by simp)
          · simp only [hpi] at h
            rcases hrs : sg.updateKeyValue p m k v with ⟨r, s2⟩
            simp only [hrs] at h
            rcases r with e2 | u
            · exact absurd (show (Except.error e2 : Except Err Unit)
                = .ok () from congrArg Prod.fst h) (by simp)
            · have h2 : st' = ⟨s2, treePrepareUpdate tr idx
                  (merkleRoot pt), false⟩ := (congrArg Prod.snd h).symm
              exact ⟨mid, kvm, pt, idx, by first | rfl | exact hmid,
                by first | rfl | exact hkvm,
                Or.inl ⟨kidIdx, by first | rfl | exact hupd,
                  by first | rfl | exact htree⟩,
                by first | rfl | exact hpi,
                by first | (rw [h2]; exact hrs) | rw [h2], by rw [h2],
                by rw [h2]⟩

/-- Inverting a successful non-speculative `FinalizeStore::remove_key_value`. -/
theorem FStore.removeKeyValue_fok {st st' : FStore} {p m k : Nat}
    (hsp : st.isSpeculate = false)
    (h : st.removeKeyValue p m k = (.ok (), st')) :
    ∃ mid kvm kidIdx ptree1 idx,
      st.storage.getMappingId p m = some mid ∧
      AMap.get st.storage.keyValueIDMap mid = some kvm ∧
      alIndexOf kvm (keyIdOf mid k) = some kidIdx ∧
      st.storage.toProgramTree p
        (some [MerkleTreeUpdate.removeValue mid kidIdx]) = .ok ptree1 ∧
      AMap.get st.storage.programIndexMap p = some idx ∧
      st.storage.removeKeyValue p m k = (.ok (), st'.storage) ∧
      st'.tree = treePrepareUpdate st.tree idx (merkleRoot ptree1) ∧
      st'.isSpeculate = false := by
  obtain ⟨sg, tr, sp⟩ := st
  have hsp9 : sp = false := hsp
  subst hsp9
  simp only [FStore.removeKeyValue, Bool.false_eq_true, if_false] at h
  rcases hmid : sg.getMappingId p m with _ | mid
  · simp only [hmid] at h
    exact absurd (show (Except.error Err.storeMappingNotInit
      : Except Err Unit) = .ok () from congrArg Prod.fst h) (by simp)
  · simp only [hmid] at h
    rcases hkvm : AMap.get sg.keyValueIDMap mid with _ | kvm
    · simp only [hkvm] at h
      exact absurd (show (Except.error Err.storeKvMissing
        : Except Err Unit) = .ok () from congrArg Prod.fst h) (by simp)
    · simp only [hkvm] at h
      rcases hupd : alIndexOf kvm (keyIdOf mid k) with _ | kidIdx
      · simp only [hupd] at h
        exact absurd (show (Except.error Err.storeKeyIndexMissing
          : Except Err Unit) = .ok () from congrArg Prod.fst h) (by simp)
      · simp only [hupd] at h
        rcases htree : sg.toProgramTree p
            (some [MerkleTreeUpdate.removeValue mid kidIdx]) with e | pt
        · simp only [htree] at h
          exact absurd (show (Except.error e : Except Err Unit) = .ok ()
            from congrArg Prod.fst h) (by simp)
        · simp only [htree] at h
          rcases hpi : AMap.get sg.programIndexMap p with _ | idx
          · simp only [hpi] at h
            exact absurd (show (Except.error Err.storeProgramIndexMissing
              : Except Err Unit) = .ok () from congrArg Prod.fst h)
              (by simp)
          · simp only [hpi] at h
            rcases hrs : sg.removeKeyValue p m k with ⟨r, s2⟩
            simp only [hrs] at h
            rcases r with e2 | u
            · exact absurd (show (Except.error e2 : Except Err Unit)
                = .ok () from congrArg Prod.fst h) (by simp)
            · have h2 : st' = ⟨s2, treePrepareUpdate tr idx
                  (merkleRoot pt), false⟩ := (congrArg Prod.snd h).symm
              exact ⟨mid, kvm, kidIdx, pt, idx,
                by first | rfl | exact hmid, by first | rfl | exact hkvm,
                by first | rfl | exact hupd, by first | rfl | exact htree,
                by first | rfl | exact hpi,
                by first | (rw [h2]; exact hrs) | rw [h2], by rw [h2],
                by rw [h2]⟩

/-- Inverting a successful non-speculative `FinalizeStore::remove_mapping`. -/
theorem FStore.removeMapping_fok {st st' : FStore} {p m : Nat}
    (hsp : st.isSpeculate = false)
    (h : st.removeMapping p m = (.ok (), st')) :
    ∃ mid ptree1 idx,
      st.storage.getMappingId p m = some mid ∧
      st.storage.toProgramTree p
        (some [MerkleTreeUpdate.removeMapping mid]) = .ok ptree1 ∧
      AMap.get st.storage.programIndexMap p = some idx ∧
      st.storage.removeMapping p m = (.ok (), st'.storage) ∧
      st'.tree = treePrepareUpdate st.tree idx (merkleRoot ptree1) ∧
      st'.isSpeculate = false := by
  obtain ⟨sg, tr, sp⟩ := st
  have hsp9 : sp = false := hsp
  subst hsp9
  simp only [FStore.removeMapping, Bool.false_eq_true, if_false] at h
  rcases hmid : sg.getMappingId p m with _ | mid
  · simp only [hmid] at h
    exact absurd (show (Except.error Err.storeMappingNotInit
      : Except Err Unit) = .ok () from congrArg Prod.fst h) (by simp)
  · simp only [hmid] at h
    rcases htree : sg.toProgramTree p
        (some [MerkleTreeUpdate.removeMapping mid]) with e | pt
    · simp only [htree] at h
      exact absurd (show (Except.error e : Except Err Unit) = .ok ()
        from congrArg Prod.fst h) (by simp)
    · simp only [htree] at h
      rcases hpi : AMap.get sg.programIndexMap p with _ | idx
      · simp only [hpi] at h
        exact absurd (show (Except.error Err.storeProgramIndexMissing
          : Except Err Unit) = .ok () from congrArg Prod.fst h) (by simp)
      · simp only [hpi] at h
        rcases hrs : sg.removeMapping p m with ⟨r, s2⟩
        simp only [hrs] at h
        rcases r with e2 | u
        · exact absurd (show (Except.error e2 : Except Err Unit) = .ok ()
            from congrArg Prod.fst h) (by simp)
        · have h2 : st' = ⟨s2, treePrepareUpdate tr idx (merkleRoot pt),
              false⟩ := (congrArg Prod.snd h).symm
          exact ⟨mid, pt, idx, by first | rfl | exact hmid,
            by first | rfl | exact htree, by first | rfl | exact hpi,
            by first | (rw [h2]; exact hrs) | rw [h2], by rw [h2],
            by rw [h2]⟩

/-- Inverting a successful non-speculative `FinalizeStore::remove_program`. -/
theorem FStore.removeProgram_fok {st st' : FStore} {p : Nat}
    (hsp : st.isSpeculate = false)
    (h : st.removeProgram p = (.ok (), st')) :
    st.storage.removeProgram p = (.ok (), st'.storage) ∧
    st'.storage.toFinalizeLeaves = .ok st'.tree ∧
    st'.isSpeculate = false := by
  obtain ⟨sg, tr, sp⟩ := st
  have hsp9 : sp = false := hsp
  subst hsp9
  simp only [FStore.removeProgram, Bool.false_eq_true, if_false] at h
  rcases hrs : sg.removeProgram p with ⟨r, s2⟩
  simp only [hrs] at h
  rcases r with e2 | u
  · exact absurd (show (Except.error e2 : Except Err Unit) = .ok ()
      from congrArg Prod.fst h) (by simp)
  · rcases hlv : s2.toFinalizeLeaves with e3 | lvs
    · simp only [hlv] at h
      exact absurd (show (Except.error e3 : Except Err Unit) = .ok ()
        from congrArg Prod.fst h) (by simp)
    · simp only [hlv] at h
      have h2 : st' = ⟨s2, lvs, false⟩ := (congrArg Prod.snd h).symm
      refine ⟨by first | (rw [h2]; exact hrs) | rw [h2], ?_, by rw [h2]⟩
      rw [h2]
      exact hlv

theorem mem_alInsert {K V : Type} [DecidableEq K]
    {l : List (K × V)} {k : K} {v : V} {e : K × V}
    (h : e ∈ alInsert l k v) : e ∈ l ∨ e = (k, v) := by
  induction l with
  | nil => simpa [alInsert] using h
  | cons x t ih =>
    by_cases h1 : x.1 = k
    · rw [show alInsert (x :: t) k v = (k, v) :: t by
        rw [show (x :: t) = ((x.1, x.2) :: t) by rfl]
        simp [alInsert, h1]] at h
      rcases List.mem_cons.mp h with h2 | h2
      · exact Or.inr h2
      · exact Or.inl (List.mem_cons_of_mem _ h2)
    · rw [show alInsert (x :: t) k v = x :: alInsert t k v by
        rw [show (x :: t) = ((x.1, x.2) :: t) by rfl]
        simp [alInsert, h1]] at h
      rcases List.mem_cons.mp h with h2 | h2
      · exact Or.inl (h2 ▸ List.mem_cons_self x t)
      · rcases ih h2 with h3 | h3
        · exact Or.inl (List.mem_cons_of_mem _ h3)
        · exact Or.inr h3

theorem get?_set_self {α : Type} :
    ∀ (l : List α) (i : Nat) (a : α), i < l.length →
      (l.set i a).get? i = some a := by
  intro l
  induction l with
  | nil => intro i a h; simp at h
  | cons x t ih =>
    intro i a h
    cases i with
    | zero => rfl
    | succ j =>
      simp only [List.set]
      have := ih j a (by simpa using h)
      simpa using this

theorem get?_set_ne {α : Type} :
    ∀ (l : List α) (i j : Nat) (a : α), i ≠ j →
      (l.set i a).get? j = l.get? j := by
  intro l
  induction l with
  | nil => intro i j a _; simp
  | cons x t ih =>
    intro i j a hne
    cases i with
    | zero =>
      cases j with
      | zero => exact absurd rfl hne
      | succ j2 => rfl
    | succ i2 =>
      cases j with
      | zero => rfl
      | succ j2 =>
        simp only [List.set]
        have := ih i2 j2 a (fun hc => hne (by rw [hc]))
        simpa using this

theorem foldl_max_eq {t : List Nat} :
    ∀ {a M : Nat}, (a = M ∨ M ∈ t) → a ≤ M → (∀ x ∈ t, x ≤ M) →
      t.foldl max a = M := by
  induction t with
  | nil =>
    intro a M hm ha _
    rcases hm with rfl | h
    · rfl
    · simp at h
  | cons b t ih =>
    intro a M hm ha hb
    rw [List.foldl_cons]
    have hbM : b ≤ M := hb b (List.mem_cons_self b t)
    refine ih ?_ (by simp [ha, hbM]) (fun x hx => hb x
      (List.mem_cons_of_mem _ hx))
    rcases hm with rfl | h
    · exact Or.inl (Nat.max_eq_left hbM)
    · rcases List.mem_cons.mp h with h2 | h2
      · subst h2
        exact Or.inl (Nat.max_eq_right ha)
      · exact Or.inr h2

theorem max?_eq_of_mem_of_le {l : List Nat} {M : Nat} (hm : M ∈ l)
    (hb : ∀ x ∈ l, x ≤ M) : l.max? = some M := by
  cases l with
  | nil => simp at hm
  | cons a t =>
    show some (t.foldl max a) = some M
    refine congrArg some (foldl_max_eq ?_ (hb a (List.mem_cons_self a t))
      (fun x hx => hb x (List.mem_cons_of_mem _ hx)))
    rcases List.mem_cons.mp hm with h2 | h2
    · exact Or.inl h2.symm
    · exact Or.inr h2

/-- On a dense index map, the index chosen for a fresh program is the
current number of programs. -/
theorem newProgramIndex_dense
    {c1 : List (Nat × List Nat)} {c2 : List (Nat × Nat)}
    {c3 : List ((Nat × Nat) × Nat)} {c4 : List (Nat × List (Nat × Nat))}
    {c5 c6 : List (Nat × Nat)} {p : Nat}
    (hdens : (c2.map Prod.snd).Perm (List.range c2.length))
    (hnone : alGet c2 p = none) :
    Storage.newProgramIndex
      ⟨⟨c1, none⟩, ⟨c2, none⟩, ⟨c3, none⟩, ⟨c4, none⟩, ⟨c5, none⟩,
        ⟨c6, none⟩⟩ p = c2.length := by
  rw [Storage.newProgramIndex]
  simp only [hnone]
  cases hc2 : c2 with
  | nil => rfl
  | cons e t =>
    have hlen : 0 < c2.length := by rw [hc2]; simp
    have hmax : (c2.map Prod.snd).max? = some (c2.length - 1) := by
      refine max?_eq_of_mem_of_le ?_ ?_
      · refine hdens.mem_iff.mpr (List.mem_range.mpr ?_)
        omega
      · intro x hx
        have := List.mem_range.mp (hdens.mem_iff.mp hx)
        omega
    rw [← hc2, hmax]
    show c2.length - 1 + 1 = c2.length
    omega

/-- Entries surviving the `remove_program` loop were present before. -/
theorem removeProgramLoopPure_sub (p : Nat) :
    ∀ (ns : List Nat) (c3 : List ((Nat × Nat) × Nat))
      (c4 : List (Nat × List (Nat × Nat))) (c5 c6 : List (Nat × Nat))
      {C3 : List ((Nat × Nat) × Nat)} {C4 : List (Nat × List (Nat × Nat))}
      {C5 C6 : List (Nat × Nat)},
      Storage.removeProgramLoopPure p ns c3 c4 c5 c6
        = some (C3, C4, C5, C6) →
      (∀ f ∈ C3, f ∈ c3) ∧ (∀ g ∈ C4, g ∈ c4) := by
  intro ns
  induction ns with
  | nil =>
    intro c3 c4 c5 c6 C3 C4 C5 C6 h
    rw [Storage.removeProgramLoopPure] at h
    have h9 := Option.some.inj h
    simp only [Prod.mk.injEq] at h9
    obtain ⟨h1, h2, -, -⟩ := h9
    rw [← h1, ← h2]
    exact ⟨fun f hf => hf, fun g hg => hg⟩
  | cons m rest ih =>
    intro c3 c4 c5 c6 C3 C4 C5 C6 h
    rw [Storage.removeProgramLoopPure] at h
    rcases hmid : alGet c3 (p, m) with _ | mid
    · simp only [hmid] at h
      simp at h
    · simp only [hmid] at h
      rcases hkv : alGet c4 mid with _ | kvs
      · simp only [hkv] at h
        simp at h
      · simp only [hkv] at h
        obtain ⟨ih3, ih4⟩ := ih (alRemove c3 (p, m)) (alRemove c4 mid)
          (Storage.removeAllKeys kvs c5) (Storage.removeAllKeys kvs c6) h
        exact ⟨fun f hf => mem_alRemove_sub (ih3 f hf),
          fun g hg => mem_alRemove_sub (ih4 g hg)⟩


/-! ## C1: the cached root tracks the recomputed finalize tree -/

theorem alGet_eq_none_of_contains_false {K V : Type} [DecidableEq K]
    {l : List (K × V)} {k : K} (h : alContains l k = false) :
    alGet l k = none := by
  rcases hg : alGet l k with _ | v
  · rfl
  · rw [alContains, hg] at h
    simp at h

theorem alGet_alRemove_ne {K V : Type} [DecidableEq K]
    (l : List (K × V)) {k k' : K} (h : k' ≠ k) :
    alGet (alRemove l k) k' = alGet l k' := by
  induction l with
  | nil => rfl
  | cons e t ih =>
    obtain ⟨ek, ev⟩ := e
    by_cases h1 : ek = k
    · rw [show alRemove ((ek, ev) :: t) k = alRemove t k by
        simp [alRemove, h1]]
      rw [ih]
      have h2 : ek ≠ k' := fun hc => h (by rw [← hc, h1])
      simp [alGet, h2]
    · rw [show alRemove ((ek, ev) :: t) k = (ek, ev) :: alRemove t k by
        simp [alRemove, h1]]
      by_cases h2 : ek = k'
      · simp [alGet, h2]
      · simp [alGet, h2, ih]

/-- A successful program-tree build certifies, for every mapping listed
under `p`, its `MappingIDMap` binding (hash-consistent states) and its
`KeyValueIDMap` entry list. -/
theorem programTree_ok_bindings
    {c1 : List (Nat × List Nat)} {c2 : List (Nat × Nat)}
    {c3 : List ((Nat × Nat) × Nat)} {c4 : List (Nat × List (Nat × Nat))}
    {c5 c6 : List (Nat × Nat)} {p : Nat}
    {u : Option (List MerkleTreeUpdate)} {pt : List Nat}
    (hcons : ∀ e ∈ c3, e.2 = hashMappingID e.1.1 e.1.2)
    (h : Storage.toProgramTree
      ⟨⟨c1, none⟩, ⟨c2, none⟩, ⟨c3, none⟩, ⟨c4, none⟩, ⟨c5, none⟩,
        ⟨c6, none⟩⟩ p u = .ok pt) :
    (∀ m9 ∈ (alGet c1 p).getD [],
      alGet c3 (p, m9) = some (hashMappingID p m9)) ∧
    (∀ m9 ∈ (alGet c1 p).getD [],
      ∃ kv9, alGet c4 (hashMappingID p m9) = some kv9) := by
  have hinv := toProgramTree_ok_inv h
  constructor
  · intro m9 hm9
    obtain ⟨pr, hpr⟩ := hinv m9 hm9
    obtain ⟨mid9, kv9, h3, h4⟩ := toMappingTree_ok_inv hpr
    have hmid9 : mid9 = hashMappingID p m9 := hcons ((p, m9), mid9)
      (alGet_mem h3)
    rw [← hmid9]
    exact h3
  · intro m9 hm9
    obtain ⟨pr, hpr⟩ := hinv m9 hm9
    obtain ⟨mid9, kv9, h3, h4⟩ := toMappingTree_ok_inv hpr
    have hmid9 : mid9 = hashMappingID p m9 := hcons ((p, m9), mid9)
      (alGet_mem h3)
    rw [hmid9] at h4
    exact ⟨kv9, h4⟩

/-- Overwriting one program's leaf: if the mutated state agrees with
the old one away from `p` and `p`'s new program tree is `pt`, the new
finalize leaves are the old ones with `p`'s leaf replaced. -/
theorem finOk_update_program
    {c1 c1b : List (Nat × List Nat)} {c2 : List (Nat × Nat)}
    {c3 c3b : List ((Nat × Nat) × Nat)}
    {c4 c4b : List (Nat × List (Nat × Nat))}
    {c5 c6 c5b c6b : List (Nat × Nat)} {p idx : Nat} {tr pt : List Nat}
    (hnd : (c2.map Prod.fst).Nodup)
    (hdens : (c2.map Prod.snd).Perm (List.range c2.length))
    (hfin : Storage.toFinalizeLeaves
      ⟨⟨c1b, none⟩, ⟨c2, none⟩, ⟨c3b, none⟩, ⟨c4b, none⟩, ⟨c5b, none⟩,
        ⟨c6b, none⟩⟩ = .ok tr)
    (hpi : alGet c2 p = some idx)
    (hnew : Storage.toProgramTree
      ⟨⟨c1, none⟩, ⟨c2, none⟩, ⟨c3, none⟩, ⟨c4, none⟩, ⟨c5, none⟩,
        ⟨c6, none⟩⟩ p none = .ok pt)
    (hcongr : ∀ q, q ≠ p → Storage.toProgramTree
      ⟨⟨c1, none⟩, ⟨c2, none⟩, ⟨c3, none⟩, ⟨c4, none⟩, ⟨c5, none⟩,
        ⟨c6, none⟩⟩ q none
      = Storage.toProgramTree
        ⟨⟨c1b, none⟩, ⟨c2, none⟩, ⟨c3b, none⟩, ⟨c4b, none⟩, ⟨c5b, none⟩,
          ⟨c6b, none⟩⟩ q none) :
    Storage.toFinalizeLeaves
      ⟨⟨c1, none⟩, ⟨c2, none⟩, ⟨c3, none⟩, ⟨c4, none⟩, ⟨c5, none⟩,
        ⟨c6, none⟩⟩ = .ok (tr.set idx (merkleRoot pt)) := by
  obtain ⟨hlen, hold⟩ := finOk_facts hdens hfin
  have hvnd : (c2.map Prod.snd).Nodup :=
    hdens.symm.nodup (List.nodup_range c2.length)
  have hmemp : (p, idx) ∈ c2 := alGet_mem hpi
  have hidxlt : idx < tr.length := by
    obtain ⟨pt9, -, hg⟩ := hold (p, idx) hmemp
    by_contra hc
    rw [List.get?_eq_none.mpr (Nat.le_of_not_lt hc)] at hg
    exact Option.noConfusion hg
  refine finOk_intro hdens (by rw [List.length_set]; exact hlen) ?_
  intro qi hqi
  by_cases hq : qi.1 = p
  · have hqip : qi = (p, idx) := mem_eq_of_nodup_keys hnd hqi hmemp hq
    refine ⟨pt, ?_, ?_⟩
    · rw [hq]
      exact hnew
    · rw [hqip]
      exact get?_set_self tr idx (merkleRoot pt) hidxlt
  · obtain ⟨pt9, hpt9, hg9⟩ := hold qi hqi
    refine ⟨pt9, ?_, ?_⟩
    · rw [hcongr qi.1 hq]
      exact hpt9
    · have hne : idx ≠ qi.2 := by
        intro hc
        have h9 := mem_eq_of_nodup_vals hvnd hqi hmemp hc.symm
        exact hq (by rw [h9])
      rw [get?_set_ne tr idx qi.2 (merkleRoot pt) hne]
      exact hg9

/-- The inductive invariant behind C1: a non-speculative, quiescent
store whose maps are well-formed (unique, densely indexed programs;
hash-consistent mapping IDs; duplicate-free name and entry lists) and
whose cached tree is exactly the recomputed finalize-tree leaves. -/
def GoodStore (st : FStore) : Prop :=
  st.isSpeculate = false ∧
  st.storage.Quiescent ∧
  (st.storage.programIndexMap.committed.map Prod.fst).Nodup ∧
  (st.storage.programIndexMap.committed.map Prod.snd).Perm
    (List.range st.storage.programIndexMap.committed.length) ∧
  MappingIDMapConsistent st.storage ∧
  (∀ e ∈ st.storage.programIDMap.committed, e.2.Nodup) ∧
  (∀ g ∈ st.storage.keyValueIDMap.committed, (g.2.map Prod.fst).Nodup) ∧
  st.storage.toFinalizeLeaves = .ok st.tree

/-- `GoodStore` is preserved by a successful non-speculative
`initialize_mapping`. -/
theorem goodStore_initializeMapping {st st' : FStore} {p m : Nat}
    (hg : GoodStore st) (h : st.initializeMapping p m = (.ok (), st')) :
    GoodStore st' := by
  obtain ⟨hsp, hq, hnd, hdens, hcons, hnsnd, hkvnd, hfin⟩ := hg
  obtain ⟨⟨⟨c1, pd1⟩, ⟨c2, pd2⟩, ⟨c3, pd3⟩, ⟨c4, pd4⟩, ⟨c5, pd5⟩,
    ⟨c6, pd6⟩⟩, tr, sp⟩ := st
  obtain ⟨h1q, h2q, h3q, h4q, h5q, h6q⟩ := hq
  cases h1q; cases h2q; cases h3q; cases h4q; cases h5q; cases h6q
  have hsp0 : sp = false := hsp
  subst hsp0
  have hndc : (c2.map Prod.fst).Nodup := hnd
  have hdensc : (c2.map Prod.snd).Perm (List.range c2.length) := hdens
  have hconsc : ∀ e ∈ c3, e.2 = hashMappingID e.1.1 e.1.2 := hcons
  have hnsndc : ∀ e ∈ c1, e.2.Nodup := hnsnd
  have hkvndc : ∀ g ∈ c4, (g.2.map Prod.fst).Nodup := hkvnd
  have hfinc : Storage.toFinalizeLeaves
      ⟨⟨c1, none⟩, ⟨c2, none⟩, ⟨c3, none⟩, ⟨c4, none⟩, ⟨c5, none⟩,
        ⟨c6, none⟩⟩ = .ok tr := hfin
  obtain ⟨pt, htree, hsto, hbranch, hsp'⟩ :=
    FStore.initializeMapping_fok rfl h
  obtain ⟨hm3, hm4, hs2'⟩ :=
    Storage.initializeMapping_ok ⟨rfl, rfl, rfl, rfl, rfl, rfl⟩ hsto
  have hs2 : st'.storage
      = ⟨⟨alInsert c1 p (setInsert ((alGet c1 p).getD []) m), none⟩,
         ⟨alInsert c2 p (Storage.newProgramIndex
           ⟨⟨c1, none⟩, ⟨c2, none⟩, ⟨c3, none⟩, ⟨c4, none⟩, ⟨c5, none⟩,
             ⟨c6, none⟩⟩ p), none⟩,
         ⟨alInsert c3 (p, m) (hashMappingID p m), none⟩,
         ⟨alInsert c4 (hashMappingID p m) [], none⟩,
         ⟨c5, none⟩, ⟨c6, none⟩⟩ := hs2'
  obtain ⟨hall3, hall4⟩ := programTree_ok_bindings hconsc htree
  have hm3n : alGet c3 (p, m) = none := alGet_eq_none_of_contains_false hm3
  have hmnotin : m ∉ (alGet c1 p).getD [] := fun hc =>
    Option.noConfusion (hm3n.symm.trans (hall3 m hc))
  have hnsn : ((alGet c1 p).getD []).Nodup := by
    rcases hg1 : alGet c1 p with _ | ns0
    · exact List.nodup_nil
    · exact hnsndc (p, ns0) (alGet_mem hg1)
  have hsetnd : (setInsert ((alGet c1 p).getD []) m).Nodup := by
    rw [setInsert, if_neg hmnotin]
    refine List.Nodup.append hnsn (List.nodup_singleton m) ?_
    intro a ha hb
    rw [List.mem_singleton.mp hb] at ha
    exact hmnotin ha
  have hcongr : ∀ (c2x c2y : List (Nat × Nat)) q, q ≠ p →
      Storage.toProgramTree
        ⟨⟨alInsert c1 p (setInsert ((alGet c1 p).getD []) m), none⟩,
          ⟨c2x, none⟩, ⟨alInsert c3 (p, m) (hashMappingID p m), none⟩,
          ⟨alInsert c4 (hashMappingID p m) [], none⟩, ⟨c5, none⟩,
          ⟨c6, none⟩⟩ q none
      = Storage.toProgramTree
          ⟨⟨c1, none⟩, ⟨c2y, none⟩, ⟨c3, none⟩, ⟨c4, none⟩, ⟨c5, none⟩,
            ⟨c6, none⟩⟩ q none := by
    intro c2x c2y q hqp
    refine toProgramTree_congr ?_ ?_ ?_
    · rw [alGet_alInsert]
      exact if_neg (fun hc => hqp hc.symm)
    · intro m9
      rw [alGet_alInsert]
      exact if_neg (fun hc => hqp (congrArg Prod.fst hc).symm)
    · intro m9 mid9 hm9
      have hmid9 : mid9 = hashMappingID q m9 := hconsc _ (alGet_mem hm9)
      rw [alGet_alInsert]
      refine if_neg ?_
      intro hc
      rw [hmid9] at hc
      exact hqp (hashMappingID_inj hc).1.symm
  rcases hbranch with ⟨idx, hpi, htr'⟩ | ⟨hpi, htr'⟩
  · -- the program already has a deployment index: leaf overwrite
    have hpi2 : alGet c2 p = some idx := hpi
    have hN : Storage.newProgramIndex
        ⟨⟨c1, none⟩, ⟨c2, none⟩, ⟨c3, none⟩, ⟨c4, none⟩, ⟨c5, none⟩,
          ⟨c6, none⟩⟩ p = idx := by
      rw [Storage.newProgramIndex]
      simp only [hpi2]
    have hself : alInsert c2 p idx = c2 := alInsert_self hpi2
    have hnew : Storage.toProgramTree
        ⟨⟨alInsert c1 p (setInsert ((alGet c1 p).getD []) m), none⟩,
          ⟨c2, none⟩, ⟨alInsert c3 (p, m) (hashMappingID p m), none⟩,
          ⟨alInsert c4 (hashMappingID p m) [], none⟩, ⟨c5, none⟩,
          ⟨c6, none⟩⟩ p none = .ok pt :=
      (initializeMapping_tree rfl hmnotin hall3 hall4).trans htree
    refine ⟨hsp', ?_, ?_, ?_, ?_, ?_, ?_, ?_⟩
    · rw [hs2]
      exact ⟨rfl, rfl, rfl, rfl, rfl, rfl⟩
    · rw [hs2]
      exact nodup_keys_alInsert p _ hndc
    · rw [hs2, hN, hself]
      exact hdensc
    · rw [hs2]
      intro e he
      rcases mem_alInsert he with h9 | h9
      · exact hconsc e h9
      · subst h9
        rfl
    · rw [hs2]
      intro e he
      rcases mem_alInsert he with h9 | h9
      · exact hnsndc e h9
      · subst h9
        exact hsetnd
    · rw [hs2]
      intro g hg9
      rcases mem_alInsert hg9 with h9 | h9
      · exact hkvndc g h9
      · subst h9
        exact List.nodup_nil
    · rw [hs2, htr', hN, hself]
      exact finOk_update_program hndc hdensc hfinc hpi2 hnew
        (fun q hq => hcongr c2 c2 q hq)
  · -- a fresh program: leaf appended at the next dense index
    have hpi2 : alGet c2 p = none := hpi
    have hN : Storage.newProgramIndex
        ⟨⟨c1, none⟩, ⟨c2, none⟩, ⟨c3, none⟩, ⟨c4, none⟩, ⟨c5, none⟩,
          ⟨c6, none⟩⟩ p = c2.length := newProgramIndex_dense hdensc hpi2
    have hins : alInsert c2 p c2.length = c2 ++ [(p, c2.length)] :=
      alInsert_of_get_none _ hpi2
    have hnotin : ∀ qi ∈ c2, qi.1 ≠ p := (alGet_eq_none_iff c2 p).mp hpi2
    have hdens2 : ((c2 ++ [(p, c2.length)]).map Prod.snd).Perm
        (List.range (c2 ++ [(p, c2.length)]).length) := by
      have h9 := List.range_succ c2.length
      have h10 : (c2 ++ [(p, c2.length)]).map Prod.snd
          = c2.map Prod.snd ++ [c2.length] := by
        rw [List.map_append]
        rfl
      have h11 : (c2 ++ [(p, c2.length)]).length = c2.length + 1 := by
        simp
      rw [h10, h11]
      refine (hdensc.append_right [c2.length]).trans ?_
      rw [← h9]
    obtain ⟨hlenold, hold⟩ := finOk_facts hdensc hfinc
    refine ⟨hsp', ?_, ?_, ?_, ?_, ?_, ?_, ?_⟩
    · rw [hs2]
      exact ⟨rfl, rfl, rfl, rfl, rfl, rfl⟩
    · rw [hs2]
      exact nodup_keys_alInsert p _ hndc
    · rw [hs2, hN, hins]
      exact hdens2
    · rw [hs2]
      intro e he
      rcases mem_alInsert he with h9 | h9
      · exact hconsc e h9
      · subst h9
        rfl
    · rw [hs2]
      intro e he
      rcases mem_alInsert he with h9 | h9
      · exact hnsndc e h9
      · subst h9
        exact hsetnd
    · rw [hs2]
      intro g hg9
      rcases mem_alInsert hg9 with h9 | h9
      · exact hkvndc g h9
      · subst h9
        exact List.nodup_nil
    · rw [hs2, htr', hN, hins]
      refine finOk_intro hdens2 ?_ ?_
      · show (tr ++ [merkleRoot pt]).length = (c2 ++ [(p, c2.length)]).length
        rw [List.length_append, List.length_append, hlenold]
        rfl
      · intro qi hqi
        rcases List.mem_append.mp hqi with h9 | h9
        · have hq1 : qi.1 ≠ p := hnotin qi h9
          obtain ⟨pt9, hpt9, hg9⟩ := hold qi h9
          refine ⟨pt9, ?_, ?_⟩
          · rw [hcongr (c2 ++ [(p, c2.length)]) c2 qi.1 hq1]
            exact hpt9
          · have hq2 : qi.2 < tr.length := by
              rw [hlenold]
              exact List.mem_range.mp (hdensc.mem_iff.mp
                (List.mem_map.mpr ⟨qi, h9, rfl⟩))
            show (tr ++ [merkleRoot pt]).get? qi.2 = some (merkleRoot pt9)
            rw [List.get?_append hq2]
            exact hg9
        · have hq9 : qi = (p, c2.length) := List.mem_singleton.mp h9
          subst hq9
          refine ⟨pt, ?_, ?_⟩
          · exact (initializeMapping_tree rfl hmnotin hall3 hall4).trans
              htree
          · show (tr ++ [merkleRoot pt]).get? c2.length
              = some (merkleRoot pt)
            rw [← hlenold]
            exact List.get?_concat_length tr (merkleRoot pt)

/-- `GoodStore` is preserved by a successful non-speculative
`insert_key_value`. -/
theorem goodStore_insertKeyValue {st st' : FStore} {p m k v : Nat}
    (hg : GoodStore st) (h : st.insertKeyValue p m k v = (.ok (), st')) :
    GoodStore st' := by
  obtain ⟨hsp, hq, hnd, hdens, hcons, hnsnd, hkvnd, hfin⟩ := hg
  obtain ⟨⟨⟨c1, pd1⟩, ⟨c2, pd2⟩, ⟨c3, pd3⟩, ⟨c4, pd4⟩, ⟨c5, pd5⟩,
    ⟨c6, pd6⟩⟩, tr, sp⟩ := st
  obtain ⟨h1q, h2q, h3q, h4q, h5q, h6q⟩ := hq
  cases h1q; cases h2q; cases h3q; cases h4q; cases h5q; cases h6q
  have hsp0 : sp = false := hsp
  subst hsp0
  have hndc : (c2.map Prod.fst).Nodup := hnd
  have hdensc : (c2.map Prod.snd).Perm (List.range c2.length) := hdens
  have hconsc : ∀ e ∈ c3, e.2 = hashMappingID e.1.1 e.1.2 := hcons
  have hnsndc : ∀ e ∈ c1, e.2.Nodup := hnsnd
  have hkvndc : ∀ g ∈ c4, (g.2.map Prod.fst).Nodup := hkvnd
  have hfinc : Storage.toFinalizeLeaves
      ⟨⟨c1, none⟩, ⟨c2, none⟩, ⟨c3, none⟩, ⟨c4, none⟩, ⟨c5, none⟩,
        ⟨c6, none⟩⟩ = .ok tr := hfin
  obtain ⟨mid, pt, idx, hmid, htree, hpi, hsto, htr', hsp'⟩ :=
    FStore.insertKeyValue_fok rfl h
  obtain ⟨mid2, kvs, hmid2, hc5', hkv, hkvc, hs2'⟩ :=
    Storage.insertKeyValue_ok ⟨rfl, rfl, rfl, rfl, rfl, rfl⟩ hsto
  have hmid' : alGet c3 (p, m) = some mid := hmid
  have hmideq : mid = mid2 := Option.some.inj
    (hmid'.symm.trans (show alGet c3 (p, m) = some mid2 from hmid2))
  subst hmideq
  have hpi2 : alGet c2 p = some idx := hpi
  have hkv' : alGet c4 mid = some kvs := hkv
  have hs2 : st'.storage
      = ⟨⟨c1, none⟩, ⟨c2, none⟩, ⟨c3, none⟩,
         ⟨alInsert c4 mid (alInsert kvs (keyIdOf mid k)
           (valueIdOf (keyIdOf mid k) v)), none⟩,
         ⟨alInsert c5 (keyIdOf mid k) k, none⟩,
         ⟨alInsert c6 (keyIdOf mid k) v, none⟩⟩ := hs2'
  have hkvc' : alGet kvs (keyIdOf mid k) = none :=
    alGet_eq_none_of_contains_false hkvc
  have hmidh : mid = hashMappingID p m := hconsc _ (alGet_mem hmid')
  have hkvsnd : (kvs.map Prod.fst).Nodup := hkvndc (mid, kvs) (alGet_mem hkv')
  have hnew : Storage.toProgramTree
      ⟨⟨c1, none⟩, ⟨c2, none⟩, ⟨c3, none⟩,
        ⟨alInsert c4 mid (alInsert kvs (keyIdOf mid k)
          (valueIdOf (keyIdOf mid k) v)), none⟩,
        ⟨alInsert c5 (keyIdOf mid k) k, none⟩,
        ⟨alInsert c6 (keyIdOf mid k) v, none⟩⟩ p none = .ok pt := by
    refine (toProgramTree_value_update rfl ?_ ?_).trans htree
    · intro m9 hm9
      exact insertValue_point hkv' hkvc'
    · intro acc
      rfl
  have hcongr : ∀ q, q ≠ p →
      Storage.toProgramTree
        ⟨⟨c1, none⟩, ⟨c2, none⟩, ⟨c3, none⟩,
          ⟨alInsert c4 mid (alInsert kvs (keyIdOf mid k)
            (valueIdOf (keyIdOf mid k) v)), none⟩,
          ⟨alInsert c5 (keyIdOf mid k) k, none⟩,
          ⟨alInsert c6 (keyIdOf mid k) v, none⟩⟩ q none
      = Storage.toProgramTree
          ⟨⟨c1, none⟩, ⟨c2, none⟩, ⟨c3, none⟩, ⟨c4, none⟩, ⟨c5, none⟩,
            ⟨c6, none⟩⟩ q none := by
    intro q hqp
    refine toProgramTree_congr rfl (fun m9 => rfl) ?_
    intro m9 mid9 hm9
    have hmid9 : mid9 = hashMappingID q m9 := hconsc _ (alGet_mem hm9)
    rw [alGet_alInsert]
    refine if_neg ?_
    intro hc
    rw [hmidh, hmid9] at hc
    exact hqp (hashMappingID_inj hc).1.symm
  refine ⟨hsp', ?_, ?_, ?_, ?_, ?_, ?_, ?_⟩
  · rw [hs2]
    exact ⟨rfl, rfl, rfl, rfl, rfl, rfl⟩
  · rw [hs2]
    exact hndc
  · rw [hs2]
    exact hdensc
  · rw [hs2]
    exact hconsc
  · rw [hs2]
    exact hnsndc
  · rw [hs2]
    intro g hg9
    rcases mem_alInsert hg9 with h9 | h9
    · exact hkvndc g h9
    · subst h9
      exact nodup_keys_alInsert _ _ hkvsnd
  · rw [hs2, htr']
    exact finOk_update_program hndc hdensc hfinc hpi2 hnew hcongr

/-- `GoodStore` is preserved by a successful non-speculative
`update_key_value`. -/
theorem goodStore_updateKeyValue {st st' : FStore} {p m k v : Nat}
    (hg : GoodStore st) (h : st.updateKeyValue p m k v = (.ok (), st')) :
    GoodStore st' := by
  obtain ⟨hsp, hq, hnd, hdens, hcons, hnsnd, hkvnd, hfin⟩ := hg
  obtain ⟨⟨⟨c1, pd1⟩, ⟨c2, pd2⟩, ⟨c3, pd3⟩, ⟨c4, pd4⟩, ⟨c5, pd5⟩,
    ⟨c6, pd6⟩⟩, tr, sp⟩ := st
  obtain ⟨h1q, h2q, h3q, h4q, h5q, h6q⟩ := hq
  cases h1q; cases h2q; cases h3q; cases h4q; cases h5q; cases h6q
  have hsp0 : sp = false := hsp
  subst hsp0
  have hndc : (c2.map Prod.fst).Nodup := hnd
  have hdensc : (c2.map Prod.snd).Perm (List.range c2.length) := hdens
  have hconsc : ∀ e ∈ c3, e.2 = hashMappingID e.1.1 e.1.2 := hcons
  have hnsndc : ∀ e ∈ c1, e.2.Nodup := hnsnd
  have hkvndc : ∀ g ∈ c4, (g.2.map Prod.fst).Nodup := hkvnd
  have hfinc : Storage.toFinalizeLeaves
      ⟨⟨c1, none⟩, ⟨c2, none⟩, ⟨c3, none⟩, ⟨c4, none⟩, ⟨c5, none⟩,
        ⟨c6, none⟩⟩ = .ok tr := hfin
  obtain ⟨mid, kvm, pt, idx, hmid, hkvm, hbranch, hpi, hsto, htr', hsp'⟩ :=
    FStore.updateKeyValue_fok rfl h
  obtain ⟨mid2, kvs2, hmid2, hkv2, hno, hs2'⟩ :=
    Storage.updateKeyValue_ok ⟨rfl, rfl, rfl, rfl, rfl, rfl⟩ hsto
  have hmid' : alGet c3 (p, m) = some mid := hmid
  have hmideq : mid = mid2 := Option.some.inj
    (hmid'.symm.trans (show alGet c3 (p, m) = some mid2 from hmid2))
  subst hmideq
  have hkvm' : alGet c4 mid = some kvm := hkvm
  have hkveq : kvm = kvs2 := Option.some.inj
    (hkvm'.symm.trans (show alGet c4 mid = some kvs2 from hkv2))
  subst hkveq
  have hpi2 : alGet c2 p = some idx := hpi
  have hs2 : st'.storage
      = ⟨⟨c1, none⟩, ⟨c2, none⟩, ⟨c3, none⟩,
         ⟨alInsert c4 mid (alInsert kvm (keyIdOf mid k)
           (valueIdOf (keyIdOf mid k) v)), none⟩,
         ⟨alInsert c5 (keyIdOf mid k) k, none⟩,
         ⟨alInsert c6 (keyIdOf mid k) v, none⟩⟩ := hs2'
  have hmidh : mid = hashMappingID p m := hconsc _ (alGet_mem hmid')
  have hkvsnd : (kvm.map Prod.fst).Nodup := hkvndc (mid, kvm) (alGet_mem hkvm')
  have hnew : Storage.toProgramTree
      ⟨⟨c1, none⟩, ⟨c2, none⟩, ⟨c3, none⟩,
        ⟨alInsert c4 mid (alInsert kvm (keyIdOf mid k)
          (valueIdOf (keyIdOf mid k) v)), none⟩,
        ⟨alInsert c5 (keyIdOf mid k) k, none⟩,
        ⟨alInsert c6 (keyIdOf mid k) v, none⟩⟩ p none = .ok pt := by
    rcases hbranch with ⟨kidIdx, hidx, htree⟩ | ⟨hnone, htree⟩
    · rcases hv0 : alGet kvm (keyIdOf mid k) with _ | v0
      · have h9 := alIndexOf_of_get_none hv0
        rw [hidx] at h9
        exact Option.noConfusion h9
      · obtain ⟨l1, l2, hsplit, hl1⟩ := alGet_eq_some_split hv0
        subst hsplit
        have hkidIdx : kidIdx = l1.length :=
          Option.some.inj (hidx.symm.trans (alIndexOf_append_cons v0 hl1))
        rw [hkidIdx] at htree
        refine (toProgramTree_value_update rfl ?_ ?_).trans htree
        · intro m9 hm9
          exact updateValue_point hkvm' hl1
        · intro acc
          rfl
    · have hkin : alGet kvm (keyIdOf mid k) = none :=
        alGet_none_of_alIndexOf_none hnone
      refine (toProgramTree_value_update rfl ?_ ?_).trans htree
      · intro m9 hm9
        exact insertValue_point hkvm' hkin
      · intro acc
        rfl
  have hcongr : ∀ q, q ≠ p →
      Storage.toProgramTree
        ⟨⟨c1, none⟩, ⟨c2, none⟩, ⟨c3, none⟩,
          ⟨alInsert c4 mid (alInsert kvm (keyIdOf mid k)
            (valueIdOf (keyIdOf mid k) v)), none⟩,
          ⟨alInsert c5 (keyIdOf mid k) k, none⟩,
          ⟨alInsert c6 (keyIdOf mid k) v, none⟩⟩ q none
      = Storage.toProgramTree
          ⟨⟨c1, none⟩, ⟨c2, none⟩, ⟨c3, none⟩, ⟨c4, none⟩, ⟨c5, none⟩,
            ⟨c6, none⟩⟩ q none := by
    intro q hqp
    refine toProgramTree_congr rfl (fun m9 => rfl) ?_
    intro m9 mid9 hm9
    have hmid9 : mid9 = hashMappingID q m9 := hconsc _ (alGet_mem hm9)
    rw [alGet_alInsert]
    refine if_neg ?_
    intro hc
    rw [hmidh, hmid9] at hc
    exact hqp (hashMappingID_inj hc).1.symm
  refine ⟨hsp', ?_, ?_, ?_, ?_, ?_, ?_, ?_⟩
  · rw [hs2]
    exact ⟨rfl, rfl, rfl, rfl, rfl, rfl⟩
  · rw [hs2]
    exact hndc
  · rw [hs2]
    exact hdensc
  · rw [hs2]
    exact hconsc
  · rw [hs2]
    exact hnsndc
  · rw [hs2]
    intro g hg9
    rcases mem_alInsert hg9 with h9 | h9
    · exact hkvndc g h9
    · subst h9
      exact nodup_keys_alInsert _ _ hkvsnd
  · rw [hs2, htr']
    exact finOk_update_program hndc hdensc hfinc hpi2 hnew hcongr

/-- `GoodStore` is preserved by a successful non-speculative
`remove_key_value`. -/
theorem goodStore_removeKeyValue {st st' : FStore} {p m k : Nat}
    (hg : GoodStore st) (h : st.removeKeyValue p m k = (.ok (), st')) :
    GoodStore st' := by
  obtain ⟨hsp, hq, hnd, hdens, hcons, hnsnd, hkvnd, hfin⟩ := hg
  obtain ⟨⟨⟨c1, pd1⟩, ⟨c2, pd2⟩, ⟨c3, pd3⟩, ⟨c4, pd4⟩, ⟨c5, pd5⟩,
    ⟨c6, pd6⟩⟩, tr, sp⟩ := st
  obtain ⟨h1q, h2q, h3q, h4q, h5q, h6q⟩ := hq
  cases h1q; cases h2q; cases h3q; cases h4q; cases h5q; cases h6q
  have hsp0 : sp = false := hsp
  subst hsp0
  have hndc : (c2.map Prod.fst).Nodup := hnd
  have hdensc : (c2.map Prod.snd).Perm (List.range c2.length) := hdens
  have hconsc : ∀ e ∈ c3, e.2 = hashMappingID e.1.1 e.1.2 := hcons
  have hnsndc : ∀ e ∈ c1, e.2.Nodup := hnsnd
  have hkvndc : ∀ g ∈ c4, (g.2.map Prod.fst).Nodup := hkvnd
  have hfinc : Storage.toFinalizeLeaves
      ⟨⟨c1, none⟩, ⟨c2, none⟩, ⟨c3, none⟩, ⟨c4, none⟩, ⟨c5, none⟩,
        ⟨c6, none⟩⟩ = .ok tr := hfin
  obtain ⟨mid, kvm, kidIdx, pt, idx, hmid, hkvm, hidx, htree, hpi, hsto,
    htr', hsp'⟩ := FStore.removeKeyValue_fok rfl h
  obtain ⟨mid2, kvs2, hmid2, hkv2, hcont, hs2'⟩ :=
    Storage.removeKeyValue_ok ⟨rfl, rfl, rfl, rfl, rfl, rfl⟩ hsto
  have hmid' : alGet c3 (p, m) = some mid := hmid
  have hmideq : mid = mid2 := Option.some.inj
    (hmid'.symm.trans (show alGet c3 (p, m) = some mid2 from hmid2))
  subst hmideq
  have hkvm' : alGet c4 mid = some kvm := hkvm
  have hkveq : kvm = kvs2 := Option.some.inj
    (hkvm'.symm.trans (show alGet c4 mid = some kvs2 from hkv2))
  subst hkveq
  have hpi2 : alGet c2 p = some idx := hpi
  have hs2 : st'.storage
      = ⟨⟨c1, none⟩, ⟨c2, none⟩, ⟨c3, none⟩,
         ⟨alInsert c4 mid (alRemove kvm (keyIdOf mid k)), none⟩,
         ⟨alRemove c5 (keyIdOf mid k), none⟩,
         ⟨alRemove c6 (keyIdOf mid k), none⟩⟩ := hs2'
  have hmidh : mid = hashMappingID p m := hconsc _ (alGet_mem hmid')
  have hkvsnd : (kvm.map Prod.fst).Nodup := hkvndc (mid, kvm) (alGet_mem hkvm')
  have hnew : Storage.toProgramTree
      ⟨⟨c1, none⟩, ⟨c2, none⟩, ⟨c3, none⟩,
        ⟨alInsert c4 mid (alRemove kvm (keyIdOf mid k)), none⟩,
        ⟨alRemove c5 (keyIdOf mid k), none⟩,
        ⟨alRemove c6 (keyIdOf mid k), none⟩⟩ p none = .ok pt := by
    rcases hv0 : alGet kvm (keyIdOf mid k) with _ | v0
    · have h9 := alIndexOf_of_get_none hv0
      rw [hidx] at h9
      exact Option.noConfusion h9
    · obtain ⟨l1, l2, hsplit, hl1⟩ := alGet_eq_some_split hv0
      subst hsplit
      have hl2 : ∀ e ∈ l2, e.1 ≠ keyIdOf mid k := by
        intro e he hc
        rw [List.map_append, List.map_cons, List.nodup_append] at hkvsnd
        rcases hkvsnd with ⟨-, hb, -⟩
        rcases List.nodup_cons.mp hb with ⟨hb1, -⟩
        exact hb1 (hc ▸ List.mem_map.mpr ⟨e, he, rfl⟩)
      have hkidIdx : kidIdx = l1.length :=
        Option.some.inj (hidx.symm.trans (alIndexOf_append_cons v0 hl1))
      rw [hkidIdx] at htree
      refine (toProgramTree_value_update rfl ?_ ?_).trans htree
      · intro m9 hm9
        exact removeValue_point hkvm' hl1 hl2
      · intro acc
        rfl
  have hcongr : ∀ q, q ≠ p →
      Storage.toProgramTree
        ⟨⟨c1, none⟩, ⟨c2, none⟩, ⟨c3, none⟩,
          ⟨alInsert c4 mid (alRemove kvm (keyIdOf mid k)), none⟩,
          ⟨alRemove c5 (keyIdOf mid k), none⟩,
          ⟨alRemove c6 (keyIdOf mid k), none⟩⟩ q none
      = Storage.toProgramTree
          ⟨⟨c1, none⟩, ⟨c2, none⟩, ⟨c3, none⟩, ⟨c4, none⟩, ⟨c5, none⟩,
            ⟨c6, none⟩⟩ q none := by
    intro q hqp
    refine toProgramTree_congr rfl (fun m9 => rfl) ?_
    intro m9 mid9 hm9
    have hmid9 : mid9 = hashMappingID q m9 := hconsc _ (alGet_mem hm9)
    rw [alGet_alInsert]
    refine if_neg ?_
    intro hc
    rw [hmidh, hmid9] at hc
    exact hqp (hashMappingID_inj hc).1.symm
  refine ⟨hsp', ?_, ?_, ?_, ?_, ?_, ?_, ?_⟩
  · rw [hs2]
    exact ⟨rfl, rfl, rfl, rfl, rfl, rfl⟩
  · rw [hs2]
    exact hndc
  · rw [hs2]
    exact hdensc
  · rw [hs2]
    exact hconsc
  · rw [hs2]
    exact hnsndc
  · rw [hs2]
    intro g hg9
    rcases mem_alInsert hg9 with h9 | h9
    · exact hkvndc g h9
    · subst h9
      exact nodup_keys_alRemove _ hkvsnd
  · rw [hs2, htr']
    exact finOk_update_program hndc hdensc hfinc hpi2 hnew hcongr

/-- `GoodStore` is preserved by a successful non-speculative
`remove_mapping`. -/
theorem goodStore_removeMapping {st st' : FStore} {p m : Nat}
    (hg : GoodStore st) (h : st.removeMapping p m = (.ok (), st')) :
    GoodStore st' := by
  obtain ⟨hsp, hq, hnd, hdens, hcons, hnsnd, hkvnd, hfin⟩ := hg
  obtain ⟨⟨⟨c1, pd1⟩, ⟨c2, pd2⟩, ⟨c3, pd3⟩, ⟨c4, pd4⟩, ⟨c5, pd5⟩,
    ⟨c6, pd6⟩⟩, tr, sp⟩ := st
  obtain ⟨h1q, h2q, h3q, h4q, h5q, h6q⟩ := hq
  cases h1q; cases h2q; cases h3q; cases h4q; cases h5q; cases h6q
  have hsp0 : sp = false := hsp
  subst hsp0
  have hndc : (c2.map Prod.fst).Nodup := hnd
  have hdensc : (c2.map Prod.snd).Perm (List.range c2.length) := hdens
  have hconsc : ∀ e ∈ c3, e.2 = hashMappingID e.1.1 e.1.2 := hcons
  have hnsndc : ∀ e ∈ c1, e.2.Nodup := hnsnd
  have hkvndc : ∀ g ∈ c4, (g.2.map Prod.fst).Nodup := hkvnd
  have hfinc : Storage.toFinalizeLeaves
      ⟨⟨c1, none⟩, ⟨c2, none⟩, ⟨c3, none⟩, ⟨c4, none⟩, ⟨c5, none⟩,
        ⟨c6, none⟩⟩ = .ok tr := hfin
  obtain ⟨mid, pt, idx, hmid, htree, hpi, hsto, htr', hsp'⟩ :=
    FStore.removeMapping_fok rfl h
  obtain ⟨mid2, kvs, ns, hmid2, hkv, hns, hmem, hs2'⟩ :=
    Storage.removeMapping_ok ⟨rfl, rfl, rfl, rfl, rfl, rfl⟩ hsto
  have hmid' : alGet c3 (p, m) = some mid := hmid
  have hmideq : mid = mid2 := Option.some.inj
    (hmid'.symm.trans (show alGet c3 (p, m) = some mid2 from hmid2))
  subst hmideq
  have hns' : alGet c1 p = some ns := hns
  have hpi2 : alGet c2 p = some idx := hpi
  have hs2 : st'.storage
      = ⟨⟨alInsert c1 p (setRemove ns m), none⟩, ⟨c2, none⟩,
         ⟨alRemove c3 (p, m), none⟩, ⟨alRemove c4 mid, none⟩,
         ⟨Storage.removeAllKeys kvs c5, none⟩,
         ⟨Storage.removeAllKeys kvs c6, none⟩⟩ := hs2'
  obtain ⟨hall3, hall4⟩ := programTree_ok_bindings hconsc htree
  rw [hns'] at hall3 hall4
  have hmidh : mid = hashMappingID p m := hconsc _ (alGet_mem hmid')
  have hnsn : ns.Nodup := hnsndc (p, ns) (alGet_mem hns')
  have hnew : Storage.toProgramTree
      ⟨⟨alInsert c1 p (setRemove ns m), none⟩, ⟨c2, none⟩,
        ⟨alRemove c3 (p, m), none⟩, ⟨alRemove c4 mid, none⟩,
        ⟨Storage.removeAllKeys kvs c5, none⟩,
        ⟨Storage.removeAllKeys kvs c6, none⟩⟩ p none = .ok pt :=
    (removeMapping_tree hns' hmem hnsn hmidh hall3 hall4).trans htree
  have hcongr : ∀ q, q ≠ p →
      Storage.toProgramTree
        ⟨⟨alInsert c1 p (setRemove ns m), none⟩, ⟨c2, none⟩,
          ⟨alRemove c3 (p, m), none⟩, ⟨alRemove c4 mid, none⟩,
          ⟨Storage.removeAllKeys kvs c5, none⟩,
          ⟨Storage.removeAllKeys kvs c6, none⟩⟩ q none
      = Storage.toProgramTree
          ⟨⟨c1, none⟩, ⟨c2, none⟩, ⟨c3, none⟩, ⟨c4, none⟩, ⟨c5, none⟩,
            ⟨c6, none⟩⟩ q none := by
    intro q hqp
    refine toProgramTree_congr ?_ ?_ ?_
    · rw [alGet_alInsert]
      exact if_neg (fun hc => hqp hc.symm)
    · intro m9
      exact alGet_alRemove_ne c3 (fun hc => hqp (congrArg Prod.fst hc))
    · intro m9 mid9 hm9
      have hmid9 : mid9 = hashMappingID q m9 := hconsc _ (alGet_mem hm9)
      refine alGet_alRemove_ne c4 ?_
      intro hc
      rw [hmid9, hmidh] at hc
      exact hqp (hashMappingID_inj hc).1
  refine ⟨hsp', ?_, ?_, ?_, ?_, ?_, ?_, ?_⟩
  · rw [hs2]
    exact ⟨rfl, rfl, rfl, rfl, rfl, rfl⟩
  · rw [hs2]
    exact hndc
  · rw [hs2]
    exact hdensc
  · rw [hs2]
    intro e he
    exact hconsc e (mem_alRemove_sub he)
  · rw [hs2]
    intro e he
    rcases mem_alInsert he with h9 | h9
    · exact hnsndc e h9
    · subst h9
      exact List.Nodup.filter _ hnsn
  · rw [hs2]
    intro g hg9
    exact hkvndc g (mem_alRemove_sub hg9)
  · rw [hs2, htr']
    exact finOk_update_program hndc hdensc hfinc hpi2 hnew hcongr

/-- `GoodStore` is preserved by a successful non-speculative
`remove_program`. -/
theorem goodStore_removeProgram {st st' : FStore} {p : Nat}
    (hg : GoodStore st) (h : st.removeProgram p = (.ok (), st')) :
    GoodStore st' := by
  obtain ⟨hsp, hq, hnd, hdens, hcons, hnsnd, hkvnd, hfin⟩ := hg
  obtain ⟨hsto, hfin', hsp'⟩ := FStore.removeProgram_fok hsp h
  obtain ⟨ns, depIdx, C3, C4, C5, C6, hns, hdep, hpure, hs2⟩ :=
    Storage.removeProgram_ok hq hsto
  obtain ⟨hnd', hlen', hiff', hshift', hdens'⟩ :=
    removeProgram_index_spec hq hnd hdens hdep hsto
  obtain ⟨hsub3, hsub4⟩ := removeProgramLoopPure_sub p ns
    st.storage.mappingIDMap.committed st.storage.keyValueIDMap.committed
    st.storage.keyMap.committed st.storage.valueMap.committed hpure
  refine ⟨hsp', ?_, hnd', ?_, ?_, ?_, ?_, hfin'⟩
  · rw [hs2]
    exact ⟨rfl, rfl, rfl, rfl, rfl, rfl⟩
  · rw [hlen']
    exact hdens'
  · intro e he
    rw [hs2] at he
    exact hcons e (hsub3 e he)
  · intro e he
    rw [hs2] at he
    exact hnsnd e (mem_alRemove_sub he)
  · intro g hg9
    rw [hs2] at hg9
    exact hkvnd g (hsub4 g hg9)

/-- Every state reached from a fresh store by successful
non-speculative mutators satisfies the invariant. -/
theorem reaches_goodStore {st : FStore} (h : Reaches st) : GoodStore st := by
  induction h with
  | init =>
      exact ⟨rfl, ⟨rfl, rfl, rfl, rfl, rfl, rfl⟩, List.nodup_nil,
        List.Perm.refl _, fun e he => absurd he (List.not_mem_nil e),
        fun e he => absurd he (List.not_mem_nil e),
        fun g hg9 => absurd hg9 (List.not_mem_nil g), rfl⟩
  | initializeMapping r e ih => exact goodStore_initializeMapping ih e
  | insertKeyValue r e ih => exact goodStore_insertKeyValue ih e
  | updateKeyValue r e ih => exact goodStore_updateKeyValue ih e
  | removeKeyValue r e ih => exact goodStore_removeKeyValue ih e
  | removeMapping r e ih => exact goodStore_removeMapping ih e
  | removeProgram r e ih => exact goodStore_removeProgram ih e

/-- **C1.** In every state reached by a sequence of successful
`FinalizeStore` mutators executed with `is_speculate == false`,
`current_storage_root()` equals the root of the tree returned by
`to_finalize_tree()` recomputed from scratch over the six storage
maps. -/
theorem C1_cached_root_matches_recomputed_tree (st : FStore)
    (h : Reaches st) :
    ∃ leaves, st.storage.toFinalizeLeaves = .ok leaves ∧
      st.currentStorageRoot = merkleRoot leaves := by
  obtain ⟨-, -, -, -, -, -, -, hfin⟩ := reaches_goodStore h
  exact ⟨st.tree, hfin, rfl⟩

theorem C1_cached_root_matches_recomputed_tree_witness :
    ∃ leaves, FStore.initialStore.storage.toFinalizeLeaves = .ok leaves ∧
      FStore.initialStore.currentStorageRoot = merkleRoot leaves :=
  C1_cached_root_matches_recomputed_tree FStore.initialStore Reaches.init

end FinalizeStore
